import Mathlib

/-!
Verification of the stone repository's ordered-map storage engine
(B-Tree with pluggable slab, RangeMap layered on it, and the sibling
red-black tree set algebra) against its natural-language specification.

The Lean definitions below are shallow embeddings of the Rust sources:

- `src/components/collections/btree/src/generic/node.rs` (`Offset`, node shells)
- `src/components/collections/btree/src/generic/node/item.rs` (`Item`)
- `src/components/collections/btree/src/generic/map/mod.rs`
  (`BTreeMap` struct, `new`, `is_empty`, `len`, and the rebalancing stubs
  `try_rotate_left`, `try_rotate_right`, `merge`)
- `src/components/collections/range_tree/src/generic/map.rs`
  (`binary_search`, `Gaps::next`, `RangeMap` operations)
- `src/components/collections/rb_tree/src/rbtree.rs`
  (the `Difference`, `Intersection`, `Union` merge-walk iterators)

Machine integers (`usize`) are embedded as `Nat`; `usize::MAX` is the
explicit constant `USIZE_MAX`.  Code whose Rust form panics (`todo!()`)
is embedded as an `Option`-returning function producing `none`.
-/

namespace Stone

/-- Embedding of `usize::MAX` on a 64-bit target. -/
def USIZE_MAX : Nat := 2 ^ 64 - 1

/-!
Offset, from `btree/src/generic/node.rs`.
`Offset` is a newtype over `usize`; the value `usize::MAX` is the
distinguished before-first sentinel.
-/

/-- Offset in a node: a `usize` wrapper (node.rs line 24). -/
structure Offset where
  val : Nat
deriving DecidableEq, Repr

/-- Embedding of `Offset::before` (node.rs lines 27-29). -/
def Offset.before : Offset := ⟨USIZE_MAX⟩

/-- Embedding of `Offset::is_before` (node.rs lines 31-33). -/
def Offset.is_before (o : Offset) : Bool := o.val == USIZE_MAX

/-- Embedding of `Offset::value` (node.rs lines 35-41). -/
def Offset.value (o : Offset) : Option Nat :=
  if o.val == USIZE_MAX then none else some o.val

/-- Embedding of `Offset::decr` (node.rs lines 51-57): if the value is `0`
it becomes `usize::MAX` (the sentinel), otherwise it is decremented. -/
def Offset.decr (o : Offset) : Offset :=
  if o.val == 0 then ⟨USIZE_MAX⟩ else ⟨o.val - 1⟩

/-- Embedding of `Ord for Offset` (node.rs lines 76-90). -/
def Offset.cmp (a b : Offset) : Ordering :=
  if a.val == USIZE_MAX || b.val == USIZE_MAX then
    if a.val == USIZE_MAX && b.val == USIZE_MAX then Ordering.eq
    else if a.val == USIZE_MAX then Ordering.lt
    else Ordering.gt
  else compare a.val b.val

/-- Embedding of `PartialOrd for Offset` (node.rs lines 60-74); it mirrors
`Ord` and is always defined. -/
def Offset.partial_cmp (a b : Offset) : Option Ordering := some (Offset.cmp a b)

/-- Embedding of `PartialEq for Offset and usize` (node.rs lines 92-96):
an offset equals an integer only when it is not the sentinel. -/
def Offset.eq_usize (o : Offset) (n : Nat) : Bool :=
  o.val != USIZE_MAX && o.val == n

/-- Embedding of `From of usize for Offset` (node.rs lines 98-102): the raw
integer is wrapped unchanged. -/
def Offset.fromUsize (n : Nat) : Offset := ⟨n⟩

/-- Order-reflecting key for offsets: the sentinel maps to `0`, a concrete
index `i` maps to `i + 1`.  Used only to transport the total-order laws of
`Nat.compare` to `Offset.cmp`. -/
def Offset.okey (o : Offset) : Nat :=
  if o.val = USIZE_MAX then 0 else o.val + 1

/-!
Item, from `btree/src/generic/node/item.rs`.  The Rust source stores the
two fields in manually managed `MaybeUninit` cells that are always both
initialized whenever an item is observed (spec section 3 and section 9);
the embedding is the always-both-initialized pair.
-/

/-- An owned key-value pair (item.rs lines 11-21). -/
structure Item (K V : Type) where
  key : K
  value : V
deriving DecidableEq, Repr

/-- Embedding of `Item::new` (item.rs lines 41-46). -/
def Item.new (key : K) (value : V) : Item K V := ⟨key, value⟩

/-- Embedding of `PartialEq for Item` (item.rs lines 191-195): only the keys
are compared. -/
def Item.eq [BEq K] (a b : Item K V) : Bool := a.key == b.key

/-- Embedding of `PartialOrd for Item` (item.rs lines 197-201): always
`Some` of the key comparison. -/
def Item.partial_cmp [Ord K] (a b : Item K V) : Option Ordering :=
  some (Ord.compare a.key b.key)

/-- Derived equality of item sequences, as produced by the container
`PartialEq` instances: equal lengths and pointwise `Item` equality. -/
def itemsEq [BEq K] (l₁ l₂ : List (Item K V)) : Bool :=
  l₁.length == l₂.length && (List.zip l₁ l₂).all fun p => Item.eq p.1 p.2

/-!
BTreeMap shell, from `btree/src/generic/map/mod.rs`.  The struct holds the
slab of nodes, the optional root id and the item count; `new`, `is_empty`
and `len` are lines 170-218 of that file.
-/

/-- Knuth order of the B-Trees (map/mod.rs line 21). -/
def M : Nat := 8

/-- A branch of an internal node: a separator item and the id of the child
to its right.

Modelled from the spec: `internal.rs` is not present under `src/`; spec
section 3 defines a branch as (separator Item, right-child-id). -/
structure Branch (K V : Type) where
  item : Item K V
  child : Nat
deriving DecidableEq, Repr

/-- An internal node: the leftmost child id stored separately, then the
branches.

Modelled from the spec: `internal.rs` is not present under `src/`; spec
section 3 says an internal node has one more child-id than items, with the
leftmost child-id stored separately. -/
structure InternalNode (K V : Type) where
  first_child : Nat
  other_children : List (Branch K V)
deriving DecidableEq, Repr

/-- A leaf node: an ordered sequence of items.

Modelled from the spec: `leaf.rs` is not present under `src/`; spec
section 3 defines a leaf as an ordered sequence of items with no
children. -/
structure LeafNode (K V : Type) where
  items : List (Item K V)
deriving DecidableEq, Repr

/-- A node is either internal or a leaf (node.rs declares the variants via
`internal.rs` and `leaf.rs`). -/
inductive Node (K V : Type) where
  | Internal (node : InternalNode K V)
  | Leaf (node : LeafNode K V)
deriving DecidableEq, Repr

/-- An address inside the tree: a node id paired with an offset.

Modelled from the spec: `addr.rs` is not present under `src/`; spec
section 3 defines an Address as (node_id, Offset). -/
structure Address where
  id : Nat
  offset : Offset
deriving DecidableEq, Repr

/-- The map structure (map/mod.rs lines 155-168): a slab of nodes, an
optional root id, and the tracked item count. -/
structure BTreeMap (K V C : Type) where
  nodes : C
  root : Option Nat
  len : Nat
deriving DecidableEq, Repr

/-- Embedding of `BTreeMap::new` (map/mod.rs lines 170-184): default slab,
no root, zero length. -/
def BTreeMap.new [Inhabited C] : BTreeMap K V C :=
  { nodes := default, root := none, len := 0 }

/-- Embedding of `BTreeMap::is_empty` (map/mod.rs lines 198-201): the body
tests whether `root` is `None`. -/
def BTreeMap.is_empty (m : BTreeMap K V C) : Bool := m.root.isNone

/-- Embedding of `BTreeMap::len` (map/mod.rs lines 215-218): returns the
`len` field. -/
def BTreeMap.length (m : BTreeMap K V C) : Nat := m.len

/-!
The underflow-rebalancing routines of `map/mod.rs`.  In the source,
`try_rotate_left` and `try_rotate_right` (lines 252-270) have the literal
body `true`: they mutate nothing and unconditionally report success.
`merge` (lines 272-280) is `todo!()`, which panics; the panic is embedded
as `none`.
-/

/-- Embedding of `BTreeMap::try_rotate_left` (map/mod.rs lines 252-260).
The Rust body is the single expression `true`: the slab, the root, the
length and the `addr` out-parameter are all left untouched. -/
def BTreeMap.try_rotate_left (m : BTreeMap K V C) (_id : Nat)
    (_deficient_child_index : Nat) (addr : Address) :
    BTreeMap K V C × Address × Bool :=
  (m, addr, true)

/-- Embedding of `BTreeMap::try_rotate_right` (map/mod.rs lines 262-270),
identical stub to `try_rotate_left`. -/
def BTreeMap.try_rotate_right (m : BTreeMap K V C) (_id : Nat)
    (_deficient_child_index : Nat) (addr : Address) :
    BTreeMap K V C × Address × Bool :=
  (m, addr, true)

/-- Embedding of `BTreeMap::merge` (map/mod.rs lines 272-280).  The Rust
body is `todo!()`, an unconditional panic: no result is ever produced. -/
def BTreeMap.merge (_m : BTreeMap K V C) (_id : Nat)
    (_deficient_child_index : Nat) (_addr : Address) :
    Option (BTreeMap K V C × Address) :=
  none

/-- Minimum number of items a non-root leaf may hold: the ceiling of `M/2`
minus one (spec sections 3 and 8). -/
def minLeafItems : Nat := (M + 1) / 2 - 1

/-- Whether a node is an underflowing leaf: a leaf holding fewer than
`⌈M/2⌉ - 1` items. -/
def leafUnderflows (n : Node K V) : Bool :=
  match n with
  | Node.Leaf l => l.items.length < minLeafItems
  | Node.Internal _ => false

/-- A concrete two-level tree over the list-backed slab: the root internal
node `0` separates leaf `1` (items `10, 20`) from leaf `2` (items
`40, 50, 60`).  Leaf `1` holds `2 < ⌈8/2⌉ - 1 = 3` items: it underflows,
as it would after `remove_at` deleted an item from a minimally filled
leaf. -/
def deficientTree : BTreeMap Nat Nat (List (Node Nat Nat)) :=
  { nodes :=
      [ Node.Internal { first_child := 1,
                        other_children := [ { item := Item.new 30 30, child := 2 } ] },
        Node.Leaf { items := [Item.new 10 10, Item.new 20 20] },
        Node.Leaf { items := [Item.new 40 40, Item.new 50 50, Item.new 60 60] } ],
    root := some 0,
    len := 6 }

/-- A B-Tree map value whose `root` field is `some 0` while its `len` field
is `0`, over the trivial slab type.  The struct (map/mod.rs lines 155-168)
allows this combination; nothing in `is_empty` or `len` ties the two
fields together. -/
def rootedZeroLen : BTreeMap Nat Nat Unit :=
  { nodes := (), root := some 0, len := 0 }

/-!
Range comparison outcomes, used by `binary_search` and the RangeMap
search in `range_tree/src/generic/map.rs`.
-/

/-- The three-way outcome of a range-aware partial comparison.

Modelled from the spec: the `RangeOrdering` type comes from the range
crate, which is not under `src/`.  Spec sections 4.3 and 9 describe it: a
query can be before a range, intersecting it, or after it, and the
boolean records whether a before/after query is additionally connected
(adjacent) to the range. -/
inductive RangeOrdering where
  | Before (connected : Bool)
  | Intersecting (left : Bool) (right : Bool)
  | After (connected : Bool)
deriving DecidableEq, Repr

/-- Whether the comparison outcome counts as strictly-before for the
search.

Modelled from the spec: when the `connected` search flag is set, a
before-but-adjacent outcome is not treated as before (spec section 4.3:
the search then looks for the greatest item less-than-or-connected-to the
query); this reproduces the behavior pinned down by the
`binary_search_connected_singletons` tests in map.rs lines 992-1011. -/
def RangeOrdering.is_before (o : RangeOrdering) (connected : Bool) : Bool :=
  match o with
  | Before c => !(connected && c)
  | _ => false

/-- Whether the comparison outcome counts as a match for the search.

Modelled from the spec: an intersecting outcome always matches, and a
before/after outcome matches only when the search allows connected
matches and the ranges are adjacent (spec section 4.3). -/
def RangeOrdering.matches (o : RangeOrdering) (connected : Bool) : Bool :=
  match o with
  | Intersecting _ _ => true
  | Before c => connected && c
  | After c => connected && c

/-- The narrowing two-pointer loop of `binary_search` (map.rs lines
911-928): while `j - i > 1`, probe the midpoint; a defined comparison
narrows to the half indicated by `is_before`, an undefined comparison
returns `None`; when the window closes, return `Some i`.  The comparison
argument `cmp` stands for `element.range_partial_cmp` applied to a probed
item key.  The `while` loop is embedded with an explicit iteration bound:
every iteration shrinks `j - i` by at least one, so any starting bound of
at least `j - i` reproduces the loop exactly (`binary_search` below
passes `items.length`). -/
def bsearchLoop (cmp : α → Option RangeOrdering) (connected : Bool)
    (items : List α) : Nat → Nat → Nat → Option Nat
  | 0, i, _ => some i
  | fuel + 1, i, j =>
    if j - i > 1 then
      match items[(i + j) / 2]? with
      | none => none
      | some it =>
        match cmp it with
        | some ord =>
          if ord.is_before connected then
            bsearchLoop cmp connected items fuel i ((i + j) / 2)
          else bsearchLoop cmp connected items fuel ((i + j) / 2) j
        | none => none
    else some i

/-- Embedding of `binary_search` (map.rs lines 884-932).  Empty input, or
a first item whose comparison (defaulted to before-disconnected when
undefined) reads as before, yields `None`; a last item whose comparison
(defaulted to after-disconnected when undefined) does not read as before
yields `Some (len - 1)`; otherwise the narrowing loop runs on the window
`0 .. len - 1`. -/
def binary_search (cmp : α → Option RangeOrdering) (connected : Bool)
    (items : List α) : Option Nat :=
  match items with
  | [] => none
  | first :: _ =>
    if ((cmp first).getD (RangeOrdering.Before false)).is_before connected then none
    else
      match items[items.length - 1]? with
      | none => none
      | some last =>
        if !(((cmp last).getD (RangeOrdering.After false)).is_before connected) then
          some (items.length - 1)
        else bsearchLoop cmp connected items items.length 0 (items.length - 1)

/-- The boolean the search branches on at an item: the comparison outcome
(defaulted as at the first probe) read through `is_before`. -/
def probeIsBefore (cmp : α → Option RangeOrdering) (connected : Bool) (it : α) : Bool :=
  ((cmp it).getD (RangeOrdering.Before false)).is_before connected

/-- A concrete partial comparison for the C3 counterexample: the query
compares after item `0` and is incomparable to item `1`. -/
def bsCexCmp (n : Nat) : Option RangeOrdering :=
  if n = 0 then some (RangeOrdering.After false) else none

/-- A concrete total comparison for exercising `binary_search`: it plays
the role of a query element `3` compared against singleton range items
(the item list `0, 2, 4` mirrors the unit tests in map.rs lines
949-967). -/
def c3wCmp (n : Nat) : Option RangeOrdering :=
  if n < 3 then some (RangeOrdering.After false)
  else if n = 3 then some (RangeOrdering.Intersecting true true)
  else some (RangeOrdering.Before false)

/-!
The set-algebra iterators of `rb_tree/src/rbtree.rs`.  Each of
`Difference`, `Intersection` and `Union` holds the lookahead elements
`nextl`, `nextr` and the two underlying in-order iterators `left`,
`right` (rbtree.rs lines 742-747, 826-831, 863-868); `t1.op(&t2)`
initializes the state with the first element of each iterator pulled
into the lookahead (lines 431-440, 490-499, 517-526).  The in-order
iterator of a tree is modelled as the sorted list of its elements:
the `Node` tree structure of the rb_tree crate is not under `src/`,
and spec section 2 with the rbtree.rs doc examples pin its iteration
order.  A `while` iteration whose re-entry merely re-reads an advanced
lookahead is inlined one step where the stream runs out, keeping the
recursion structural.
-/

/-- The lookahead state of a two-iterator merge walk: the pulled-ahead
elements and the remaining streams. -/
structure PairIterState (T : Type) where
  nextl : Option T
  left : List T
  nextr : Option T
  right : List T
deriving DecidableEq, Repr

/-- Construction of the merge-walk state from two in-order streams, as
`difference`/`intersection`/`union` do by pulling one element from each
iterator (rbtree.rs lines 431-440, 490-499, 517-526). -/
def mkPairIter (l r : List T) : PairIterState T :=
  ⟨l.head?, l.tail, r.head?, r.tail⟩

/-- Outcome of the inner `while` of `Difference::next` for the current
left element: either the current element is emitted (inner loop left via
`break` or exhaustion of the right stream), or it was matched by an equal
right element and skipped (`continue 'left`). -/
inductive DiffStep (T : Type) where
  | emit (nextr : Option T) (right : List T)
  | skip (nextr : Option T) (right : List T)

/-- The inner loop of `Difference::next` (rbtree.rs lines 757-767): while
a right element is ahead, emit the left element if it is smaller, skip it
if equal (advancing the right), and otherwise advance the right. -/
def diffInner [LinearOrder T] (vl : T) : Option T → List T → DiffStep T
  | none, right => DiffStep.emit none right
  | some vr, right =>
    if vl < vr then DiffStep.emit (some vr) right
    else if vl = vr then DiffStep.skip right.head? right.tail
    else
      match right with
      | [] => DiffStep.emit none []
      | r :: rs => diffInner vl (some r) rs

/-- The outer loop of `Difference::next` (rbtree.rs lines 749-775): pull
the next left element, run the inner loop, and either return the emitted
element or continue with the following left element. -/
def differenceNextAux [LinearOrder T] :
    Option T → List T → Option T → List T → Option T × PairIterState T
  | none, left, nextr, right => (none, ⟨none, left, nextr, right⟩)
  | some vl, left, nextr, right =>
    match diffInner vl nextr right with
    | DiffStep.emit nr r => (some vl, ⟨left.head?, left.tail, nr, r⟩)
    | DiffStep.skip nr r =>
      match left with
      | [] => (none, ⟨none, [], nr, r⟩)
      | x :: xs => differenceNextAux (some x) xs nr r

/-- Embedding of `Iterator::next for Difference` (rbtree.rs lines
749-775). -/
def differenceNext [LinearOrder T] (s : PairIterState T) :
    Option T × PairIterState T :=
  differenceNextAux s.nextl s.left s.nextr s.right

/-- Outcome of the inner `while` of `Intersection::next`: the left
element was strictly smaller (advance left, keep scanning), the two
lookaheads were equal (emit), or the right stream ran out (stop the whole
walk with nothing to emit). -/
inductive InterStep (T : Type) where
  | ltCase (nextr : Option T) (right : List T)
  | eqCase (nextr : Option T) (right : List T)
  | exhausted (right : List T)

/-- The inner loop of `Intersection::next` (rbtree.rs lines 840-852). -/
def interInner [LinearOrder T] (vl : T) : Option T → List T → InterStep T
  | none, right => InterStep.exhausted right
  | some vr, right =>
    if vl < vr then InterStep.ltCase (some vr) right
    else if vl = vr then InterStep.eqCase right.head? right.tail
    else
      match right with
      | [] => InterStep.exhausted []
      | r :: rs => interInner vl (some r) rs

/-- The outer loop of `Intersection::next` (rbtree.rs lines 833-859): on
an equal pair both sides advance and the element is emitted; on a smaller
left element the left advances and the scan continues; when the right
runs out the walk stops, leaving the left lookahead in place. -/
def intersectionNextAux [LinearOrder T] :
    Option T → List T → Option T → List T → Option T × PairIterState T
  | none, left, nextr, right => (none, ⟨none, left, nextr, right⟩)
  | some vl, left, nextr, right =>
    match interInner vl nextr right with
    | InterStep.eqCase nr r => (some vl, ⟨left.head?, left.tail, nr, r⟩)
    | InterStep.exhausted r => (none, ⟨some vl, left, none, r⟩)
    | InterStep.ltCase nr r =>
      match left with
      | [] => (none, ⟨none, [], nr, r⟩)
      | x :: xs => intersectionNextAux (some x) xs nr r

/-- Embedding of `Iterator::next for Intersection` (rbtree.rs lines
833-859). -/
def intersectionNext [LinearOrder T] (s : PairIterState T) :
    Option T × PairIterState T :=
  intersectionNextAux s.nextl s.left s.nextr s.right

/-- Embedding of `Iterator::next for Union` (rbtree.rs lines 870-905): no
loop; the smaller lookahead is emitted and its side advances, an equal
pair advances both sides, and a missing left lookahead falls back to the
right stream. -/
def unionNext [LinearOrder T] (s : PairIterState T) :
    Option T × PairIterState T :=
  match s with
  | ⟨some vl, left, some vr, right⟩ =>
    if vl < vr then (some vl, ⟨left.head?, left.tail, some vr, right⟩)
    else if vl = vr then (some vl, ⟨left.head?, left.tail, right.head?, right.tail⟩)
    else (some vr, ⟨some vl, left, right.head?, right.tail⟩)
  | ⟨some vl, left, none, right⟩ => (some vl, ⟨left.head?, left.tail, none, right⟩)
  | ⟨none, left, nextr, right⟩ => (nextr, ⟨none, left, right.head?, right.tail⟩)

/-- Run a merge-walk iterator, collecting the emitted elements until the
first `None` (bounded by an explicit amount of fuel, which the concrete
runs below never exhaust). -/
def runIter (step : PairIterState T → Option T × PairIterState T) :
    Nat → PairIterState T → List T
  | 0, _ => []
  | fuel + 1, s =>
    match step s with
    | (none, _) => []
    | (some v, s2) => v :: runIter step fuel s2

/-!
The RangeMap layer, from `range_tree/src/generic/map.rs`.  The key domain
is embedded as `Int`, a representative discrete ordered domain (the char
domain of the unit tests embeds into it by scalar value; all test
characters are ASCII, away from the surrogate gap).  The `AnyRange` type
and its operations (`is_empty`, `connected_to`, `intersects`, `add`,
`product`, `without`, `range_partial_cmp`) come from the range crate,
which is not under `src/`: they are modelled from the spec (sections 3,
4.3 and 9) via the normalized integer endpoints of a range, and validated
against every RangeMap unit test present in map.rs (see the
`rangeMap_src_test` theorems below).
-/

/-- A range bound, as `std::ops::Bound`: included, excluded or absent. -/
inductive RBound (K : Type) where
  | Included (v : K)
  | Excluded (v : K)
  | Unbounded
deriving DecidableEq, Repr

/-- A range with independently optional start and end bounds (spec
section 3).  The Rust field `end` is named `stop` here (`end` is a Lean
keyword).

Modelled from the spec: the `AnyRange` struct lives in the range crate,
not under `src/`. -/
structure AnyRange (K : Type) where
  start : RBound K
  stop : RBound K
deriving DecidableEq, Repr

/-- The least integer inside the range (`none` meaning unbounded below):
an excluded start `a` normalizes to `a + 1` on the discrete domain. -/
def AnyRange.lo (r : AnyRange Int) : Option Int :=
  match r.start with
  | RBound.Unbounded => none
  | RBound.Included a => some a
  | RBound.Excluded a => some (a + 1)

/-- The greatest integer inside the range (`none` meaning unbounded
above): an excluded end `b` normalizes to `b - 1`. -/
def AnyRange.hi (r : AnyRange Int) : Option Int :=
  match r.stop with
  | RBound.Unbounded => none
  | RBound.Included b => some b
  | RBound.Excluded b => some (b - 1)

/-- Modelled from the spec: a range is empty when it contains no point,
i.e. when both normalized endpoints exist and cross. -/
def AnyRange.is_empty (r : AnyRange Int) : Bool :=
  match r.lo, r.hi with
  | some a, some b => decide (b < a)
  | _, _ => false

/-- Membership of a point in a range. -/
def AnyRange.mem (x : Int) (r : AnyRange Int) : Bool :=
  (match r.lo with | none => true | some a => decide (a ≤ x)) &&
  (match r.hi with | none => true | some b => decide (x ≤ b))

/-- Modelled from the spec: two ranges are connected when no gap
separates them — each starts no later than one past the end of the other
(spec section 6: "are these ranges separated by no gap"). -/
def AnyRange.connected_to (r s : AnyRange Int) : Bool :=
  (match s.lo, r.hi with
   | none, _ => true
   | _, none => true
   | some l2, some h1 => decide (l2 ≤ h1 + 1)) &&
  (match r.lo, s.hi with
   | none, _ => true
   | _, none => true
   | some l1, some h2 => decide (l1 ≤ h2 + 1))

/-- Modelled from the spec: two ranges intersect when they share a
point; an empty range shares no point with anything. -/
def AnyRange.intersects (r s : AnyRange Int) : Bool :=
  !r.is_empty && !s.is_empty &&
  (match s.lo, r.hi with
   | none, _ => true
   | _, none => true
   | some l2, some h1 => decide (l2 ≤ h1)) &&
  (match r.lo, s.hi with
   | none, _ => true
   | _, none => true
   | some l1, some h2 => decide (l1 ≤ h2))

/-- Strictly-less on normalized lower endpoints, `none` meaning
unbounded below. -/
def loLtOpt : Option Int → Option Int → Bool
  | none, none => false
  | none, some _ => true
  | some _, none => false
  | some a, some b => decide (a < b)

/-- Strictly-less on normalized upper endpoints, `none` meaning
unbounded above. -/
def hiLtOpt : Option Int → Option Int → Bool
  | none, none => false
  | some _, none => true
  | none, some _ => false
  | some a, some b => decide (a < b)

/-- Modelled from the spec: `AnyRange::add` extends a range to absorb a
connected other range, keeping the wider bound on each side. -/
def AnyRange.add (r other : AnyRange Int) : AnyRange Int :=
  { start := if loLtOpt other.lo r.lo then other.start else r.start,
    stop := if hiLtOpt r.hi other.hi then other.stop else r.stop }

/-- A start bound flipped into the end bound lying just below it. -/
def flipStartToEnd : RBound Int → RBound Int
  | RBound.Included a => RBound.Excluded a
  | RBound.Excluded a => RBound.Included a
  | RBound.Unbounded => RBound.Unbounded

/-- An end bound flipped into the start bound lying just above it. -/
def flipEndToStart : RBound Int → RBound Int
  | RBound.Included a => RBound.Excluded a
  | RBound.Excluded a => RBound.Included a
  | RBound.Unbounded => RBound.Unbounded

/-- A piece of a range product, tagged by whether it comes from the
subject (the operation input range) or the object (the stored range). -/
inductive ProductArg (α : Type) where
  | Subject (r : α)
  | Object (r : α)
deriving DecidableEq, Repr

/-- The three-way partition computed by `AnyRange::product` (spec
section 4.3): the part before the intersection, the intersection, and
the part after. -/
structure RangeProduct (α : Type) where
  before : Option (ProductArg α)
  intersection : Option α
  after : Option (ProductArg α)
deriving DecidableEq, Repr

/-- Modelled from the spec: the product of the subject range `s` against
the object range `o` — whichever range begins first owns the `before`
piece, whichever ends last owns the `after` piece, and the overlap (when
non-empty) is the intersection (spec section 4.3). -/
def AnyRange.product (s o : AnyRange Int) : RangeProduct (AnyRange Int) :=
  let before :=
    if loLtOpt s.lo o.lo then some (ProductArg.Subject ⟨s.start, flipStartToEnd o.start⟩)
    else if loLtOpt o.lo s.lo then some (ProductArg.Object ⟨o.start, flipStartToEnd s.start⟩)
    else none
  let after :=
    if hiLtOpt o.hi s.hi then some (ProductArg.Subject ⟨flipEndToStart o.stop, s.stop⟩)
    else if hiLtOpt s.hi o.hi then some (ProductArg.Object ⟨flipEndToStart s.stop, o.stop⟩)
    else none
  let inter : AnyRange Int :=
    ⟨if loLtOpt s.lo o.lo then o.start else s.start,
     if hiLtOpt o.hi s.hi then o.stop else s.stop⟩
  ⟨before, if inter.is_empty then none else some inter, after⟩

/-- The outcome of `AnyRange::without`: the stored range minus the
removed range straddles it (`Split`), survives only below (`Before`) or
only above (`After`), or vanishes (`Empty`).  The Rust `Before`/`After`
variants carry a second component that every call site in map.rs ignores;
it is omitted. -/
inductive RDifference (α : Type) where
  | Split (l r : α)
  | Before (l : α)
  | After (r : α)
  | Empty
deriving DecidableEq, Repr

/-- Modelled from the spec: the difference of the stored range `o` minus
the removed range `s` (spec section 4.3). -/
def AnyRange.without (o s : AnyRange Int) : RDifference (AnyRange Int) :=
  let left : AnyRange Int := ⟨o.start, flipStartToEnd s.start⟩
  let right : AnyRange Int := ⟨flipEndToStart s.stop, o.stop⟩
  if loLtOpt o.lo s.lo then
    if hiLtOpt s.hi o.hi then RDifference.Split left right
    else RDifference.Before left
  else
    if hiLtOpt s.hi o.hi then RDifference.After right
    else RDifference.Empty

/-- Modelled from the spec: the range-aware comparison of a query range
`q` against a stored range `o` — before (with adjacency flag), after
(with adjacency flag), or intersecting.  Total on the integer domain. -/
def AnyRange.range_partial_cmp (q o : AnyRange Int) : Option RangeOrdering :=
  let beforeB : Option Bool :=
    match q.hi, o.lo with
    | some qh, some ol => if qh < ol then some (decide (ol ≤ qh + 1)) else none
    | _, _ => none
  let afterB : Option Bool :=
    match o.hi, q.lo with
    | some oh, some ql => if oh < ql then some (decide (ql ≤ oh + 1)) else none
    | _, _ => none
  match beforeB with
  | some c => some (RangeOrdering.Before c)
  | none =>
    match afterB with
    | some c => some (RangeOrdering.After c)
    | none => some (RangeOrdering.Intersecting false false)

/-- The singleton range holding exactly one point, as a point key
converts for a range-versus-point comparison. -/
def singletonRange (x : Int) : AnyRange Int :=
  ⟨RBound.Included x, RBound.Included x⟩

/-!
The B-Tree under the RangeMap, modelled at the list level.

Modelled from the spec: the extended address API (`ext.rs`) and the node
containers (`leaf.rs`, `internal.rs`) are not under `src/`.  Spec
sections 3 and 4.2 describe the tree as an ordered item sequence
addressed by cursor positions, with `insert_at` placing an item before
the given address, `remove_at` returning the address of the following
item, `normalize` resolving an address or `None` past the end, and
`previous`/`next_item_address` stepping the cursor.  The tree is embedded
as its in-order item list with addresses as list indices.  For maps of
fewer than `M = 8` items (every concrete run below) the real tree is a
single root leaf, whose item array is exactly this list.
-/

/-- The item sequence of a range map: its B-Tree read in order. -/
abbrev RML (V : Type) := List (Item (AnyRange Int) V)

/-- The outcome of `address_of` (map.rs lines 69-78): the address of a
matching item, or the address at which the query would be inserted. -/
inductive SearchResult where
  | found (i : Nat)
  | insertAt (i : Nat)
deriving DecidableEq, Repr

/-- Embedding of `RangeMap::address_of`/`offset_in` on a root leaf
(map.rs lines 69-143): run `binary_search` with the query comparison;
a hit is accepted if its comparison `matches` the connected flag,
otherwise the insertion point is just after it; a miss inserts at the
front. -/
def address_of (cmp : AnyRange Int → Option RangeOrdering) (connected : Bool)
    (items : RML V) : SearchResult :=
  match binary_search (fun it => cmp it.key) connected items with
  | some i =>
    match items[i]? with
    | none => SearchResult.insertAt items.length
    | some it =>
      if ((cmp it.key).getD (RangeOrdering.After false)).matches connected then
        SearchResult.found i
      else SearchResult.insertAt (i + 1)
  | none => SearchResult.insertAt 0

/-- Modelled from the spec: `next_item_address` on the item list — the
next index when it exists. -/
def nextItemAddress (l : RML V) (i : Nat) : Option Nat :=
  if i + 1 < l.length then some (i + 1) else none

/-- Modelled from the spec: `previous_item_address` on the item list. -/
def prevItemAddress (i : Nat) : Option Nat :=
  if i = 0 then none else some (i - 1)

/-- Modelled from the spec: `normalize` on the item list — the address
itself while it is in bounds, `None` past the end of the tree. -/
def normalizeAddr (l : RML V) (i : Nat) : Option Nat :=
  if i < l.length then some i else none

/-- Embedding of `RangeMap::merge_forward` (map.rs lines 261-276): when
the item and its successor are connected with equal values, remove the
item and widen the successor by the removed key.  Failed `unwrap`s of the
source are `none`. -/
def merge_forward [DecidableEq V] (l : RML V) (addr : Nat) (next_addr : Option Nat) :
    Option (RML V) :=
  match next_addr with
  | none => some l
  | some na =>
    match l[addr]?, l[na]? with
    | some item, some next_item =>
      if item.key.connected_to next_item.key && decide (item.value = next_item.value) then
        let l2 := l.eraseIdx addr
        match normalizeAddr l2 addr with
        | some new_addr =>
          match l2[new_addr]? with
          | some it2 => some (l2.set new_addr ⟨it2.key.add item.key, it2.value⟩)
          | none => none
        | none => none
      else some l
    | _, _ => none

/-- Embedding of `RangeMap::set_item_key` (map.rs lines 278-306): replace
the key of the item at `addr`, merging it into the next item when the new
key connects to it with equal values. -/
def set_item_key [DecidableEq V] (l : RML V) (addr : Nat) (next_addr : Option Nat)
    (new_key : AnyRange Int) : Option (RML V × Nat × Option Nat) :=
  let merged : Option (Option (RML V × Nat × Option Nat)) :=
    match next_addr with
    | none => some none
    | some na =>
      match l[na]?, l[addr]? with
      | some next_item, some cur =>
        if new_key.connected_to next_item.key && decide (next_item.value = cur.value) then
          let l2 := l.eraseIdx addr
          match normalizeAddr l2 addr with
          | some new_addr =>
            match l2[new_addr]? with
            | some it2 =>
              let l3 := l2.set new_addr ⟨it2.key.add new_key, it2.value⟩
              some (some (l3, new_addr, nextItemAddress l3 new_addr))
            | none => none
          | none => none
        else some none
      | _, _ => none
  match merged with
  | none => none
  | some (some result) => some result
  | some none =>
    match l[addr]? with
    | some cur => some (l.set addr ⟨new_key, cur.value⟩, addr, next_addr)
    | none => none

/-- Embedding of `RangeMap::set_item` (map.rs lines 308-340): replace key
and value of the item at `addr`, merging into the next item when
connected with the new value; returns the displaced value. -/
def set_item [DecidableEq V] (l : RML V) (addr : Nat) (next_addr : Option Nat)
    (new_key : AnyRange Int) (new_value : V) : Option (RML V × Nat × Option Nat × V) :=
  let merged : Option (Option (RML V × Nat × Option Nat × V)) :=
    match next_addr with
    | none => some none
    | some na =>
      match l[na]?, l[addr]? with
      | some next_item, some cur =>
        if new_key.connected_to next_item.key && decide (next_item.value = new_value) then
          let l2 := l.eraseIdx addr
          match normalizeAddr l2 addr with
          | some new_addr =>
            match l2[new_addr]? with
            | some it2 =>
              let l3 := l2.set new_addr ⟨it2.key.add new_key, it2.value⟩
              some (some (l3, new_addr, nextItemAddress l3 new_addr, cur.value))
            | none => none
          | none => none
        else some none
      | _, _ => none
  match merged with
  | none => none
  | some (some result) => some result
  | some none =>
    match l[addr]? with
    | some cur =>
      some (l.set addr ⟨new_key, new_value⟩, addr, next_addr, cur.value)
    | none => none

/-- Embedding of `RangeMap::insert_item` (map.rs lines 342-363): widen
the item at `addr` by the key when connected with equal value, otherwise
insert a fresh item before it. -/
def insert_item [DecidableEq V] (l : RML V) (addr : Nat) (key : AnyRange Int)
    (value : V) : Option (RML V × Nat × Option Nat) :=
  match l[addr]? with
  | none => none
  | some next_item =>
    if key.connected_to next_item.key && decide (next_item.value = value) then
      let l2 := l.set addr ⟨next_item.key.add key, next_item.value⟩
      some (l2, addr, nextItemAddress l2 addr)
    else
      let l2 := l.insertIdx addr ⟨key, value⟩
      some (l2, addr, nextItemAddress l2 addr)

/-- Embedding of `RangeMap::remove_item` (map.rs lines 365-372): remove
the item at `addr`, stepping the cursor to the previous item (the
source's unchecked `unwrap` of that previous address is `none` when no
previous item exists). -/
def remove_item (l : RML V) (addr : Nat) : Option (RML V × Nat × Option Nat) :=
  if addr < l.length then
    let l2 := l.eraseIdx addr
    match prevItemAddress addr with
    | none => none
    | some p => some (l2, p, normalizeAddr l2 addr)
  else none

/-- The backward-walking loop of `RangeMap::insert` (map.rs lines
561-635).  The `loop` is embedded with an iteration bound: every
iteration moves the cursor at least one item toward the front, so any
bound above the item count reproduces the loop (`rangeInsert` passes
`l.length + 1`). -/
def rangeInsertLoop [DecidableEq V] (fuel : Nat) (l : RML V) (key : AnyRange Int)
    (value : V) (addr : Nat) (next_addr : Option Nat) : Option (RML V) :=
  match fuel with
  | 0 => none
  | fuel + 1 =>
    match l[addr]? with
    | none => none
    | some cur =>
      let product := key.product cur.key
      let st :=
        match product.after with
        | some (ProductArg.Object item_after) =>
          (l.set addr ⟨item_after, cur.value⟩, some cur.value)
        | _ => (l, (none : Option V))
      let l := st.1
      let removed_item_value := st.2
      match product.before with
      | some (ProductArg.Object item_before) =>
        (match removed_item_value with
         | some old_value =>
           if old_value = value then
             (insert_item l addr (key.add item_before) value).map (fun r => r.1)
           else do
             let (l2, a2, _) ← insert_item l addr key value
             let (l3, _, _) ← insert_item l2 a2 item_before old_value
             some l3
         | none =>
           match l[addr]? with
           | none => none
           | some cur2 =>
             if cur2.value = value then
               (set_item_key l addr next_addr (key.add item_before)).map (fun r => r.1)
             else do
               let (l2, _, _, old_value) ← set_item l addr next_addr key value
               let (l3, _, _) ← insert_item l2 addr item_before old_value
               some l3)
      | some (ProductArg.Subject _) | none =>
        match prevItemAddress addr with
        | some prev_addr =>
          match l[prev_addr]? with
          | none => none
          | some prev_item =>
            if prev_item.key.connected_to key then
              match removed_item_value with
              | none => do
                let (l2, p2, a2) ← remove_item l addr
                rangeInsertLoop fuel l2 key value p2 a2
              | some _ =>
                rangeInsertLoop fuel l key value prev_addr (some addr)
            else
              if removed_item_value.isSome then
                (insert_item l addr key value).map (fun r => r.1)
              else
                (set_item l addr next_addr key value).map (fun r => r.1)
        | none =>
          if removed_item_value.isSome then
            (insert_item l addr key value).map (fun r => r.1)
          else
            (set_item l addr next_addr key value).map (fun r => r.1)

/-- Embedding of `RangeMap::insert` (map.rs lines 545-732): empty keys
are a no-op; a connected search hit starts the backward walk; a miss
inserts the fresh binding at the returned address. -/
def rangeInsert [DecidableEq V] (l : RML V) (key : AnyRange Int) (value : V) :
    Option (RML V) :=
  if key.is_empty then some l
  else
    match address_of (fun ok => key.range_partial_cmp ok) true l with
    | SearchResult.found addr =>
      rangeInsertLoop (l.length + 1) l key value addr (nextItemAddress l addr)
    | SearchResult.insertAt addr => some (l.insertIdx addr ⟨key, value⟩)

/-- Embedding of `RangeMap::get` (map.rs lines 145-153): a disconnected
point search; a hit returns the value of the found item. -/
def rangeGet (l : RML V) (x : Int) : Option V :=
  match address_of (fun ok => (singletonRange x).range_partial_cmp ok) false l with
  | SearchResult.found addr => (l[addr]?).map Item.value
  | SearchResult.insertAt _ => none

/-- The backward-walking loop of `RangeMap::update` (map.rs lines
390-529), with the same iteration bound treatment as `rangeInsertLoop`.
The callback `f` maps the current binding (if any) of a sub-range to its
replacement (or `none` for deletion/no-fill). -/
def rangeUpdateLoop [DecidableEq V] (f : Option V → Option V) (fuel : Nat) (l : RML V)
    (key : AnyRange Int) (addr : Nat) (next_addr : Option Nat) : Option (RML V) :=
  match fuel with
  | 0 => none
  | fuel + 1 =>
    match l[addr]? with
    | none => none
    | some cur =>
      let product := key.product cur.key
      let stepA : Option (RML V × Nat × Option Nat × Option V) :=
        match product.after with
        | some (ProductArg.Subject key_after) =>
          (match f none with
           | some value => do
             let (l2, a2, n2, removed) ← set_item l addr next_addr key_after value
             some (l2, a2, n2, some removed)
           | none => some (l, addr, next_addr, none))
        | some (ProductArg.Object item_after) =>
          some (l.set addr ⟨item_after, cur.value⟩, addr, next_addr, some cur.value)
        | none => some (l, addr, next_addr, none)
      match stepA with
      | none => none
      | some (l, addr, next_addr, removed_item_value) =>
        let stepI : Option (RML V × Nat × Option Nat × Option V) :=
          match product.intersection with
          | some intersection =>
            (match
              (match removed_item_value with
               | some v => some (f (some v))
               | none => (l[addr]?).map (fun it => f (some it.value))) with
             | none => none
             | some new_value =>
               match new_value with
               | some new_value =>
                 if removed_item_value.isSome then do
                   let (l2, a2, n2) ← insert_item l addr intersection new_value
                   some (l2, a2, n2, removed_item_value)
                 else do
                   let (l2, a2, n2, removed) ← set_item l addr next_addr intersection new_value
                   some (l2, a2, n2, some removed)
               | none => some (l, addr, next_addr, removed_item_value))
          | none => some (l, addr, next_addr, removed_item_value)
        match stepI with
        | none => none
        | some (l, addr, next_addr, removed_item_value) =>
          match product.before with
          | some (ProductArg.Subject key_before) =>
            (match prevItemAddress addr with
             | some prev =>
               (match l[prev]? with
                | none => none
                | some prev_item =>
                  if prev_item.key.connected_to key_before then
                    match removed_item_value with
                    | none => do
                      let (l2, p2, a2) ← remove_item l addr
                      rangeUpdateLoop f fuel l2 key_before p2 a2
                    | some _ =>
                      rangeUpdateLoop f fuel l key_before prev (some addr)
                  else
                    match f none with
                    | some value =>
                      if removed_item_value.isSome then
                        (insert_item l addr key_before value).map (fun r => r.1)
                      else
                        (set_item l addr next_addr key_before value).map (fun r => r.1)
                    | none =>
                      if removed_item_value.isNone then
                        if addr < l.length then some (l.eraseIdx addr) else some l
                      else some l)
             | none =>
               match f none with
               | some value =>
                 if removed_item_value.isSome then
                   (insert_item l addr key_before value).map (fun r => r.1)
                 else
                   (set_item l addr next_addr key_before value).map (fun r => r.1)
               | none =>
                 if removed_item_value.isNone then
                   if addr < l.length then some (l.eraseIdx addr) else some l
                 else some l)
          | some (ProductArg.Object item_before) =>
            (match removed_item_value with
             | some value => (insert_item l addr item_before value).map (fun r => r.1)
             | none => (set_item_key l addr next_addr item_before).map (fun r => r.1))
          | none =>
            match prevItemAddress addr with
            | some prev_addr =>
              (match removed_item_value with
               | none => do
                 let (l2, p2, a2) ← remove_item l addr
                 merge_forward l2 p2 a2
               | some _ =>
                 merge_forward l prev_addr (some addr))
            | none =>
              if removed_item_value.isNone then
                if addr < l.length then some (l.eraseIdx addr) else none
              else some l

/-- Embedding of `RangeMap::update` (map.rs lines 374-542). -/
def rangeUpdate [DecidableEq V] (l : RML V) (key : AnyRange Int)
    (f : Option V → Option V) : Option (RML V) :=
  if key.is_empty then some l
  else
    match address_of (fun ok => key.range_partial_cmp ok) true l with
    | SearchResult.found addr =>
      rangeUpdateLoop f (l.length + 1) l key addr (nextItemAddress l addr)
    | SearchResult.insertAt addr =>
      match f none with
      | some new_value => some (l.insertIdx addr ⟨key, new_value⟩)
      | none => some l

/-- The backward-walking loop of `RangeMap::remove` (map.rs lines
742-786), with the same iteration bound treatment. -/
def rangeRemoveLoop [DecidableEq V] (fuel : Nat) (l : RML V) (key : AnyRange Int)
    (addr : Nat) : Option (RML V) :=
  match fuel with
  | 0 => none
  | fuel + 1 =>
    match l[addr]? with
    | none => some l
    | some cur =>
      if cur.key.intersects key then
        match cur.key.without key with
        | RDifference.Split left right =>
          let l2 := l.set addr ⟨right, cur.value⟩
          some (l2.insertIdx addr ⟨left, cur.value⟩)
        | RDifference.Before left =>
          some (l.set addr ⟨left, cur.value⟩)
        | RDifference.After right =>
          let l2 := l.set addr ⟨right, cur.value⟩
          match prevItemAddress addr with
          | some prev => rangeRemoveLoop fuel l2 key prev
          | none => some l2
        | RDifference.Empty =>
          if addr < l.length then
            let l2 := l.eraseIdx addr
            match prevItemAddress addr with
            | some prev => rangeRemoveLoop fuel l2 key prev
            | none => some l2
          else none
      else some l

/-- Embedding of `RangeMap::remove` (map.rs lines 735-788): a
disconnected search hit starts the walk; a miss changes nothing. -/
def rangeRemove [DecidableEq V] (l : RML V) (key : AnyRange Int) : Option (RML V) :=
  match address_of (fun ok => key.range_partial_cmp ok) false l with
  | SearchResult.found addr => rangeRemoveLoop (l.length + 1) l key addr
  | SearchResult.insertAt _ => some l

/-!
The `Gaps` iterator (map.rs lines 160-166 and 807-879).
-/

/-- State of the `Gaps` iterator (map.rs lines 808-812): the remaining
in-order item stream, the flipped previous end bound, and the done
flag. -/
structure GapsState (V : Type) where
  inner : RML V
  prev : Option (RBound Int)
  done : Bool
deriving Repr

/-- The `loop` of `Gaps::next` (map.rs lines 826-876), with the running
done flag threaded (the flag is only ever set inside the loop, never
re-read until the next call). -/
def gapsLoop : RML V → Option (RBound Int) → Bool →
    Option (AnyRange Int) × GapsState V
  | [], prev, _doneAcc =>
    (match prev with
     | some bound =>
       let gap : AnyRange Int := ⟨bound, RBound.Unbounded⟩
       (if gap.is_empty then none else some gap, ⟨[], none, true⟩)
     | none => (some ⟨RBound.Unbounded, RBound.Unbounded⟩, ⟨[], none, true⟩))
  | item :: rest, prev, doneAcc =>
    let start := prev.getD RBound.Unbounded
    let flipped : Option (RBound Int) × Bool :=
      match item.key.stop with
      | RBound.Unbounded => (none, true)
      | RBound.Included t => (some (RBound.Excluded t), false)
      | RBound.Excluded t => (some (RBound.Included t), false)
    match item.key.start with
    | RBound.Unbounded => gapsLoop rest flipped.1 (doneAcc || flipped.2)
    | RBound.Included t =>
      let gap : AnyRange Int := ⟨start, RBound.Excluded t⟩
      if gap.is_empty then gapsLoop rest flipped.1 (doneAcc || flipped.2)
      else (some gap, ⟨rest, flipped.1, doneAcc || flipped.2⟩)
    | RBound.Excluded t =>
      let gap : AnyRange Int := ⟨start, RBound.Included t⟩
      if gap.is_empty then gapsLoop rest flipped.1 (doneAcc || flipped.2)
      else (some gap, ⟨rest, flipped.1, doneAcc || flipped.2⟩)

/-- Embedding of `Iterator::next for Gaps` (map.rs lines 820-878). -/
def gapsNext (s : GapsState V) : Option (AnyRange Int) × GapsState V :=
  if s.done then (none, s)
  else gapsLoop s.inner s.prev s.done

/-- The initial `Gaps` state built by `RangeMap::gaps` (map.rs lines
160-166): the full item stream, no previous bound, not done. -/
def mkGaps (l : RML V) : GapsState V := ⟨l, none, false⟩

/-- Run the gaps iterator, collecting yielded gaps until the first
`None`, bounded by fuel that the concrete runs below never exhaust. -/
def gapsRun : Nat → GapsState V → List (AnyRange Int)
  | 0, _ => []
  | fuel + 1, s =>
    match gapsNext s with
    | (none, _) => []
    | (some g, s2) => g :: gapsRun fuel s2

/-- The C7 scenario (map.rs test `insert_around`, lines 1049-1060), on
char scalar values: a space is 32, the hash sign 35, the percent sign 37,
the letter e is 101, the uppercase letters are 65 to 90 and the lowercase
letters 97 to 122. -/
def c7Map : Option (RML Nat) := do
  let l1 ← rangeInsert ([] : RML Nat) (singletonRange 32) 0
  let l2 ← rangeInsert l1 (singletonRange 35) 1
  let l3 ← rangeInsert l2 (singletonRange 101) 2
  let l4 ← rangeInsert l3 (singletonRange 37) 3
  let l5 ← rangeInsert l4 ⟨RBound.Included 65, RBound.Included 90⟩ 4
  rangeInsert l5 ⟨RBound.Included 97, RBound.Included 122⟩ 5

/-- The map of the `insert` unit test (map.rs lines 1037-1046): plus is
43, minus is 45, the digits are 48 to 57, the dot is 46. -/
def srcTestInsertMap : Option (RML Nat) := do
  let l1 ← rangeInsert ([] : RML Nat) (singletonRange 43) 0
  let l2 ← rangeInsert l1 (singletonRange 45) 1
  let l3 ← rangeInsert l2 ⟨RBound.Included 48, RBound.Included 57⟩ 2
  rangeInsert l3 (singletonRange 46) 3

/-- The map of the `update_connected_after` unit test (map.rs lines
1063-1075): the callback fills the gap at the dot with 3. -/
def srcTestUpdateAfterMap : Option (RML Nat) := do
  let l1 ← rangeInsert ([] : RML Nat) (singletonRange 43) 0
  let l2 ← rangeInsert l1 (singletonRange 45) 1
  let l3 ← rangeInsert l2 ⟨RBound.Included 48, RBound.Included 57⟩ 2
  rangeUpdate l3 (singletonRange 46)
    (fun o => match o with | none => some 3 | some _ => none)

/-- The map of the `update_connected_before` unit test (map.rs lines
1078-1090). -/
def srcTestUpdateBeforeMap : Option (RML Nat) := do
  let l1 ← rangeInsert ([] : RML Nat) (singletonRange 43) 0
  let l2 ← rangeInsert l1 (singletonRange 46) 1
  let l3 ← rangeInsert l2 ⟨RBound.Included 48, RBound.Included 57⟩ 2
  rangeUpdate l3 (singletonRange 45)
    (fun o => match o with | none => some 3 | some _ => none)

/-- The map of the `update_around` unit test (map.rs lines 1093-1100):
the letter e is rebound, together with the whole lowercase span, to 1. -/
def srcTestUpdateAroundMap : Option (RML Nat) := do
  let l1 ← rangeInsert ([] : RML Nat) (singletonRange 101) 0
  rangeUpdate l1 ⟨RBound.Included 97, RBound.Included 122⟩ (fun _ => some 1)

/-!
The RangeMap normalization invariant (spec sections 3 and 8, claim C2):
stored ranges are non-empty and in strictly separated order, and two
neighbouring stored items are never simultaneously connected and
value-equal.
-/

/-- Consecutive stored items are separated: the left one ends strictly
below the start of the right one (their inner bounds exist on a sorted
tree). -/
def itemsSeparated (a b : Item (AnyRange Int) V) : Bool :=
  match a.key.hi, b.key.lo with
  | some h, some lo => decide (h < lo)
  | _, _ => false

/-- Consecutive stored items are normalized: not both connected and
bound to equal values. -/
def itemsNormalized [DecidableEq V] (a b : Item (AnyRange Int) V) : Bool :=
  !(a.key.connected_to b.key && decide (a.value = b.value))

/-- The well-formed pair relation of the stored item sequence. -/
def rmOkPair [DecidableEq V] (a b : Item (AnyRange Int) V) : Prop :=
  itemsSeparated a b = true ∧ itemsNormalized a b = true

/-- The RangeMap state invariant: every stored range is non-empty, and
consecutive items are separated and normalized. -/
def rmInv [DecidableEq V] (l : RML V) : Prop :=
  (∀ it ∈ l, it.key.is_empty = false) ∧ List.Chain' rmOkPair l

/-- A RangeMap mutation: one of the three public write operations. -/
inductive RMOp (V : Type) where
  | insertOp (key : AnyRange Int) (value : V)
  | updateOp (key : AnyRange Int) (f : Option V → Option V)
  | removeOp (key : AnyRange Int)

/-- Apply one mutation. -/
def applyRMOp [DecidableEq V] (l : RML V) : RMOp V → Option (RML V)
  | RMOp.insertOp k v => rangeInsert l k v
  | RMOp.updateOp k f => rangeUpdate l k f
  | RMOp.removeOp k => rangeRemove l k

/-- Apply a finite sequence of mutations. -/
def applyRMOps [DecidableEq V] (l : RML V) : List (RMOp V) → Option (RML V)
  | [] => some l
  | op :: ops => (applyRMOp l op).bind (fun l2 => applyRMOps l2 ops)

/-!
Theorems.  Supporting lemmas come first, then one theorem per claim
(with its witness or counterexample where required).
-/

/-- Fidelity check of the RangeMap embedding: it reproduces every
RangeMap unit test present in map.rs (lines 1036-1100). -/
theorem rangeMap_src_tests :
    srcTestInsertMap.bind (fun l => rangeGet l 46) = some 3 ∧
    srcTestUpdateAfterMap.bind (fun l => rangeGet l 46) = some 3 ∧
    srcTestUpdateBeforeMap.bind (fun l => rangeGet l 45) = some 3 ∧
    srcTestUpdateAroundMap.bind (fun l => rangeGet l 97) = some 1 := by
  refine ⟨?_, ?_, ?_, ?_⟩ <;> rfl

theorem Offset.cmp_eq_compare_okey (a b : Offset) :
    Offset.cmp a b = compare (Offset.okey a) (Offset.okey b) := by
  cases a with | mk av =>
  cases b with | mk bv =>
  unfold Offset.cmp Offset.okey
  dsimp only
  by_cases ha : av = USIZE_MAX <;> by_cases hb : bv = USIZE_MAX <;>
    by_cases h1 : av < bv <;> by_cases h2 : bv < av <;>
    first
      | omega
      | simp [ha, hb, h1, h2, Nat.compare_def_lt]

theorem Offset.okey_injective : Function.Injective Offset.okey := by
  intro a b h
  cases a with | mk av =>
  cases b with | mk bv =>
  unfold Offset.okey at h
  dsimp only at h
  by_cases ha : av = USIZE_MAX <;> by_cases hb : bv = USIZE_MAX
  · rw [ha, hb]
  · rw [if_pos ha, if_neg hb] at h
    omega
  · rw [if_neg ha, if_pos hb] at h
    omega
  · rw [if_neg ha, if_neg hb] at h
    have hv : av = bv := by omega
    rw [hv]

theorem itemsEq_keys [BEq K] (l₁ l₂ : List (Item K V)) :
    itemsEq l₁ l₂ = (l₁.map Item.key == l₂.map Item.key) := by
  induction l₁ generalizing l₂ with
  | nil => cases l₂ <;> simp [itemsEq]
  | cons a l ih =>
    cases l₂ with
    | nil => simp [itemsEq]
    | cons b l₂ =>
      have h := ih l₂
      simp only [itemsEq, List.zip_cons_cons, List.all_cons, List.map_cons] at *
      cases hk : Item.eq a b with
      | false =>
        simp only [Item.eq] at hk
        simp [hk, List.cons_beq_cons]
      | true =>
        simp only [Item.eq] at hk
        simp [hk, List.cons_beq_cons, ← h, itemsEq, Nat.succ_inj]

theorem bsearchLoop_spec (cmp : α → Option RangeOrdering) (connected : Bool)
    (items : List α)
    (hdef : ∀ it ∈ items, (cmp it).isSome)
    (fuel i j : Nat) (hfuel : j - i ≤ fuel) (hij : i < j) (hj : j < items.length)
    (hi : probeIsBefore cmp connected (items.get ⟨i, by omega⟩) = false)
    (hjp : probeIsBefore cmp connected (items.get ⟨j, hj⟩) = true) :
    ∃ r, i ≤ r ∧ ∃ hr : r + 1 ≤ j,
      bsearchLoop cmp connected items fuel i j = some r ∧
      probeIsBefore cmp connected (items.get ⟨r, by omega⟩) = false ∧
      probeIsBefore cmp connected (items.get ⟨r + 1, by omega⟩) = true := by
  induction fuel generalizing i j with
  | zero =>
    exfalso
    omega
  | succ fuel ih =>
    simp only [List.get_eq_getElem] at hi hjp ⊢
    by_cases h : j - i > 1
    · have hk1 : i < (i + j) / 2 := by omega
      have hk2 : (i + j) / 2 < j := by omega
      have hklen : (i + j) / 2 < items.length := by omega
      have hgetk : items[(i + j) / 2]? = some items[(i + j) / 2] :=
        List.getElem?_eq_getElem hklen
      have hmem : items[(i + j) / 2] ∈ items := List.getElem_mem hklen
      obtain ⟨o, ho⟩ := Option.isSome_iff_exists.mp (hdef _ hmem)
      simp only [bsearchLoop, if_pos h, hgetk, ho]
      by_cases hb : o.is_before connected
      · rw [if_pos hb]
        have hk_true : probeIsBefore cmp connected (items.get ⟨(i + j) / 2, hklen⟩) = true := by
          simp only [List.get_eq_getElem, probeIsBefore, ho, Option.getD_some]
          exact hb
        obtain ⟨r, hir, hr, heq, hf, ht⟩ :=
          ih i ((i + j) / 2) (by omega) hk1 hklen hi hk_true
        simp only [List.get_eq_getElem] at hf ht
        exact ⟨r, hir, by omega, heq, hf, ht⟩
      · rw [if_neg hb]
        have hk_false : probeIsBefore cmp connected (items.get ⟨(i + j) / 2, hklen⟩) = false := by
          simp only [List.get_eq_getElem, probeIsBefore, ho, Option.getD_some]
          exact Bool.eq_false_iff.mpr hb
        obtain ⟨r, hir, hr, heq, hf, ht⟩ :=
          ih ((i + j) / 2) j (by omega) hk2 hj hk_false hjp
        simp only [List.get_eq_getElem] at hf ht
        exact ⟨r, by omega, hr, heq, hf, ht⟩
    · have hji : j = i + 1 := by omega
      refine ⟨i, le_refl i, by omega, ?_, hi, ?_⟩
      · simp only [bsearchLoop, if_neg h]
      · subst hji
        exact hjp

theorem binary_search_spec {α : Type} (cmp : α → Option RangeOrdering) (connected : Bool)
    (items : List α) (hne : items ≠ [])
    (hdef : ∀ it ∈ items, (cmp it).isSome)
    (hmono : ∀ k₁ k₂ : Fin items.length, k₁ ≤ k₂ →
      probeIsBefore cmp connected (items.get k₁) = true →
      probeIsBefore cmp connected (items.get k₂) = true) :
    (binary_search cmp connected items = none →
      ∀ k : Fin items.length, probeIsBefore cmp connected (items.get k) = true) ∧
    (∀ i, binary_search cmp connected items = some i →
      ∃ h : i < items.length,
        probeIsBefore cmp connected (items.get ⟨i, h⟩) = false ∧
        ∀ k : Fin items.length, i < k.val →
          probeIsBefore cmp connected (items.get k) = true) := by
  cases items with
  | nil => exact absurd rfl hne
  | cons first rest =>
    have hlen : 0 < (first :: rest).length := Nat.succ_pos _
    have hlast_lt : (first :: rest).length - 1 < (first :: rest).length := by
      simp
    have hget0 : (first :: rest).get ⟨0, hlen⟩ = first := rfl
    by_cases hfirst : probeIsBefore cmp connected first
    · have hrun : binary_search cmp connected (first :: rest) = none := by
        simp only [binary_search]
        rw [if_pos (by simpa [probeIsBefore] using hfirst)]
      constructor
      · intro _ k
        exact hmono ⟨0, hlen⟩ k (Nat.zero_le _) (hget0 ▸ hfirst)
      · intro i hc
        rw [hrun] at hc
        cases hc
    · have hgetlast : (first :: rest)[(first :: rest).length - 1]? =
          some ((first :: rest).get ⟨(first :: rest).length - 1, hlast_lt⟩) := by
        simp [List.getElem?_eq_getElem, hlast_lt]
      set last := (first :: rest).get ⟨(first :: rest).length - 1, hlast_lt⟩ with hlastdef
      have hmemlast : last ∈ first :: rest := by
        simp only [hlastdef, List.get_eq_getElem]
        exact List.getElem_mem hlast_lt
      obtain ⟨o, ho⟩ := Option.isSome_iff_exists.mp (hdef last hmemlast)
      by_cases hb : o.is_before connected
      · have hPlast : probeIsBefore cmp connected last = true := by
          simp [probeIsBefore, ho, hb]
        have hlen2 : 0 < (first :: rest).length - 1 := by
          rcases Nat.eq_zero_or_pos ((first :: rest).length - 1) with h0 | h1
          · exfalso
            apply hfirst
            have hlf : last = first := by
              rw [hlastdef, ← hget0]
              congr 1
              exact Fin.ext h0
            rw [← hlf]
            exact hPlast
          · exact h1
        have hrun : binary_search cmp connected (first :: rest) =
            bsearchLoop cmp connected (first :: rest) (first :: rest).length 0
              ((first :: rest).length - 1) := by
          simp only [binary_search, hgetlast]
          rw [if_neg (by simpa [probeIsBefore] using hfirst)]
          rw [if_neg (by simp [ho, hb])]
        obtain ⟨r, hir, hr, heq, hf, ht⟩ :=
          bsearchLoop_spec cmp connected (first :: rest) hdef (first :: rest).length 0
            ((first :: rest).length - 1) (by omega) hlen2 hlast_lt
            (by simpa [hget0] using (Bool.eq_false_iff.mpr hfirst)) hPlast
        rw [heq] at hrun
        constructor
        · intro hc
          rw [hrun] at hc
          cases hc
        · intro i hc
          rw [hrun] at hc
          have hi_eq : r = i := Option.some.inj hc
          subst hi_eq
          refine ⟨by omega, ?_, ?_⟩
          · simpa using hf
          · intro k hk
            exact hmono ⟨r + 1, by omega⟩ k hk ht
      · have hrun : binary_search cmp connected (first :: rest) =
            some ((first :: rest).length - 1) := by
          simp only [binary_search, hgetlast]
          rw [if_neg (by simpa [probeIsBefore] using hfirst)]
          rw [if_pos (by simp [ho, hb])]
        constructor
        · intro hc
          rw [hrun] at hc
          cases hc
        · intro i hc
          rw [hrun] at hc
          have hi_eq : (first :: rest).length - 1 = i := Option.some.inj hc
          subst hi_eq
          refine ⟨hlast_lt, ?_, ?_⟩
          · have hlast2 : (first :: rest)[rest.length] = last := by
              simp [hlastdef]
            simp only [probeIsBefore, List.get_eq_getElem, List.length_cons,
              Nat.add_sub_cancel, hlast2, ho, Option.getD_some]
            exact Bool.eq_false_iff.mpr hb
          · intro k hk
            exfalso
            have := k.isLt
            omega

/-- C3 counterexample: the claim says an undefined comparison at a probed
item always aborts the search with `None`.  With items `0, 1` and a
comparison that is defined (after) at item `0` but undefined at item `1`,
the probe of the last item is undefined yet the search returns `Some 1`:
the code defaults the undefined outcome to after-disconnected at the last
probe instead of aborting. -/
theorem C3_counterexample :
    binary_search bsCexCmp false [0, 1] = some 1 ∧ bsCexCmp 1 = none := by
  constructor <;> rfl

/-- C3 (amended): on a non-empty slice whose probed comparisons are all
defined and whose before-classification is monotone along the slice (the
sortedness assumption), `binary_search` returns `Some i` exactly for the
greatest index `i` whose item is less-than-or-(connected-to, when
requested)-equal to the query, and `None` when every item compares
strictly after the query; an undefined comparison aborts with `None` when
it occurs at the first probe or at a probe inside the narrowing loop, but
an undefined comparison at the last-item probe is defaulted to
after-disconnected and yields `Some (len - 1)` instead of aborting. -/
theorem C3_binary_search_corrected {α : Type} :
    (∀ (cmp : α → Option RangeOrdering) (connected : Bool) (items : List α),
      items ≠ [] →
      (∀ it ∈ items, (cmp it).isSome) →
      (∀ k₁ k₂ : Fin items.length, k₁ ≤ k₂ →
        probeIsBefore cmp connected (items.get k₁) = true →
        probeIsBefore cmp connected (items.get k₂) = true) →
      ((binary_search cmp connected items = none →
          ∀ k : Fin items.length,
            probeIsBefore cmp connected (items.get k) = true) ∧
        (∀ i, binary_search cmp connected items = some i →
          ∃ h : i < items.length,
            probeIsBefore cmp connected (items.get ⟨i, h⟩) = false ∧
            ∀ k : Fin items.length, i < k.val →
              probeIsBefore cmp connected (items.get k) = true))) ∧
    (∀ (cmp : α → Option RangeOrdering) (connected : Bool) (first : α)
      (rest : List α), cmp first = none →
      binary_search cmp connected (first :: rest) = none) ∧
    (∀ (cmp : α → Option RangeOrdering) (connected : Bool) (items : List α)
      (fuel i j : Nat) (it : α), j - i > 1 → items[(i + j) / 2]? = some it →
      cmp it = none → bsearchLoop cmp connected items (fuel + 1) i j = none) ∧
    (∀ (cmp : α → Option RangeOrdering) (connected : Bool) (first : α)
      (rest : List α) (last : α),
      probeIsBefore cmp connected first = false →
      (first :: rest)[(first :: rest).length - 1]? = some last →
      cmp last = none →
      binary_search cmp connected (first :: rest) =
        some ((first :: rest).length - 1)) := by
  refine ⟨binary_search_spec, ?_, ?_, ?_⟩
  · intro cmp connected first rest h
    simp only [binary_search, h, Option.getD_none]
    rw [if_pos]
    simp [RangeOrdering.is_before]
  · intro cmp connected items fuel i j it h hget hcmp
    simp only [bsearchLoop, if_pos h, hget]
    simp [hcmp]
  · intro cmp connected first rest last hp hget hcmp
    have hget2 : (first :: rest)[rest.length]? = some last := by
      simpa using hget
    simp only [binary_search, List.length_cons, Nat.add_sub_cancel, hget2, hcmp,
      Option.getD_none]
    rw [if_neg, if_pos]
    · simp [RangeOrdering.is_before]
    · simp only [probeIsBefore] at hp
      simp [hp]

/-- C3 witness: the main conjunct applied to the comparison of query `3`
against the singleton items `0, 2, 4` (disconnected search), where the
search returns `Some 1`: item `2` is the greatest one not after the
query. -/
theorem C3_binary_search_corrected_witness :
    ∃ h : 1 < ([0, 2, 4] : List Nat).length,
      probeIsBefore c3wCmp false (([0, 2, 4] : List Nat).get ⟨1, h⟩) = false ∧
      ∀ k : Fin ([0, 2, 4] : List Nat).length, 1 < k.val →
        probeIsBefore c3wCmp false (([0, 2, 4] : List Nat).get k) = true :=
  (C3_binary_search_corrected.1 c3wCmp false [0, 2, 4] (by decide) (by decide)
      (by decide)).2 1 (by decide)

/-- C1: a deletion that underflows a non-root leaf is claimed to be
rebalanced by `try_rotate_left` / `try_rotate_right` (rotating an item
from a spare sibling through the parent separator) or by `merge`.  On the
concrete underflowing tree `deficientTree` (leaf `1` holds `2 < ⌈M/2⌉ - 1
= 3` items while its sibling has a spare item), both rotation routines
report success while changing nothing — the deficient leaf still
underflows afterwards — and `merge` produces no result at all (its body
is a panic).  This evaluates the code at the failing input for the
code-bug verdict. -/
theorem C1_rebalance_stubs_leave_underflow :
    BTreeMap.try_rotate_left deficientTree 0 1 ⟨1, ⟨0⟩⟩ =
        (deficientTree, ⟨1, ⟨0⟩⟩, true) ∧
    BTreeMap.try_rotate_right deficientTree 0 1 ⟨1, ⟨0⟩⟩ =
        (deficientTree, ⟨1, ⟨0⟩⟩, true) ∧
    BTreeMap.merge deficientTree 0 1 ⟨1, ⟨0⟩⟩ = none ∧
    (deficientTree.nodes[1]?).map leafUnderflows = some true ∧
    ((BTreeMap.try_rotate_left deficientTree 0 1 ⟨1, ⟨0⟩⟩).1.nodes[1]?).map
        leafUnderflows = some true := by
  refine ⟨rfl, rfl, rfl, ?_, ?_⟩ <;> decide

/-- C5 counterexample: the claim says `is_empty()` is true exactly when
`len()` is zero, for every `BTreeMap`.  The struct value `rootedZeroLen`
has `len() = 0` yet `is_empty() = false`, because `is_empty` tests
`root.is_none()` and never reads `len`. -/
theorem C5_counterexample :
    BTreeMap.length rootedZeroLen = 0 ∧
      BTreeMap.is_empty rootedZeroLen = false := by
  constructor <;> rfl

/-- C5 (amended): `is_empty()` returns whether `root` is `None` — the root
field, not `len`, decides emptiness; a freshly created map has
`root = None` and `len() = 0` (and is empty); consequently on any map
state where `root = None` holds exactly when `len = 0`, `is_empty()`
agrees with `len() = 0`. -/
theorem C5_emptiness :
    (∀ (K V C : Type) (m : BTreeMap K V C), m.is_empty = m.root.isNone) ∧
    ((BTreeMap.new : BTreeMap Nat Nat Unit).root = none ∧
      (BTreeMap.new : BTreeMap Nat Nat Unit).length = 0 ∧
      (BTreeMap.new : BTreeMap Nat Nat Unit).is_empty = true) ∧
    (∀ (K V C : Type) (m : BTreeMap K V C),
      (m.root = none ↔ m.len = 0) → (m.is_empty = true ↔ m.length = 0)) := by
  refine ⟨fun _ _ _ _ => rfl, ⟨rfl, rfl, rfl⟩, ?_⟩
  intro K V C m h
  cases m with | mk nodes root len =>
  cases root with
  | none =>
    simp only [BTreeMap.is_empty, BTreeMap.length, Option.isNone] at *
    simpa using h
  | some id =>
    simp only [BTreeMap.is_empty, BTreeMap.length, Option.isNone] at *
    constructor
    · intro hfalse
      cases hfalse
    · intro hlen
      exact absurd (h.mpr hlen) (by simp)

/-- C5 witness: the amended conditional conjunct applied at the freshly
created map, whose root-len agreement is discharged concretely. -/
theorem C5_emptiness_witness :
    (BTreeMap.new : BTreeMap Nat Nat Unit).is_empty = true ↔
      (BTreeMap.new : BTreeMap Nat Nat Unit).length = 0 :=
  C5_emptiness.2.2 Nat Nat Unit BTreeMap.new
    (by constructor <;> intro <;> rfl)

/-- C6 counterexample: the claim says `decr()` applied to the before
sentinel stays at the before sentinel.  In the code, `decr` on
`Offset(usize::MAX)` takes the nonzero branch and subtracts one, yielding
the concrete index `usize::MAX - 1`. -/
theorem C6_counterexample :
    (Offset.decr Offset.before).is_before = false ∧
      Offset.decr Offset.before ≠ Offset.before := by
  constructor <;> decide

/-- C6 (amended): `decr()` maps offset `0` to the before sentinel and a
concrete index `i + 1` to `i`, but applied to the before sentinel itself
it yields the concrete index `usize::MAX - 1` (it does not saturate
there); the `Ord` instance is a total order (equality exactly on equal
offsets, antisymmetric by swap, transitive) in which the before sentinel
compares strictly less than every concrete index. -/
theorem C6_offset_decr_and_order :
    Offset.decr ⟨0⟩ = Offset.before ∧
    (∀ i : Nat, i + 1 ≠ USIZE_MAX → Offset.decr ⟨i + 1⟩ = ⟨i⟩) ∧
    Offset.decr Offset.before = ⟨USIZE_MAX - 1⟩ ∧
    (∀ a b : Offset, Offset.cmp a b = Ordering.eq ↔ a = b) ∧
    (∀ o : Offset, o.is_before = false → Offset.cmp Offset.before o = Ordering.lt) ∧
    (∀ a b : Offset, (Offset.cmp a b).swap = Offset.cmp b a) ∧
    (∀ a b c : Offset, Offset.cmp a b = Ordering.lt →
      Offset.cmp b c = Ordering.lt → Offset.cmp a c = Ordering.lt) := by
  refine ⟨rfl, ?_, by decide, ?_, ?_, ?_, ?_⟩
  · intro i _
    simp [Offset.decr]
  · intro a b
    rw [Offset.cmp_eq_compare_okey]
    constructor
    · intro h
      exact Offset.okey_injective (Nat.compare_eq_eq.mp h)
    · intro h
      rw [h]
      exact Nat.compare_eq_eq.mpr rfl
  · intro o ho
    have hval : o.val ≠ USIZE_MAX := by
      simpa [Offset.is_before] using ho
    simp [Offset.cmp, Offset.before, hval]
  · intro a b
    rw [Offset.cmp_eq_compare_okey, Offset.cmp_eq_compare_okey]
    exact Nat.compare_swap _ _
  · intro a b c hab hbc
    rw [Offset.cmp_eq_compare_okey] at *
    exact Nat.compare_eq_lt.mpr
      (Nat.lt_trans (Nat.compare_eq_lt.mp hab) (Nat.compare_eq_lt.mp hbc))

/-- C6 witness: the hypothesis-bearing conjuncts of the amended claim
applied at concrete offsets. -/
theorem C6_offset_decr_and_order_witness :
    Offset.decr ⟨5⟩ = ⟨4⟩ ∧
      Offset.cmp Offset.before ⟨0⟩ = Ordering.lt ∧
      Offset.cmp ⟨1⟩ ⟨3⟩ = Ordering.lt :=
  ⟨C6_offset_decr_and_order.2.1 4 (by decide),
    C6_offset_decr_and_order.2.2.2.2.1 ⟨0⟩ (by decide),
    C6_offset_decr_and_order.2.2.2.2.2.2 ⟨1⟩ ⟨2⟩ ⟨3⟩ (by decide) (by decide)⟩

theorem insertIdx_length_append (L R : List γ) (y : γ) :
    (L ++ R).insertIdx L.length y = L ++ y :: R := by
  induction L with
  | nil => simp
  | cons a L ih => simp [List.insertIdx_succ_cons, ih]

theorem insertIdx_append_of_length (L R : List γ) (n : Nat) (h : L.length = n) (y : γ) :
    (L ++ R).insertIdx n y = L ++ y :: R := by
  subst h
  exact insertIdx_length_append L R y

theorem hi_flip_start (s : RBound Int) (e : AnyRange Int) :
    (⟨s, flipStartToEnd e.start⟩ : AnyRange Int).hi = e.lo.map (fun x => x - 1) := by
  cases h : e.start <;> simp [AnyRange.hi, AnyRange.lo, flipStartToEnd, h]

theorem lo_flip_end (s : RBound Int) (e : AnyRange Int) :
    (⟨flipEndToStart e.stop, s⟩ : AnyRange Int).lo = e.hi.map (fun x => x + 1) := by
  cases h : e.stop <;> simp [AnyRange.hi, AnyRange.lo, flipEndToStart, h]

theorem connected_to_true_iff (a b : AnyRange Int) :
    a.connected_to b = true ↔
      ((∀ lb ha, b.lo = some lb → a.hi = some ha → lb ≤ ha + 1) ∧
       (∀ la hb, a.lo = some la → b.hi = some hb → la ≤ hb + 1)) := by
  unfold AnyRange.connected_to
  rcases b.lo with _ | lb <;> rcases a.hi with _ | ha <;>
    rcases a.lo with _ | la <;> rcases b.hi with _ | hb <;> simp

theorem itemsSeparated_true_iff (a b : Item (AnyRange Int) V) :
    itemsSeparated a b = true ↔
      ∃ h lo, a.key.hi = some h ∧ b.key.lo = some lo ∧ h < lo := by
  unfold itemsSeparated
  rcases a.key.hi with _ | h <;> rcases b.key.lo with _ | lo <;> simp

theorem is_empty_false_iff (r : AnyRange Int) :
    r.is_empty = false ↔ ∀ a b, r.lo = some a → r.hi = some b → a ≤ b := by
  unfold AnyRange.is_empty
  rcases r.lo with _ | a <;> rcases r.hi with _ | b <;> simp <;> omega

theorem intersects_true_iff (r s : AnyRange Int) :
    r.intersects s = true ↔
      r.is_empty = false ∧ s.is_empty = false ∧
      (∀ l2 h1, s.lo = some l2 → r.hi = some h1 → l2 ≤ h1) ∧
      (∀ l1 h2, r.lo = some l1 → s.hi = some h2 → l1 ≤ h2) := by
  unfold AnyRange.intersects
  rcases s.lo with _ | l2 <;> rcases r.hi with _ | h1 <;>
    rcases r.lo with _ | l1 <;> rcases s.hi with _ | h2 <;> simp <;> tauto

theorem rmInv_decomp {l : RML V} {addr : Nat} (h : addr < l.length) :
    l = l.take addr ++ l[addr] :: l.drop (addr + 1) := by
  conv_lhs => rw [← List.take_append_drop addr l]
  rw [List.drop_eq_getElem_cons h]

theorem rmInv_parts [DecidableEq V] {T D : List (Item (AnyRange Int) V)}
    {cur : Item (AnyRange Int) V} (hinv : rmInv (T ++ cur :: D)) :
    rmInv T ∧ rmInv D ∧ cur.key.is_empty = false ∧
      (∀ x, T.getLast? = some x → rmOkPair x cur) ∧
      (∀ y, D.head? = some y → rmOkPair cur y) := by
  obtain ⟨hne, hch⟩ := hinv
  rw [List.chain'_append] at hch
  obtain ⟨hcT, hcD, hbd⟩ := hch
  rw [List.chain'_cons'] at hcD
  refine ⟨⟨fun it hit => hne it (by simp [hit]), hcT⟩,
    ⟨fun it hit => hne it (by simp [hit]), hcD.2⟩,
    hne cur (by simp), ?_, ?_⟩
  · intro x hx
    exact hbd x hx cur (by simp)
  · intro y hy
    exact hcD.1 y hy

theorem rmInv_rebuild [DecidableEq V] {T D m : List (Item (AnyRange Int) V)}
    (hT : rmInv T) (hD : rmInv D)
    (hmidne : ∀ it ∈ m, it.key.is_empty = false)
    (hmidch : List.Chain' rmOkPair m)
    (hbL : ∀ x, T.getLast? = some x → ∀ y, m.head? = some y → rmOkPair x y)
    (hbR : ∀ x, m.getLast? = some x → ∀ y, D.head? = some y → rmOkPair x y)
    (hTD : m = [] → ∀ x, T.getLast? = some x → ∀ y, D.head? = some y → rmOkPair x y) :
    rmInv (T ++ m ++ D) := by
  constructor
  · intro it hit
    simp only [List.mem_append] at hit
    rcases hit with (hit | hit) | hit
    · exact hT.1 it hit
    · exact hmidne it hit
    · exact hD.1 it hit
  · rw [List.append_assoc, List.chain'_append]
    refine ⟨hT.2, ?_, ?_⟩
    · rw [List.chain'_append]
      refine ⟨hmidch, hD.2, ?_⟩
      intro x hx y hy
      exact hbR x hx y hy
    · intro x hx y hy
      cases m with
      | nil =>
        simp only [List.nil_append] at hy
        exact hTD rfl x hx y hy
      | cons m ms =>
        simp only [List.cons_append, List.head?_cons, Option.mem_def,
          Option.some.injEq] at hy
        subst hy
        exact hbL x hx m rfl

/-- C7: after inserting a space to 0, a hash sign to 1, the letter e to
2, a percent sign to 3, the uppercase span to 4 and the lowercase span to
5 (char scalar values), the resulting map binds the single merged
lowercase range 97 to 122 to 5: the earlier binding of e (101) to 2 is
overwritten, the lookup of the letter a (97) returns 5, the lookup of e
returns 5, and no item with value 2 survives. -/
theorem C7_insert_around_overwrites :
    c7Map = some
      [⟨⟨RBound.Included 32, RBound.Included 32⟩, 0⟩,
       ⟨⟨RBound.Included 35, RBound.Included 35⟩, 1⟩,
       ⟨⟨RBound.Included 37, RBound.Included 37⟩, 3⟩,
       ⟨⟨RBound.Included 65, RBound.Included 90⟩, 4⟩,
       ⟨⟨RBound.Included 97, RBound.Included 122⟩, 5⟩] ∧
    c7Map.bind (fun l => rangeGet l 97) = some 5 ∧
    c7Map.bind (fun l => rangeGet l 101) = some 5 ∧
    c7Map.map (fun l => l.all fun it => decide (it.value ≠ 2)) = some true := by
  refine ⟨?_, ?_, ?_, ?_⟩ <;> rfl

/-- C4: the gaps iterator evaluated at the failing input of the code-bug
verdict, together with the true empty-map half of the claim.  On a map
whose single stored range is unbounded on both sides, `next` sets the
done flag and takes the continue branch (map.rs line 844), then the
exhausted-iterator arm with no pending bound (line 867) emits the full
unbounded range as a gap — although every point of the domain is covered
by the stored range (point 0 witnesses the overlap), so the gaps and the
stored ranges are not disjoint.  On the empty map the iterator yields
exactly one gap, unbounded on both sides, and terminates. -/
theorem C4_gaps_full_range_overlap :
    gapsRun 5 (mkGaps [(⟨⟨RBound.Unbounded, RBound.Unbounded⟩, 0⟩ :
        Item (AnyRange Int) Nat)]) = [⟨RBound.Unbounded, RBound.Unbounded⟩] ∧
    AnyRange.mem 0 ⟨RBound.Unbounded, RBound.Unbounded⟩ = true ∧
    gapsRun 5 (mkGaps ([] : RML Nat)) = [⟨RBound.Unbounded, RBound.Unbounded⟩] ∧
    gapsRun 100 (mkGaps ([] : RML Nat)) = [⟨RBound.Unbounded, RBound.Unbounded⟩] := by
  refine ⟨?_, ?_, ?_, ?_⟩ <;> rfl

/-- C8: on the in-order streams of `t1 = 0, 1, 2` and `t2 = 2, 3, 4`,
the merge-walk iterators yield exactly the difference `0, 1`, the
intersection `2` and the union `0, 1, 2, 3, 4`, each in ascending order,
and each walk terminates (the run is insensitive to extra fuel). -/
theorem C8_rbtree_set_algebra :
    runIter differenceNext 10 (mkPairIter [0, 1, 2] [2, 3, 4]) = [0, 1] ∧
    runIter intersectionNext 10 (mkPairIter [0, 1, 2] [2, 3, 4]) = [2] ∧
    runIter unionNext 10 (mkPairIter [0, 1, 2] [2, 3, 4]) = [0, 1, 2, 3, 4] ∧
    runIter differenceNext 100 (mkPairIter [0, 1, 2] [2, 3, 4]) = [0, 1] ∧
    runIter intersectionNext 100 (mkPairIter [0, 1, 2] [2, 3, 4]) = [2] ∧
    runIter unionNext 100 (mkPairIter [0, 1, 2] [2, 3, 4]) = [0, 1, 2, 3, 4] := by
  refine ⟨?_, ?_, ?_, ?_, ?_, ?_⟩ <;> rfl

/-- C9: `Item` equality and ordering compare keys only: `eq` is exactly
key equality (even when values differ, witnessed concretely), the partial
comparison is always `some` of the key comparison, and derived equality of
item sequences depends only on the key sequences. -/
theorem C9_item_eq_keys_only :
    (∀ (K V : Type) (inst : BEq K) (a b : Item K V),
      Item.eq a b = (a.key == b.key)) ∧
    (∀ (K V : Type) (inst : Ord K) (a b : Item K V),
      Item.partial_cmp a b = some (Ord.compare a.key b.key)) ∧
    (Item.eq (Item.new (1 : Nat) (10 : Nat)) (Item.new 1 20) = true ∧
      (Item.new (1 : Nat) (10 : Nat)).value ≠ (Item.new 1 20).value) ∧
    (∀ l₁ l₂ : List (Item Nat Nat),
      itemsEq l₁ l₂ = (l₁.map Item.key == l₂.map Item.key)) := by
  exact ⟨fun _ _ _ _ _ => rfl, fun _ _ _ _ _ => rfl, by decide,
    fun l₁ l₂ => itemsEq_keys l₁ l₂⟩

/-- C10: converting the raw integer `usize::MAX` to an `Offset` produces
the before sentinel — `is_before()` is true and `value()` is `None` — and
the offset-versus-integer equality never equates any offset with
`usize::MAX`. -/
theorem C10_offset_from_usize_max :
    (Offset.fromUsize USIZE_MAX).is_before = true ∧
    (Offset.fromUsize USIZE_MAX).value = none ∧
    (∀ o : Offset, Offset.eq_usize o USIZE_MAX = false) := by
  refine ⟨by decide, by decide, ?_⟩
  intro o
  by_cases h : o.val = USIZE_MAX <;> simp [Offset.eq_usize, h]


theorem itemsNormalized_true_iff [DecidableEq V] (x y : Item (AnyRange Int) V) :
    itemsNormalized x y = true ↔
      ¬(x.key.connected_to y.key = true ∧ x.value = y.value) := by
  rcases hc : x.key.connected_to y.key <;> simp [itemsNormalized, hc]

theorem okPair_iff [DecidableEq V] {x y : Item (AnyRange Int) V}
    (hxne : x.key.is_empty = false) (hyne : y.key.is_empty = false) :
    rmOkPair x y ↔
      ∃ h lo, x.key.hi = some h ∧ y.key.lo = some lo ∧ h < lo ∧
        (lo = h + 1 → x.value ≠ y.value) := by
  unfold rmOkPair
  rw [itemsSeparated_true_iff, itemsNormalized_true_iff]
  constructor
  · rintro ⟨⟨h, lo, hx, hy, hlt⟩, hnorm⟩
    refine ⟨h, lo, hx, hy, hlt, ?_⟩
    intro hadj hval
    apply hnorm
    refine ⟨?_, hval⟩
    rw [connected_to_true_iff]
    constructor
    · intro lb ha hlb hha
      rw [hy] at hlb
      rw [hx] at hha
      cases hlb
      cases hha
      omega
    · intro la hb hla hhb
      have h1 := (is_empty_false_iff _).mp hxne la h hla hx
      have h2 := (is_empty_false_iff _).mp hyne lo hb hy hhb
      omega
  · rintro ⟨h, lo, hx, hy, hlt, hadj⟩
    refine ⟨⟨h, lo, hx, hy, hlt⟩, ?_⟩
    rintro ⟨hconn, hval⟩
    rw [connected_to_true_iff] at hconn
    have := hconn.1 lo h hy hx
    exact hadj (by omega) hval

theorem loLtOpt_true_iff (x y : Option Int) :
    loLtOpt x y = true ↔
      (∃ b, y = some b) ∧ ∀ a b, x = some a → y = some b → a < b := by
  rcases x with _ | a <;> rcases y with _ | b <;> simp [loLtOpt]

theorem hiLtOpt_true_iff (x y : Option Int) :
    hiLtOpt x y = true ↔
      (∃ a, x = some a) ∧ ∀ a b, x = some a → y = some b → a < b := by
  rcases x with _ | a <;> rcases y with _ | b <;> simp [hiLtOpt]

theorem loLtOpt_false_iff (x y : Option Int) :
    loLtOpt x y = false ↔
      (x = none → y = none) ∧ ∀ a b, x = some a → y = some b → b ≤ a := by
  rcases x with _ | a <;> rcases y with _ | b <;> simp [loLtOpt] <;> omega

theorem hiLtOpt_false_iff (x y : Option Int) :
    hiLtOpt x y = false ↔
      (y = none → x = none) ∧ ∀ a b, x = some a → y = some b → b ≤ a := by
  rcases x with _ | a <;> rcases y with _ | b <;> simp [hiLtOpt] <;> omega


theorem rangeRemoveLoop_inv [DecidableEq V] (key : AnyRange Int) :
    ∀ (fuel : Nat) (l : RML V) (addr : Nat), rmInv l →
      ∀ l2, rangeRemoveLoop fuel l key addr = some l2 → rmInv l2 := by
  intro fuel
  induction fuel with
  | zero =>
    intro l addr _ l2 h
    exact absurd h (by simp [rangeRemoveLoop])
  | succ fuel ih =>
    intro l addr hinv l2 hrun
    simp only [rangeRemoveLoop] at hrun
    split at hrun
    · cases hrun
      exact hinv
    · rename_i cur hget
      have haddr : addr < l.length := by
        rcases List.getElem?_eq_some_iff.mp hget with ⟨h, _⟩
        exact h
      have hcur : l[addr] = cur := by
        rcases List.getElem?_eq_some_iff.mp hget with ⟨h, he⟩
        exact he
      have hdec : l = l.take addr ++ cur :: l.drop (addr + 1) := by
        have h := rmInv_decomp haddr
        rwa [hcur] at h
      have hTlen : (l.take addr).length = addr := by
        simp [List.length_take]
        omega
      obtain ⟨hTinv, hDinv, hcurne, hbL, hbR⟩ := rmInv_parts (hdec ▸ hinv)
      split at hrun
      · rename_i hint
        obtain ⟨hone, hsne, hi1, hi2⟩ := (intersects_true_iff _ _).mp hint
        split at hrun
        · -- Split case
          rename_i left right heq
          have hw := heq
          unfold AnyRange.without at hw
          split_ifs at hw with h1 h2
          · injection hw with hwl hwr
            subst hwl
            subst hwr
            obtain ⟨⟨slo, hslo⟩, hlo_lt⟩ := (loLtOpt_true_iff _ _).mp h1
            obtain ⟨⟨shi, hshi⟩, hhi_lt⟩ := (hiLtOpt_true_iff _ _).mp h2
            have hss : slo ≤ shi := (is_empty_false_iff key).mp hsne slo shi hslo hshi
            set rL : AnyRange Int := ⟨cur.key.start, flipStartToEnd key.start⟩ with hrL
            set rR : AnyRange Int := ⟨flipEndToStart key.stop, cur.key.stop⟩ with hrR
            have hrLlo : rL.lo = cur.key.lo := rfl
            have hrLhi : rL.hi = some (slo - 1) := by
              rw [hrL, hi_flip_start, hslo]
              rfl
            have hrRlo : rR.lo = some (shi + 1) := by
              rw [hrR, lo_flip_end, hshi]
              rfl
            have hrRhi : rR.hi = cur.key.hi := rfl
            have hrLne : rL.is_empty = false := by
              rw [is_empty_false_iff]
              intro a b ha hb
              rw [hrLhi] at hb
              cases hb
              rw [hrLlo] at ha
              have := hlo_lt a slo ha hslo
              omega
            have hrRne : rR.is_empty = false := by
              rw [is_empty_false_iff]
              intro a b ha hb
              rw [hrRlo] at ha
              cases ha
              rw [hrRhi] at hb
              have := hhi_lt shi b hshi hb
              omega
            have hchain : List.Chain' rmOkPair
                [(⟨rL, cur.value⟩ : Item (AnyRange Int) V), ⟨rR, cur.value⟩] := by
              rw [List.chain'_cons]
              refine ⟨?_, List.chain'_singleton _⟩
              rw [okPair_iff hrLne hrRne]
              refine ⟨slo - 1, shi + 1, hrLhi, hrRlo, by omega, ?_⟩
              intro hadj
              exfalso
              omega
            have hres : rmInv (l.take addr ++
                [(⟨rL, cur.value⟩ : Item (AnyRange Int) V), ⟨rR, cur.value⟩] ++
                l.drop (addr + 1)) := by
              apply rmInv_rebuild hTinv hDinv
              · intro it hit
                simp only [List.mem_cons, List.mem_singleton] at hit
                rcases hit with rfl | rfl | h
                · exact hrLne
                · exact hrRne
                · cases h
              · exact hchain
              · intro x hx y hy
                simp only [List.head?_cons, Option.some.injEq] at hy
                subst hy
                have hxc := hbL x hx
                have hxne : x.key.is_empty = false := by
                  apply hTinv.1
                  exact List.mem_of_getLast?_eq_some hx
                rw [okPair_iff hxne hcurne] at hxc
                obtain ⟨hh, llo, hxhi, hclo, hlt, hadj⟩ := hxc
                rw [okPair_iff hxne hrLne]
                exact ⟨hh, llo, hxhi, by rw [hrLlo]; exact hclo, hlt, hadj⟩
              · intro x hx y hy
                simp only [List.getLast?_cons_cons, List.getLast?_singleton,
                  Option.some.injEq] at hx
                subst hx
                have hcy := hbR y hy
                have hyne : y.key.is_empty = false := by
                  apply hDinv.1
                  exact List.mem_of_mem_head? hy
                rw [okPair_iff hcurne hyne] at hcy
                obtain ⟨ohh, ylo, hchi, hylo, hlt, hadj⟩ := hcy
                rw [okPair_iff hrRne hyne]
                exact ⟨ohh, ylo, by rw [hrRhi]; exact hchi, hylo, hlt, hadj⟩
              · intro h
                cases h
            have hset : l.set addr ⟨rR, cur.value⟩ =
                l.take addr ++ (⟨rR, cur.value⟩ : Item (AnyRange Int) V) ::
                  l.drop (addr + 1) :=
              List.set_eq_take_cons_drop _ haddr
            cases hrun
            rw [hset, insertIdx_append_of_length _ _ _ hTlen]
            simpa using hres
        · -- Before case
          rename_i left heq
          have hw := heq
          unfold AnyRange.without at hw
          split_ifs at hw with h1 h2
          injection hw with hwl
          subst hwl
          obtain ⟨⟨slo, hslo⟩, hlo_lt⟩ := (loLtOpt_true_iff _ _).mp h1
          set rL : AnyRange Int := ⟨cur.key.start, flipStartToEnd key.start⟩ with hrL
          have hrLlo : rL.lo = cur.key.lo := rfl
          have hrLhi : rL.hi = some (slo - 1) := by
            rw [hrL, hi_flip_start, hslo]
            rfl
          have hrLne : rL.is_empty = false := by
            rw [is_empty_false_iff]
            intro a b ha hb
            rw [hrLhi] at hb
            cases hb
            rw [hrLlo] at ha
            have := hlo_lt a slo ha hslo
            omega
          have hres : rmInv (l.take addr ++
              [(⟨rL, cur.value⟩ : Item (AnyRange Int) V)] ++ l.drop (addr + 1)) := by
            apply rmInv_rebuild hTinv hDinv
            · intro it hit
              simp only [List.mem_singleton] at hit
              subst hit
              exact hrLne
            · exact List.chain'_singleton _
            · intro x hx y hy
              simp only [List.head?_cons, Option.some.injEq] at hy
              subst hy
              have hxc := hbL x hx
              have hxne : x.key.is_empty = false := by
                apply hTinv.1
                exact List.mem_of_getLast?_eq_some hx
              rw [okPair_iff hxne hcurne] at hxc
              obtain ⟨hh, llo, hxhi, hclo, hlt, hadj⟩ := hxc
              rw [okPair_iff hxne hrLne]
              exact ⟨hh, llo, hxhi, by rw [hrLlo]; exact hclo, hlt, hadj⟩
            · intro x hx y hy
              simp only [List.getLast?_singleton, Option.some.injEq] at hx
              subst hx
              have hcy := hbR y hy
              have hyne : y.key.is_empty = false := by
                apply hDinv.1
                exact List.mem_of_mem_head? hy
              rw [okPair_iff hcurne hyne] at hcy
              obtain ⟨ohh, ylo, hchi, hylo, hlt, hadj⟩ := hcy
              have hso : slo ≤ ohh := hi1 slo ohh hslo hchi
              rw [okPair_iff hrLne hyne]
              refine ⟨slo - 1, ylo, hrLhi, hylo, by omega, ?_⟩
              intro hadj2
              exfalso
              omega
            · intro h
              cases h
          have hset : l.set addr ⟨rL, cur.value⟩ =
              l.take addr ++ (⟨rL, cur.value⟩ : Item (AnyRange Int) V) ::
                l.drop (addr + 1) :=
            List.set_eq_take_cons_drop _ haddr
          cases hrun
          rw [hset]
          simpa using hres
        · -- After case
          rename_i right heq
          have hw := heq
          unfold AnyRange.without at hw
          split_ifs at hw with h1 h2 h3
          injection hw with hwr
          subst hwr
          obtain ⟨⟨shi, hshi⟩, hhi_lt⟩ := (hiLtOpt_true_iff _ _).mp h3
          obtain ⟨hnone, hge⟩ := (loLtOpt_false_iff _ _).mp (Bool.eq_false_iff.mpr h1)
          set rR : AnyRange Int := ⟨flipEndToStart key.stop, cur.key.stop⟩ with hrR
          have hrRlo : rR.lo = some (shi + 1) := by
            rw [hrR, lo_flip_end, hshi]
            rfl
          have hrRhi : rR.hi = cur.key.hi := rfl
          have hrRne : rR.is_empty = false := by
            rw [is_empty_false_iff]
            intro a b ha hb
            rw [hrRlo] at ha
            cases ha
            rw [hrRhi] at hb
            have := hhi_lt shi b hshi hb
            omega
          have hres : rmInv (l.take addr ++
              [(⟨rR, cur.value⟩ : Item (AnyRange Int) V)] ++ l.drop (addr + 1)) := by
            apply rmInv_rebuild hTinv hDinv
            · intro it hit
              simp only [List.mem_singleton] at hit
              subst hit
              exact hrRne
            · exact List.chain'_singleton _
            · intro x hx y hy
              simp only [List.head?_cons, Option.some.injEq] at hy
              subst hy
              have hxc := hbL x hx
              have hxne : x.key.is_empty = false := by
                apply hTinv.1
                exact List.mem_of_getLast?_eq_some hx
              rw [okPair_iff hxne hcurne] at hxc
              obtain ⟨hh, llo, hxhi, hclo, hlt, hadj⟩ := hxc
              have hls : llo ≤ shi := hi2 llo shi hclo hshi
              rw [okPair_iff hxne hrRne]
              refine ⟨hh, shi + 1, hxhi, hrRlo, by omega, ?_⟩
              intro hadj2
              exfalso
              omega
            · intro x hx y hy
              simp only [List.getLast?_singleton, Option.some.injEq] at hx
              subst hx
              have hcy := hbR y hy
              have hyne : y.key.is_empty = false := by
                apply hDinv.1
                exact List.mem_of_mem_head? hy
              rw [okPair_iff hcurne hyne] at hcy
              obtain ⟨ohh, ylo, hchi, hylo, hlt, hadj⟩ := hcy
              rw [okPair_iff hrRne hyne]
              exact ⟨ohh, ylo, by rw [hrRhi]; exact hchi, hylo, hlt, hadj⟩
            · intro h
              cases h
          have hset : l.set addr ⟨rR, cur.value⟩ =
              l.take addr ++ (⟨rR, cur.value⟩ : Item (AnyRange Int) V) ::
                l.drop (addr + 1) :=
            List.set_eq_take_cons_drop _ haddr
          have hinv2 : rmInv (l.set addr ⟨rR, cur.value⟩) := by
            rw [hset]
            simpa using hres
          split at hrun
          · rename_i prev hprev
            exact ih _ _ hinv2 _ hrun
          · cases hrun
            exact hinv2
        · -- Empty case
          rename_i heq
          have hw := heq
          unfold AnyRange.without at hw
          split_ifs at hw with h1 h2 h3
          have hres : rmInv (l.take addr ++ [] ++ l.drop (addr + 1)) := by
            apply rmInv_rebuild hTinv hDinv
            · intro it hit
              cases hit
            · exact List.chain'_nil
            · intro x hx y hy
              cases hy
            · intro x hx y hy
              cases hx
            · intro _ x hx y hy
              have hxc := hbL x hx
              have hcy := hbR y hy
              have hxne : x.key.is_empty = false := by
                apply hTinv.1
                exact List.mem_of_getLast?_eq_some hx
              have hyne : y.key.is_empty = false := by
                apply hDinv.1
                exact List.mem_of_mem_head? hy
              rw [okPair_iff hxne hcurne] at hxc
              obtain ⟨hh, llo, hxhi, hclo, hlt, hadj⟩ := hxc
              rw [okPair_iff hcurne hyne] at hcy
              obtain ⟨ohh, ylo, hchi, hylo, hlt2, hadj2⟩ := hcy
              have hco : llo ≤ ohh := (is_empty_false_iff _).mp hcurne llo ohh hclo hchi
              rw [okPair_iff hxne hyne]
              refine ⟨hh, ylo, hxhi, hylo, by omega, ?_⟩
              intro hadj3
              exfalso
              omega
          have hinv2 : rmInv (l.eraseIdx addr) := by
            rw [List.eraseIdx_eq_take_drop_succ]
            simpa using hres
          split at hrun
          · rename_i prev hprev
            exact ih _ _ hinv2 _ hrun
          · cases hrun
            exact hinv2
      · rename_i hint
        cases hrun
        exact hinv

theorem rpc_isSome (q o : AnyRange Int) : (AnyRange.range_partial_cmp q o).isSome = true := by
  unfold AnyRange.range_partial_cmp
  rcases hq : q.hi with _ | a <;> rcases hol : o.lo with _ | b <;>
    rcases hoh : o.hi with _ | c <;> rcases hql : q.lo with _ | d <;>
    simp only [hq, hol, hoh, hql] <;> (repeat' split) <;> rfl

theorem after_arm_not_before (o : Option Bool) :
    ((match o with
      | some c => some (RangeOrdering.After c)
      | none => some (RangeOrdering.Intersecting false false)).getD
        (RangeOrdering.Before false)).is_before true = false := by
  rcases o with _ | c <;> rfl

theorem probe_true_iff (key : AnyRange Int) (it : Item (AnyRange Int) V) :
    probeIsBefore (fun i2 => AnyRange.range_partial_cmp key i2.key) true it = true ↔
      ∃ kh lo2, key.hi = some kh ∧ it.key.lo = some lo2 ∧ kh + 1 < lo2 := by
  unfold probeIsBefore AnyRange.range_partial_cmp
  rcases hkh : key.hi with _ | kh <;> rcases hlo : it.key.lo with _ | lo2 <;>
    simp only [hkh, hlo]
  · rw [after_arm_not_before]
    simp
  · rw [after_arm_not_before]
    simp
  · rw [after_arm_not_before]
    simp
  · by_cases hlt : kh < lo2
    · rw [if_pos hlt]
      show (RangeOrdering.Before (decide (lo2 ≤ kh + 1))).is_before true = true ↔ _
      unfold RangeOrdering.is_before
      simp only [Bool.true_and, Bool.not_eq_true', decide_eq_false_iff_not]
      constructor
      · intro h
        exact ⟨kh, lo2, rfl, rfl, by omega⟩
      · rintro ⟨x, y, hx, hy, h⟩
        cases hx
        cases hy
        omega
    · rw [if_neg hlt]
      rw [after_arm_not_before]
      simp only [Bool.false_eq_true, false_iff]
      rintro ⟨x, y, hx, hy, h⟩
      cases hx
      cases hy
      omega

theorem probe_false_iff (key : AnyRange Int) (it : Item (AnyRange Int) V) :
    probeIsBefore (fun i2 => AnyRange.range_partial_cmp key i2.key) true it = false ↔
      ∀ kh lo2, key.hi = some kh → it.key.lo = some lo2 → lo2 ≤ kh + 1 := by
  rw [← Bool.not_eq_true, probe_true_iff]
  constructor
  · intro h kh lo2 hkh hlo
    by_contra hc
    exact h ⟨kh, lo2, hkh, hlo, by omega⟩
  · rintro h ⟨kh, lo2, hkh, hlo, hlt⟩
    have := h kh lo2 hkh hlo
    omega

theorem matches_false_after (key : AnyRange Int) (it : Item (AnyRange Int) V)
    (h1 : probeIsBefore (fun i2 => AnyRange.range_partial_cmp key i2.key) true it = false)
    (h2 : ((AnyRange.range_partial_cmp key it.key).getD
        (RangeOrdering.After false)).matches true = false) :
    ∃ xh klo, it.key.hi = some xh ∧ key.lo = some klo ∧ xh + 1 < klo := by
  unfold probeIsBefore at h1
  revert h1 h2
  unfold AnyRange.range_partial_cmp
  rcases hkh : key.hi with _ | kh <;> rcases hol : it.key.lo with _ | ol <;>
    rcases hoh : it.key.hi with _ | oh <;> rcases hql : key.lo with _ | ql <;>
    simp only [hkh, hol, hoh, hql, Option.getD_some] <;>
    (repeat' split) <;>
    intro h1 h2 <;>
    simp_all [RangeOrdering.is_before, RangeOrdering.matches]

theorem getLast?_take_succ (l : List γ) (i : Nat) (h : i < l.length) :
    (l.take (i + 1)).getLast? = some l[i] := by
  rw [List.take_succ, List.getElem?_eq_getElem h]
  show (l.take i ++ [l[i]]).getLast? = some l[i]
  exact List.getLast?_concat _

theorem rmInv_append_parts [DecidableEq V] {T D : RML V} (h : rmInv (T ++ D)) :
    rmInv T ∧ rmInv D ∧
      ∀ x, T.getLast? = some x → ∀ y, D.head? = some y → rmOkPair x y := by
  obtain ⟨hne, hch⟩ := h
  rw [List.chain'_append] at hch
  exact ⟨⟨fun it hit => hne it (by simp [hit]), hch.1⟩,
    ⟨fun it hit => hne it (by simp [hit]), hch.2.1⟩, hch.2.2⟩

theorem okPair_through [DecidableEq V] {x c y : Item (AnyRange Int) V}
    (hxc : rmOkPair x c) (hcy : rmOkPair c y)
    (hxne : x.key.is_empty = false) (hcne : c.key.is_empty = false)
    (hyne : y.key.is_empty = false) : rmOkPair x y := by
  rw [okPair_iff hxne hcne] at hxc
  rw [okPair_iff hcne hyne] at hcy
  rw [okPair_iff hxne hyne]
  obtain ⟨h, lo, hx, hc, hlt, _⟩ := hxc
  obtain ⟨h2, lo2, hc2, hy, hlt2, _⟩ := hcy
  have := (is_empty_false_iff _).mp hcne lo h2 hc hc2
  refine ⟨h, lo2, hx, hy, by omega, ?_⟩
  intro hadj
  exfalso
  omega

theorem rmInv_erase [DecidableEq V] {l : RML V} (hinv : rmInv l) (addr : Nat) :
    rmInv (l.eraseIdx addr) := by
  by_cases h : addr < l.length
  · have hdec := rmInv_decomp (l := l) h
    rw [List.eraseIdx_eq_take_drop_succ]
    obtain ⟨hT, hD, hcne, hbL, hbR⟩ := rmInv_parts (hdec ▸ hinv)
    have hres := rmInv_rebuild (m := ([] : RML V)) hT hD
      (by intro it hit; cases hit) List.chain'_nil
      (by intro x hx y hy; cases hy) (by intro x hx y hy; cases hx)
      (by
        intro _ x hx y hy
        exact okPair_through (hbL x hx) (hbR y hy)
          (hT.1 x (List.mem_of_getLast?_eq_some hx)) hcne
          (hD.1 y (List.mem_of_mem_head? hy)))
    simpa using hres
  · rw [List.eraseIdx_of_length_le (by omega)]
    exact hinv

theorem rmInv_insertIdx [DecidableEq V] {l : RML V} {a : Nat} (hinv : rmInv l)
    (ha : a ≤ l.length) {n : Item (AnyRange Int) V} (hne : n.key.is_empty = false)
    (hL : ∀ x, (l.take a).getLast? = some x → rmOkPair x n)
    (hR : ∀ y, l[a]? = some y → rmOkPair n y) :
    rmInv (l.insertIdx a n) := by
  have hdec : l = l.take a ++ l.drop a := (List.take_append_drop a l).symm
  have hTlen : (l.take a).length = a := by
    simp [List.length_take]
    omega
  obtain ⟨hT, hD, hbd⟩ := rmInv_append_parts (hdec ▸ hinv)
  have heq := insertIdx_append_of_length (l.take a) (l.drop a) a hTlen n
  rw [← hdec] at heq
  rw [heq]
  have hres := rmInv_rebuild (m := [n]) hT hD
    (by intro it hit; simp only [List.mem_singleton] at hit; subst hit; exact hne)
    (List.chain'_singleton _)
    (by
      intro x hx y hy
      simp only [List.head?_cons, Option.some.injEq] at hy
      subst hy
      exact hL x hx)
    (by
      intro x hx y hy
      simp only [List.getLast?_singleton, Option.some.injEq] at hx
      subst hx
      apply hR
      rw [← List.head?_drop]
      exact hy)
    (by intro hmid; cases hmid)
  simpa using hres

theorem rmInv_set_of [DecidableEq V] {l : RML V} {a : Nat} (hinv : rmInv l)
    (ha : a < l.length) {n : Item (AnyRange Int) V} (hne : n.key.is_empty = false)
    (hL : ∀ x, (l.take a).getLast? = some x → rmOkPair x n)
    (hR : ∀ y, l[a + 1]? = some y → rmOkPair n y) :
    rmInv (l.set a n) := by
  have hdec := rmInv_decomp (l := l) ha
  obtain ⟨hT, hD, hcne, hbL, hbR⟩ := rmInv_parts (hdec ▸ hinv)
  rw [List.set_eq_take_cons_drop _ ha]
  have hres := rmInv_rebuild (m := [n]) hT hD
    (by intro it hit; simp only [List.mem_singleton] at hit; subst hit; exact hne)
    (List.chain'_singleton _)
    (by
      intro x hx y hy
      simp only [List.head?_cons, Option.some.injEq] at hy
      subst hy
      exact hL x hx)
    (by
      intro x hx y hy
      simp only [List.getLast?_singleton, Option.some.injEq] at hx
      subst hx
      apply hR
      rw [← List.head?_drop]
      exact hy)
    (by intro hmid; cases hmid)
  simpa using hres

theorem rmInv_sep_of_lt [DecidableEq V] {l : RML V} (hinv : rmInv l) :
    ∀ j i (hi2 : i < l.length) (hj : j < l.length), i < j →
      ∃ h lo, (l.get ⟨i, hi2⟩).key.hi = some h ∧
        (l.get ⟨j, hj⟩).key.lo = some lo ∧ h < lo := by
  have hadj : ∀ i (h : i < l.length - 1),
      rmOkPair (l.get ⟨i, by omega⟩) (l.get ⟨i + 1, by omega⟩) :=
    List.chain'_iff_get.mp hinv.2
  intro j
  induction j with
  | zero =>
    intro i hi2 hj hij
    omega
  | succ j ih =>
    intro i hi2 hj hij
    have hpair := hadj j (by omega)
    have hjne : (l.get ⟨j, by omega⟩).key.is_empty = false :=
      hinv.1 _ (by simp only [List.get_eq_getElem]; exact List.getElem_mem (by omega))
    have hj1ne : (l.get ⟨j + 1, by omega⟩).key.is_empty = false :=
      hinv.1 _ (by simp only [List.get_eq_getElem]; exact List.getElem_mem (by omega))
    obtain ⟨h2, lo2, hh2, hlo2, hlt2, _⟩ :=
      (okPair_iff hjne hj1ne).mp hpair
    by_cases hcase : i = j
    · subst hcase
      exact ⟨h2, lo2, hh2, hlo2, hlt2⟩
    · obtain ⟨h, lo, hh, hlo, hlt⟩ := ih i hi2 (by omega) (by omega)
      have hjle := (is_empty_false_iff _).mp hjne lo h2 hlo hh2
      exact ⟨h, lo2, hh, hlo2, by omega⟩

theorem probe_mono [DecidableEq V] {l : RML V} (hinv : rmInv l) (key : AnyRange Int) :
    ∀ k₁ k₂ : Fin l.length, k₁ ≤ k₂ →
      probeIsBefore (fun i2 => AnyRange.range_partial_cmp key i2.key) true
        (l.get k₁) = true →
      probeIsBefore (fun i2 => AnyRange.range_partial_cmp key i2.key) true
        (l.get k₂) = true := by
  intro k₁ k₂ hle hp
  rw [probe_true_iff] at hp ⊢
  obtain ⟨kh, lo1, hkh, hlo1, hlt⟩ := hp
  by_cases hcase : k₁.val = k₂.val
  · have : k₁ = k₂ := Fin.ext hcase
    subst this
    exact ⟨kh, lo1, hkh, hlo1, hlt⟩
  · obtain ⟨h, lo2, hh, hlo2, hlt2⟩ :=
      rmInv_sep_of_lt hinv k₂.val k₁.val k₁.isLt k₂.isLt (by omega)
    have hne1 : (l.get k₁).key.is_empty = false :=
      hinv.1 _ (by simp only [List.get_eq_getElem]; exact List.getElem_mem k₁.isLt)
    have := (is_empty_false_iff _).mp hne1 lo1 h hlo1 hh
    have hk2 : (l.get ⟨k₂.val, k₂.isLt⟩).key.lo = some lo2 := hlo2
    exact ⟨kh, lo2, hkh, hk2, by omega⟩

theorem address_of_found_spec [DecidableEq V] {l : RML V} {key : AnyRange Int} {a : Nat}
    (hinv : rmInv l)
    (hfound : address_of (fun ok => AnyRange.range_partial_cmp key ok) true l =
      SearchResult.found a) :
    (∃ cur, l[a]? = some cur ∧
      ∀ clo kh, cur.key.lo = some clo → key.hi = some kh → clo ≤ kh + 1) ∧
    (∀ y, l[a + 1]? = some y →
      ∃ kh ylo, key.hi = some kh ∧ y.key.lo = some ylo ∧ kh < ylo) := by
  unfold address_of at hfound
  split at hfound
  · rename_i i hbs
    split at hfound
    · cases hfound
    · rename_i it hget
      split at hfound
      · cases hfound
        rename_i hmatch
        have hne2 : l ≠ [] := by
          intro h
          subst h
          simp at hget
        have hdef : ∀ it2 ∈ l,
            ((fun i2 => AnyRange.range_partial_cmp key i2.key) it2).isSome :=
          fun it2 _ => rpc_isSome key it2.key
        obtain ⟨hlen, hpf, hafter⟩ :=
          (binary_search_spec _ true l hne2 hdef (probe_mono hinv key)).2 a hbs
        have hgetE : l.get ⟨a, hlen⟩ = it := by
          rcases List.getElem?_eq_some_iff.mp hget with ⟨h2, he⟩
          simpa using he
        constructor
        · refine ⟨it, hget, ?_⟩
          rw [hgetE] at hpf
          exact fun clo kh hclo hkh => (probe_false_iff key it).mp hpf kh clo hkh hclo
        · intro y hy
          have hylen : a + 1 < l.length := (List.getElem?_eq_some_iff.mp hy).1
          have hyget : l.get ⟨a + 1, hylen⟩ = y := by
            simpa using (List.getElem?_eq_some_iff.mp hy).2
          have hp := hafter ⟨a + 1, hylen⟩ (by simp)
          rw [hyget, probe_true_iff] at hp
          obtain ⟨kh, ylo, h1, h2, h3⟩ := hp
          exact ⟨kh, ylo, h1, h2, by omega⟩
      · cases hfound
  · cases hfound

theorem address_of_insertAt_spec [DecidableEq V] {l : RML V} {key : AnyRange Int} {a : Nat}
    (hinv : rmInv l)
    (hins : address_of (fun ok => AnyRange.range_partial_cmp key ok) true l =
      SearchResult.insertAt a) :
    a ≤ l.length ∧
    (∀ x, (l.take a).getLast? = some x →
      ∃ xh klo, x.key.hi = some xh ∧ key.lo = some klo ∧ xh + 1 < klo) ∧
    (∀ y, l[a]? = some y →
      ∃ kh ylo, key.hi = some kh ∧ y.key.lo = some ylo ∧ kh + 1 < ylo) := by
  have hdef : ∀ it2 ∈ l,
      ((fun i2 => AnyRange.range_partial_cmp key i2.key) it2).isSome :=
    fun it2 _ => rpc_isSome key it2.key
  unfold address_of at hins
  split at hins
  · rename_i i hbs
    split at hins
    · rename_i hget
      cases hins
      exfalso
      obtain ⟨hlen, _, _⟩ :=
        (binary_search_spec _ true l
          (by intro h; subst h; simp [binary_search] at hbs) hdef
          (probe_mono hinv key)).2 i hbs
      rw [List.getElem?_eq_getElem hlen] at hget
      cases hget
    · rename_i it hget
      split at hins
      · cases hins
      · cases hins
        rename_i hmatch
        have hne2 : l ≠ [] := by
          intro h
          subst h
          simp at hget
        obtain ⟨hlen, hpf, hafter⟩ :=
          (binary_search_spec _ true l hne2 hdef (probe_mono hinv key)).2 i hbs
        have hgetE : l.get ⟨i, hlen⟩ = it := by
          rcases List.getElem?_eq_some_iff.mp hget with ⟨h2, he⟩
          simpa using he
        refine ⟨by omega, ?_, ?_⟩
        · intro x hx
          rw [getLast?_take_succ l i hlen] at hx
          have hxit : x = it := by
            rw [← hgetE]
            simp only [List.get_eq_getElem]
            exact (Option.some.inj hx).symm
          subst hxit
          apply matches_false_after key x
          · rw [hgetE] at hpf
            exact hpf
          · simpa using hmatch
        · intro y hy
          have hylen : i + 1 < l.length := (List.getElem?_eq_some_iff.mp hy).1
          have hyget : l.get ⟨i + 1, hylen⟩ = y := by
            simpa using (List.getElem?_eq_some_iff.mp hy).2
          have hp := hafter ⟨i + 1, hylen⟩ (by simp)
          rw [hyget, probe_true_iff] at hp
          exact hp
  · cases hins
    rcases hl : l with _ | ⟨first, rest⟩
    · refine ⟨by simp, ?_, ?_⟩
      · intro x hx
        simp at hx
      · intro y hy
        simp at hy
    · rw [← hl]
      have hne2 : l ≠ [] := by
        rw [hl]
        simp
      rename_i hbs
      have hall := (binary_search_spec _ true l hne2 hdef (probe_mono hinv key)).1 hbs
      refine ⟨by omega, ?_, ?_⟩
      · intro x hx
        simp at hx
      · intro y hy
        have hylen : 0 < l.length := (List.getElem?_eq_some_iff.mp hy).1
        have hyget : l.get ⟨0, hylen⟩ = y := by
          simpa using (List.getElem?_eq_some_iff.mp hy).2
        have hp := hall ⟨0, hylen⟩
        rw [hyget, probe_true_iff] at hp
        exact hp

theorem take_append_cons (T D : List γ) (e : γ) : (T ++ e :: D).take T.length = T :=
  List.take_left T _

theorem drop_append_cons (T D : List γ) (e : γ) :
    (T ++ e :: D).drop (T.length + 1) = D := by
  have h1 : T ++ e :: D = (T ++ [e]) ++ D := by simp
  have h2 : T.length + 1 = (T ++ [e]).length := by simp
  rw [h1, h2, List.drop_left]

theorem getElem?_append_cons (T D : List γ) (e : γ) : (T ++ e :: D)[T.length]? = some e := by
  have h : T.length < (T ++ e :: D).length := by simp
  rw [List.getElem?_eq_getElem h, List.getElem_append_right (Nat.le_refl _)]
  simp

theorem getElem?_append_cons_succ (T D : List γ) (e y : γ) :
    (T ++ e :: y :: D)[T.length + 1]? = some y := by
  have h1 : T ++ e :: y :: D = (T ++ [e]) ++ y :: D := by simp
  have h2 : T.length + 1 = (T ++ [e]).length := by simp
  rw [h1, h2, getElem?_append_cons]

theorem set_append_cons (T D : List γ) (e n : γ) :
    (T ++ e :: D).set T.length n = T ++ n :: D := by
  rw [List.set_eq_take_cons_drop _ (by simp), take_append_cons, drop_append_cons]

theorem eraseIdx_append_cons (T D : List γ) (e : γ) :
    (T ++ e :: D).eraseIdx T.length = T ++ D := by
  rw [List.eraseIdx_eq_take_drop_succ, take_append_cons, drop_append_cons]

theorem insertIdx_append_cons (T D : List γ) (n : γ) :
    (T ++ D).insertIdx T.length n = T ++ n :: D :=
  insertIdx_length_append T D n

theorem okPair_congr_left [DecidableEq V] {x c n : Item (AnyRange Int) V}
    (h : rmOkPair x c) (hlo : n.key.lo = c.key.lo) (hv : n.value = c.value)
    (hxne : x.key.is_empty = false) (hcne : c.key.is_empty = false)
    (hnne : n.key.is_empty = false) : rmOkPair x n := by
  rw [okPair_iff hxne hcne] at h
  rw [okPair_iff hxne hnne]
  obtain ⟨h1, lo, hx, hc, hlt, hadj⟩ := h
  exact ⟨h1, lo, hx, by rw [hlo]; exact hc, hlt, fun ha hv2 => hadj ha (hv ▸ hv2)⟩

theorem okPair_congr_right [DecidableEq V] {c y n : Item (AnyRange Int) V}
    (h : rmOkPair c y) (hhi : n.key.hi = c.key.hi) (hv : n.value = c.value)
    (hcne : c.key.is_empty = false) (hyne : y.key.is_empty = false)
    (hnne : n.key.is_empty = false) : rmOkPair n y := by
  rw [okPair_iff hcne hyne] at h
  rw [okPair_iff hnne hyne]
  obtain ⟨h1, lo, hc, hy, hlt, hadj⟩ := h
  exact ⟨h1, lo, by rw [hhi]; exact hc, hy, hlt, fun ha hv2 => hadj ha (hv ▸ hv2)⟩

theorem rmInv_truncate_after [DecidableEq V] {l : RML V} {addr : Nat}
    {cur : Item (AnyRange Int) V} {key : AnyRange Int}
    (hinv : rmInv l) (hget : l[addr]? = some cur)
    (hhi : hiLtOpt key.hi cur.key.hi = true)
    (hcur : ∀ clo kh, cur.key.lo = some clo → key.hi = some kh → clo ≤ kh + 1) :
    rmInv (l.set addr ⟨⟨flipEndToStart key.stop, cur.key.stop⟩, cur.value⟩) := by
  obtain ⟨⟨kh, hkh⟩, hhilt⟩ := (hiLtOpt_true_iff _ _).mp hhi
  have hnlo : (⟨flipEndToStart key.stop, cur.key.stop⟩ : AnyRange Int).lo = some (kh + 1) := by
    rw [lo_flip_end, hkh]
    rfl
  have hnhi : (⟨flipEndToStart key.stop, cur.key.stop⟩ : AnyRange Int).hi = cur.key.hi := rfl
  have haddr : addr < l.length := (List.getElem?_eq_some_iff.mp hget).1
  have hcur2 : l[addr] = cur := (List.getElem?_eq_some_iff.mp hget).2
  have hdec : l = l.take addr ++ cur :: l.drop (addr + 1) := by
    have h := rmInv_decomp haddr
    rwa [hcur2] at h
  obtain ⟨hT, hD, hcne, hbL, hbR⟩ := rmInv_parts (hdec ▸ hinv)
  have hnne : (⟨flipEndToStart key.stop, cur.key.stop⟩ : AnyRange Int).is_empty = false := by
    rw [is_empty_false_iff]
    intro a b ha hb
    rw [hnlo] at ha
    cases ha
    rw [hnhi] at hb
    have := hhilt kh b hkh hb
    omega
  apply rmInv_set_of hinv haddr hnne
  · intro x hx
    have hxc := hbL x hx
    have hxne := hT.1 x (List.mem_of_getLast?_eq_some hx)
    rw [okPair_iff hxne hcne] at hxc
    obtain ⟨xh, clo, hxh, hclo, hlt, hadj⟩ := hxc
    rw [okPair_iff hxne hnne]
    have hle := hcur clo kh hclo hkh
    refine ⟨xh, kh + 1, hxh, hnlo, by omega, ?_⟩
    intro hadj2
    exact hadj (by omega)
  · intro y hy
    have hyD : (l.drop (addr + 1)).head? = some y := by
      rw [List.head?_drop]
      exact hy
    have hcy := hbR y hyD
    have hyne := hD.1 y (List.mem_of_mem_head? hyD)
    exact okPair_congr_right hcy hnhi rfl hcne hyne hnne

theorem insert_item_eqn [DecidableEq V] (T D : RML V) (nxt : Item (AnyRange Int) V)
    (k : AnyRange Int) (v : V) :
    insert_item (T ++ nxt :: D) T.length k v =
      if k.connected_to nxt.key && decide (nxt.value = v) then
        some (T ++ ⟨nxt.key.add k, nxt.value⟩ :: D, T.length,
          nextItemAddress (T ++ ⟨nxt.key.add k, nxt.value⟩ :: D) T.length)
      else
        some (T ++ ⟨k, v⟩ :: nxt :: D, T.length,
          nextItemAddress (T ++ ⟨k, v⟩ :: nxt :: D) T.length) := by
  unfold insert_item
  rw [getElem?_append_cons]
  show (if k.connected_to nxt.key && decide (nxt.value = v) then _ else _) = _
  split_ifs with h
  · rw [set_append_cons]
  · rw [show T ++ nxt :: D = T ++ (nxt :: D) from rfl, insertIdx_append_cons]

theorem set_item_none_eqn [DecidableEq V] (T D : RML V) (cur : Item (AnyRange Int) V)
    (nk : AnyRange Int) (nv : V) :
    set_item (T ++ cur :: D) T.length none nk nv =
      some (T ++ ⟨nk, nv⟩ :: D, T.length, none, cur.value) := by
  unfold set_item
  rw [getElem?_append_cons]
  show some (List.set (T ++ cur :: D) T.length ⟨nk, nv⟩, T.length, none, cur.value) = _
  rw [set_append_cons]

theorem set_item_some_eqn [DecidableEq V] (T D : RML V) (cur y : Item (AnyRange Int) V)
    (nk : AnyRange Int) (nv : V) :
    set_item (T ++ cur :: y :: D) T.length (some (T.length + 1)) nk nv =
      if nk.connected_to y.key && decide (y.value = nv) then
        some (T ++ ⟨y.key.add nk, y.value⟩ :: D, T.length,
          nextItemAddress (T ++ ⟨y.key.add nk, y.value⟩ :: D) T.length, cur.value)
      else
        some ((T ++ cur :: y :: D).set T.length ⟨nk, nv⟩, T.length,
          some (T.length + 1), cur.value) := by
  simp only [set_item, getElem?_append_cons, getElem?_append_cons_succ]
  split_ifs with h
  · rw [show List.eraseIdx (T ++ cur :: y :: D) T.length = T ++ y :: D from
      eraseIdx_append_cons T (y :: D) cur,
      show normalizeAddr (T ++ y :: D) T.length = some T.length from by
        unfold normalizeAddr
        rw [if_pos (by simp)]]
    simp only [getElem?_append_cons, set_append_cons]
  · rfl

theorem set_item_key_none_eqn [DecidableEq V] (T D : RML V) (cur : Item (AnyRange Int) V)
    (nk : AnyRange Int) :
    set_item_key (T ++ cur :: D) T.length none nk =
      some (T ++ ⟨nk, cur.value⟩ :: D, T.length, none) := by
  unfold set_item_key
  rw [getElem?_append_cons]
  show some (List.set (T ++ cur :: D) T.length ⟨nk, cur.value⟩, T.length, none) = _
  rw [set_append_cons]

theorem set_item_key_some_eqn [DecidableEq V] (T D : RML V) (cur y : Item (AnyRange Int) V)
    (nk : AnyRange Int) :
    set_item_key (T ++ cur :: y :: D) T.length (some (T.length + 1)) nk =
      if nk.connected_to y.key && decide (y.value = cur.value) then
        some (T ++ ⟨y.key.add nk, y.value⟩ :: D, T.length,
          nextItemAddress (T ++ ⟨y.key.add nk, y.value⟩ :: D) T.length)
      else
        some ((T ++ cur :: y :: D).set T.length ⟨nk, cur.value⟩, T.length,
          some (T.length + 1)) := by
  simp only [set_item_key, getElem?_append_cons, getElem?_append_cons_succ]
  split_ifs with h
  · rw [show List.eraseIdx (T ++ cur :: y :: D) T.length = T ++ y :: D from
      eraseIdx_append_cons T (y :: D) cur,
      show normalizeAddr (T ++ y :: D) T.length = some T.length from by
        unfold normalizeAddr
        rw [if_pos (by simp)]]
    simp only [getElem?_append_cons, set_append_cons]
  · rfl

theorem remove_item_eqn (T D : RML V) (cur : Item (AnyRange Int) V) (h : T ≠ []) :
    remove_item (T ++ cur :: D) T.length =
      some (T ++ D, T.length - 1, normalizeAddr (T ++ D) T.length) := by
  unfold remove_item prevItemAddress
  rw [if_pos (by simp), if_neg (by simp [h])]
  rw [show (T ++ cur :: D).eraseIdx T.length = T ++ D from eraseIdx_append_cons T D cur]

theorem product_after_eqn (s o : AnyRange Int) :
    (s.product o).after =
      (if hiLtOpt o.hi s.hi then some (ProductArg.Subject ⟨flipEndToStart o.stop, s.stop⟩)
       else if hiLtOpt s.hi o.hi then some (ProductArg.Object ⟨flipEndToStart s.stop, o.stop⟩)
       else none) := rfl

theorem product_before_eqn (s o : AnyRange Int) :
    (s.product o).before =
      (if loLtOpt s.lo o.lo then some (ProductArg.Subject ⟨s.start, flipStartToEnd o.start⟩)
       else if loLtOpt o.lo s.lo then some (ProductArg.Object ⟨o.start, flipStartToEnd s.start⟩)
       else none) := rfl

theorem product_inter_eqn (s o : AnyRange Int) :
    (s.product o).intersection =
      (if (⟨if loLtOpt s.lo o.lo then o.start else s.start,
            if hiLtOpt o.hi s.hi then o.stop else s.stop⟩ : AnyRange Int).is_empty then none
       else some ⟨if loLtOpt s.lo o.lo then o.start else s.start,
            if hiLtOpt o.hi s.hi then o.stop else s.stop⟩) := rfl

theorem add_lo (r other : AnyRange Int) :
    (r.add other).lo = if loLtOpt other.lo r.lo then other.lo else r.lo := by
  unfold AnyRange.add AnyRange.lo
  split_ifs <;> rfl

theorem add_hi (r other : AnyRange Int) :
    (r.add other).hi = if hiLtOpt r.hi other.hi then other.hi else r.hi := by
  unfold AnyRange.add AnyRange.hi
  split_ifs <;> rfl

theorem lo_mk_of_start (s t : RBound Int) (r : AnyRange Int) (h : r.start = s) :
    (⟨s, t⟩ : AnyRange Int).lo = r.lo := by
  unfold AnyRange.lo
  rw [h]

theorem hi_mk_of_stop (s t : RBound Int) (r : AnyRange Int) (h : r.stop = t) :
    (⟨s, t⟩ : AnyRange Int).hi = r.hi := by
  unfold AnyRange.hi
  rw [h]

theorem notConn_left {x key : AnyRange Int}
    (hconn : x.connected_to key = false)
    (hbound : ∀ xlo kh, x.lo = some xlo → key.hi = some kh → xlo ≤ kh + 1) :
    ∃ xh klo, x.hi = some xh ∧ key.lo = some klo ∧ xh + 1 < klo := by
  unfold AnyRange.connected_to at hconn
  rw [Bool.and_eq_false_iff] at hconn
  rcases hconn with hc | hc
  · rcases hkl : key.lo with _ | klo <;> rw [hkl] at hc
    · simp at hc
    · rcases hxh : x.hi with _ | xh <;> rw [hxh] at hc
      · simp at hc
      · refine ⟨xh, klo, rfl, rfl, ?_⟩
        simpa using of_decide_eq_false hc
  · rcases hxl : x.lo with _ | xlo <;> rw [hxl] at hc
    · simp at hc
    · rcases hkh : key.hi with _ | kh <;> rw [hkh] at hc
      · simp at hc
      · have := hbound xlo kh hxl hkh
        have h2 := of_decide_eq_false hc
        omega

theorem nextItemAddress_append_nil (T : RML V) (e : Item (AnyRange Int) V) :
    nextItemAddress (T ++ [e]) T.length = none := by
  unfold nextItemAddress
  rw [if_neg (by simp)]

theorem nextItemAddress_append_cons (T D : RML V) (e y : Item (AnyRange Int) V) :
    nextItemAddress (T ++ e :: y :: D) T.length = some (T.length + 1) := by
  unfold nextItemAddress
  rw [if_pos (by simp)]

theorem getElem?_append_length (T D : List γ) : (T ++ D)[T.length]? = D.head? := by
  rw [List.getElem?_append_right (Nat.le_refl _)]
  simp [List.head?_eq_getElem?]

theorem getElem?_append_cons_length (T D : List γ) (e : γ) :
    (T ++ e :: D)[T.length + 1]? = D.head? := by
  have h1 : T ++ e :: D = (T ++ [e]) ++ D := by simp
  have h2 : T.length + 1 = (T ++ [e]).length := by simp
  rw [h1, h2, getElem?_append_length]

theorem rmInv_rebuild_one [DecidableEq V] {T D : RML V} (hT : rmInv T) (hD : rmInv D)
    {n : Item (AnyRange Int) V} (hne : n.key.is_empty = false)
    (hbL2 : ∀ x, T.getLast? = some x → rmOkPair x n)
    (hbR2 : ∀ y, D.head? = some y → rmOkPair n y) :
    rmInv (T ++ n :: D) := by
  have h := rmInv_rebuild (m := [n]) hT hD
    (by intro it hit; simp only [List.mem_singleton] at hit; subst hit; exact hne)
    (List.chain'_singleton _)
    (by
      intro x hx y hy
      simp only [List.head?_cons, Option.some.injEq] at hy
      subst hy
      exact hbL2 x hx)
    (by
      intro x hx y hy
      simp only [List.getLast?_singleton, Option.some.injEq] at hx
      subst hx
      exact hbR2 y hy)
    (by intro h2; cases h2)
  simpa using h

theorem rmInv_rebuild_two [DecidableEq V] {T D : RML V} (hT : rmInv T) (hD : rmInv D)
    {n1 n2 : Item (AnyRange Int) V}
    (hne1 : n1.key.is_empty = false) (hne2 : n2.key.is_empty = false)
    (h12 : rmOkPair n1 n2)
    (hbL2 : ∀ x, T.getLast? = some x → rmOkPair x n1)
    (hbR2 : ∀ y, D.head? = some y → rmOkPair n2 y) :
    rmInv (T ++ n1 :: n2 :: D) := by
  have h := rmInv_rebuild (m := [n1, n2]) hT hD
    (by
      intro it hit
      simp only [List.mem_cons, List.mem_singleton, List.not_mem_nil, or_false] at hit
      rcases hit with rfl | rfl
      · exact hne1
      · exact hne2)
    (by
      rw [List.chain'_cons]
      exact ⟨h12, List.chain'_singleton _⟩)
    (by
      intro x hx y hy
      simp only [List.head?_cons, Option.some.injEq] at hy
      subst hy
      exact hbL2 x hx)
    (by
      intro x hx y hy
      simp only [List.getLast?_cons_cons, List.getLast?_singleton,
        Option.some.injEq] at hx
      subst hx
      exact hbR2 y hy)
    (by intro h2; cases h2)
  simpa using h

theorem rmInv_rebuild_three [DecidableEq V] {T D : RML V} (hT : rmInv T) (hD : rmInv D)
    {n1 n2 n3 : Item (AnyRange Int) V}
    (hne1 : n1.key.is_empty = false) (hne2 : n2.key.is_empty = false)
    (hne3 : n3.key.is_empty = false)
    (h12 : rmOkPair n1 n2) (h23 : rmOkPair n2 n3)
    (hbL2 : ∀ x, T.getLast? = some x → rmOkPair x n1)
    (hbR2 : ∀ y, D.head? = some y → rmOkPair n3 y) :
    rmInv (T ++ n1 :: n2 :: n3 :: D) := by
  have h := rmInv_rebuild (m := [n1, n2, n3]) hT hD
    (by
      intro it hit
      simp only [List.mem_cons, List.mem_singleton, List.not_mem_nil, or_false] at hit
      rcases hit with rfl | rfl | rfl
      · exact hne1
      · exact hne2
      · exact hne3)
    (by
      rw [List.chain'_cons, List.chain'_cons]
      exact ⟨h12, h23, List.chain'_singleton _⟩)
    (by
      intro x hx y hy
      simp only [List.head?_cons, Option.some.injEq] at hy
      subst hy
      exact hbL2 x hx)
    (by
      intro x hx y hy
      simp only [List.getLast?_cons_cons, List.getLast?_singleton,
        Option.some.injEq] at hx
      subst hx
      exact hbR2 y hy)
    (by intro h2; cases h2)
  simpa using h

theorem okPair_of [DecidableEq V] {a b : Item (AnyRange Int) V} {ah blo : Int}
    (ha : a.key.hi = some ah) (hb : b.key.lo = some blo) (hlt : ah < blo)
    (hadj : blo = ah + 1 → a.value ≠ b.value)
    (hane : a.key.is_empty = false) (hbne : b.key.is_empty = false) : rmOkPair a b :=
  (okPair_iff hane hbne).mpr ⟨ah, blo, ha, hb, hlt, hadj⟩

theorem rangeInsertLoop_inv [DecidableEq V] (key : AnyRange Int) (value : V)
    (hkne : key.is_empty = false) :
    ∀ (fuel : Nat) (l : RML V) (addr : Nat) (next_addr : Option Nat),
      rmInv l →
      next_addr = nextItemAddress l addr →
      (∀ y, l[addr + 1]? = some y →
        ∃ kh ylo, key.hi = some kh ∧ y.key.lo = some ylo ∧ kh < ylo) →
      (∀ cur clo kh, l[addr]? = some cur → cur.key.lo = some clo → key.hi = some kh →
        clo ≤ kh + 1) →
      ∀ l2, rangeInsertLoop fuel l key value addr next_addr = some l2 → rmInv l2 := by
  intro fuel
  induction fuel with
  | zero =>
    intro l addr next_addr _ _ _ _ l2 h
    exact absurd h (by simp [rangeInsertLoop])
  | succ fuel ih =>
    intro l addr next_addr hinv hnext hRS hCur l2 hrun
    simp only [rangeInsertLoop] at hrun
    split at hrun
    · exact absurd hrun (by simp)
    · rename_i cur hget0
      have haddr : addr < l.length := (List.getElem?_eq_some_iff.mp hget0).1
      have hcurg : l[addr] = cur := (List.getElem?_eq_some_iff.mp hget0).2
      obtain ⟨T, D, hdec, hTlen⟩ : ∃ T D, l = T ++ cur :: D ∧ T.length = addr := by
        refine ⟨l.take addr, l.drop (addr + 1), ?_, by simp [List.length_take]; omega⟩
        have h := rmInv_decomp haddr
        rwa [hcurg] at h
      subst hdec
      subst hTlen
      obtain ⟨hTinv, hDinv, hcne, hbL, hbR⟩ := rmInv_parts hinv
      subst hnext
      by_cases hO : ∃ ia2, (key.product cur.key).after = some (ProductArg.Object ia2)
      · obtain ⟨ia2, hPA⟩ := hO
        simp only [hPA, Option.isSome_some, eq_self_iff_true, if_true] at hrun
        rw [set_append_cons] at hrun
        rw [product_after_eqn] at hPA
        split_ifs at hPA with hA1 hA2
        · exact absurd hPA (by simp)
        · injection hPA with hPA2
          injection hPA2 with hPA3
          subst hPA3
          obtain ⟨⟨kh, hkh⟩, hhiAll⟩ := (hiLtOpt_true_iff _ _).mp hA2
          set ia : Item (AnyRange Int) V :=
            ⟨⟨flipEndToStart key.stop, cur.key.stop⟩, cur.value⟩ with hiaDef
          have hialo : ia.key.lo = some (kh + 1) := by
            show (⟨flipEndToStart key.stop, cur.key.stop⟩ : AnyRange Int).lo = _
            rw [lo_flip_end, hkh]
            rfl
          have hiahi : ia.key.hi = cur.key.hi := rfl
          have hiaval : ia.value = cur.value := rfl
          have hiane : ia.key.is_empty = false := by
            rw [is_empty_false_iff]
            intro a b ha hb
            rw [hialo] at ha
            cases ha
            rw [hiahi] at hb
            have := hhiAll kh b hkh hb
            omega
          have hCurc : ∀ clo kh2, cur.key.lo = some clo → key.hi = some kh2 →
              clo ≤ kh2 + 1 :=
            fun clo kh2 ha hb => hCur cur clo kh2 (getElem?_append_cons T D cur) ha hb
          have hinvA : rmInv (T ++ ia :: D) := by
            have h := rmInv_truncate_after hinv (getElem?_append_cons T D cur) hA2 hCurc
            rwa [set_append_cons] at h
          obtain ⟨hTinvA, hDinvA, hianeP, hbLA, hbRA⟩ := rmInv_parts hinvA
          have hkloSome : ∀ x, T.getLast? = some x → x.key.connected_to key = false →
              ∃ xh klo, x.key.hi = some xh ∧ key.lo = some klo ∧ xh + 1 < klo := by
            intro x hx hconn
            apply notConn_left hconn
            intro xlo kh2 hxlo hkh2
            have hxc := hbLA x hx
            have hxne := hTinv.1 x (List.mem_of_getLast?_eq_some hx)
            rw [okPair_iff hxne hiane] at hxc
            obtain ⟨xh, alo, hxh, halo, hlt, _⟩ := hxc
            rw [hialo] at halo
            cases halo
            have hxle := (is_empty_false_iff _).mp hxne xlo xh hxlo hxh
            rw [hkh] at hkh2
            injection hkh2 with hkk
            omega
          have hconnT : key.connected_to ia.key = true := by
            rw [connected_to_true_iff]
            constructor
            · intro lb ha2 hlb hha2
              rw [hialo] at hlb
              cases hlb
              rw [hkh] at hha2
              injection hha2 with hkk
              omega
            · intro la hb hla hhb
              rw [hiahi] at hhb
              have h1 := (is_empty_false_iff key).mp hkne la kh hla hkh
              have h2 := hhiAll kh hb hkh hhb
              omega
          have hterm : ∀ l3, Option.map (fun r : RML V × Nat × Option Nat => r.1)
              (insert_item (T ++ ia :: D) T.length key value) = some l3 →
              (∀ x, T.getLast? = some x → x.key.connected_to key = false) → rmInv l3 := by
            intro l3 h3 hLnc
            rw [insert_item_eqn] at h3
            split_ifs at h3 with hg
            · rw [Bool.and_eq_true] at hg
              have hval2 : ia.value = value := of_decide_eq_true hg.2
              simp only [Option.map] at h3
              cases h3
              have hc : loLtOpt key.lo ia.key.lo = true := by
                rw [hialo]
                rcases hklo2 : key.lo with _ | klo
                · rfl
                · have := (is_empty_false_iff key).mp hkne klo kh hklo2 hkh
                  simp only [loLtOpt, decide_eq_true_eq]
                  omega
              have hmlo : (ia.key.add key).lo = key.lo := by
                rw [add_lo, if_pos hc]
              have hmhi : (ia.key.add key).hi = cur.key.hi := by
                rw [add_hi, if_neg]
                · exact hiahi
                · show ¬(hiLtOpt ia.key.hi key.hi = true)
                  rw [hiahi]
                  exact hA1
              have hmne : (ia.key.add key).is_empty = false := by
                rw [is_empty_false_iff]
                intro a b ha hb
                rw [hmlo] at ha
                rw [hmhi] at hb
                have h1 := (is_empty_false_iff key).mp hkne a kh ha hkh
                have h2 := hhiAll kh b hkh hb
                omega
              apply rmInv_rebuild_one hTinvA hDinvA hmne
              · intro x hx
                obtain ⟨xh, klo, hxh, hklo, hlt⟩ := hkloSome x hx (hLnc x hx)
                have hxne := hTinv.1 x (List.mem_of_getLast?_eq_some hx)
                exact okPair_of hxh (hmlo.trans hklo) (by omega)
                  (fun ha => absurd ha (by omega)) hxne hmne
              · intro z hz
                have hiz := hbRA z hz
                have hzne := hDinvA.1 z (List.mem_of_mem_head? hz)
                exact okPair_congr_right hiz (hmhi.trans hiahi.symm) rfl hianeP hzne hmne
            · have hval3 : ia.value ≠ value := by
                intro hv
                exact hg (by rw [hconnT, hv]; simp)
              simp only [Option.map] at h3
              cases h3
              apply rmInv_rebuild_two hTinvA hDinvA hkne hiane
              · exact okPair_of hkh hialo (by omega)
                  (fun _ hv => hval3 hv.symm) hkne hiane
              · intro x hx
                obtain ⟨xh, klo, hxh, hklo, hlt⟩ := hkloSome x hx (hLnc x hx)
                have hxne := hTinv.1 x (List.mem_of_getLast?_eq_some hx)
                exact okPair_of hxh hklo (by omega)
                  (fun ha => absurd ha (by omega)) hxne hkne
              · intro z hz
                exact hbRA z hz
          have hprev : ∀ l3, (match prevItemAddress T.length with
              | some prev_addr =>
                match (T ++ ia :: D)[prev_addr]? with
                | none => none
                | some prev_item =>
                  if prev_item.key.connected_to key = true then
                    rangeInsertLoop fuel (T ++ ia :: D) key value prev_addr
                      (some T.length)
                  else
                    Option.map (fun r : RML V × Nat × Option Nat => r.1)
                      (insert_item (T ++ ia :: D) T.length key value)
              | none =>
                Option.map (fun r : RML V × Nat × Option Nat => r.1)
                  (insert_item (T ++ ia :: D) T.length key value)) = some l3 →
              rmInv l3 := by
            intro l3 h3
            rcases hpa : prevItemAddress T.length with _ | prev
            · simp only [hpa] at h3
              apply hterm l3 h3
              intro x hx
              have hT0 : T.length = 0 := by
                unfold prevItemAddress at hpa
                split_ifs at hpa with h0
                exact h0
              have hTnil : T = [] := List.length_eq_zero.mp hT0
              rw [hTnil] at hx
              cases hx
            · simp only [hpa] at h3
              obtain ⟨hpe, hT0⟩ : prev = T.length - 1 ∧ T.length ≠ 0 := by
                unfold prevItemAddress at hpa
                split_ifs at hpa with h0
                exact ⟨(Option.some.inj hpa).symm, h0⟩
              subst hpe
              have hprevget : (T ++ ia :: D)[T.length - 1]? = T.getLast? := by
                rw [List.getElem?_append_left (by omega), List.getLast?_eq_getElem?]
              rw [hprevget] at h3
              split at h3
              · exact absurd h3 (by simp)
              · rename_i prev_item hpg
                split_ifs at h3 with hconn
                · apply ih (T ++ ia :: D) (T.length - 1) (some T.length) hinvA ?_ ?_ ?_ l3 h3
                  · unfold nextItemAddress
                    have hTl : T.length - 1 + 1 = T.length := by omega
                    rw [hTl, if_pos (by simp)]
                  · intro y hy
                    have hTl : T.length - 1 + 1 = T.length := by omega
                    rw [hTl, getElem?_append_cons] at hy
                    cases hy
                    exact ⟨kh, kh + 1, hkh, hialo, by omega⟩
                  · intro c2 clo kh2 hc2 hclo hkh2
                    have hTl : T.length - 1 + 1 = T.length := by omega
                    rw [hprevget, hpg] at hc2
                    injection hc2 with hc2e
                    subst hc2e
                    have hc := (connected_to_true_iff _ _).mp hconn
                    exact hc.2 clo kh2 hclo hkh2
                · apply hterm l3 h3
                  intro x hx
                  rw [hpg] at hx
                  injection hx with hxe
                  subst hxe
                  exact Bool.eq_false_iff.mpr hconn
          by_cases hBO : ∃ ib2, (key.product cur.key).before = some (ProductArg.Object ib2)
          · obtain ⟨ib2, hPB⟩ := hBO
            simp only [hPB] at hrun
            rw [product_before_eqn] at hPB
            split_ifs at hPB with hB1 hB2
            · exact absurd hPB (by simp)
            · injection hPB with hPB2
              injection hPB2 with hPB3
              subst hPB3
              obtain ⟨⟨klo, hklo⟩, hloAll⟩ := (loLtOpt_true_iff _ _).mp hB2
              have hibhi : (⟨cur.key.start, flipStartToEnd key.start⟩ : AnyRange Int).hi =
                  some (klo - 1) := by
                rw [hi_flip_start, hklo]
                rfl
              have hiblo : (⟨cur.key.start, flipStartToEnd key.start⟩ : AnyRange Int).lo =
                  cur.key.lo := rfl
              have hibne : (⟨cur.key.start, flipStartToEnd key.start⟩ : AnyRange Int).is_empty =
                  false := by
                rw [is_empty_false_iff]
                intro a b ha hb
                rw [hiblo] at ha
                rw [hibhi] at hb
                cases hb
                have := hloAll a klo ha hklo
                omega
              have hnklo : (⟨cur.key.start, key.stop⟩ : AnyRange Int).lo = cur.key.lo :=
                lo_mk_of_start _ _ cur.key rfl
              have hnkhi : (⟨cur.key.start, key.stop⟩ : AnyRange Int).hi = key.hi :=
                hi_mk_of_stop _ _ key rfl
              have hnk : key.add ⟨cur.key.start, flipStartToEnd key.start⟩ =
                  ⟨cur.key.start, key.stop⟩ := by
                have hc2 : hiLtOpt key.hi
                    (⟨cur.key.start, flipStartToEnd key.start⟩ : AnyRange Int).hi = false := by
                  rw [hibhi, hkh]
                  simp only [hiLtOpt, decide_eq_false_iff_not]
                  have := (is_empty_false_iff key).mp hkne klo kh hklo hkh
                  omega
                unfold AnyRange.add
                rw [if_pos (show loLtOpt
                    (⟨cur.key.start, flipStartToEnd key.start⟩ : AnyRange Int).lo key.lo =
                    true from hB2),
                  if_neg (by rw [hc2]; simp)]
              rw [hnk] at hrun
              split_ifs at hrun with hval
              · rw [insert_item_eqn] at hrun
                have hgT : ((⟨cur.key.start, key.stop⟩ : AnyRange Int).connected_to ia.key &&
                    decide (ia.value = value)) = true := by
                  rw [Bool.and_eq_true]
                  constructor
                  · rw [connected_to_true_iff]
                    constructor
                    · intro lb ha2 hlb hha2
                      rw [hialo] at hlb
                      cases hlb
                      rw [hnkhi, hkh] at hha2
                      injection hha2 with hk
                      omega
                    · intro la hb hla hhb
                      rw [hnklo] at hla
                      rw [hiahi] at hhb
                      have := (is_empty_false_iff cur.key).mp hcne la hb hla hhb
                      omega
                  · exact decide_eq_true (hiaval.trans hval)
                rw [if_pos hgT] at hrun
                simp only [Option.map] at hrun
                cases hrun
                have hmEq : ia.key.add ⟨cur.key.start, key.stop⟩ = cur.key := by
                  have hc1 : loLtOpt (⟨cur.key.start, key.stop⟩ : AnyRange Int).lo
                      ia.key.lo = true := by
                    rw [hnklo, hialo]
                    rcases hclo : cur.key.lo with _ | clo
                    · rfl
                    · have h1 := hloAll clo klo hclo hklo
                      have h2 := (is_empty_false_iff key).mp hkne klo kh hklo hkh
                      simp only [loLtOpt, decide_eq_true_eq]
                      omega
                  have hc2 : hiLtOpt ia.key.hi
                      (⟨cur.key.start, key.stop⟩ : AnyRange Int).hi = false := by
                    rw [hnkhi, hiahi]
                    exact Bool.eq_false_iff.mpr hA1
                  unfold AnyRange.add
                  rw [if_pos hc1, if_neg (by rw [hc2]; simp)]
                rw [hmEq]
                exact hinv
              · rw [insert_item_eqn] at hrun
                have hg1 : (key.connected_to ia.key && decide (ia.value = value)) = false := by
                  have hd : decide (ia.value = value) = false :=
                    decide_eq_false (fun h => hval (hiaval.symm.trans h))
                  rw [hd, Bool.and_false]
                rw [if_neg (by rw [hg1]; simp)] at hrun
                simp only [Option.bind_eq_bind, Option.some_bind] at hrun
                rw [show T ++ (⟨key, value⟩ : Item (AnyRange Int) V) :: ia :: D =
                  T ++ (⟨key, value⟩ : Item (AnyRange Int) V) :: (ia :: D) from rfl,
                  insert_item_eqn] at hrun
                have hg2 : ((⟨cur.key.start, flipStartToEnd key.start⟩ : AnyRange Int).connected_to
                    key && decide (value = cur.value)) = false := by
                  have hd : decide (value = cur.value) = false :=
                    decide_eq_false (fun h => hval h.symm)
                  rw [hd, Bool.and_false]
                rw [if_neg (by rw [hg2]; simp)] at hrun
                simp only [Option.bind_eq_bind, Option.some_bind] at hrun
                cases hrun
                apply rmInv_rebuild_three hTinv hDinvA hibne hkne hiane
                · exact okPair_of hibhi hklo (by omega) (fun _ => hval) hibne hkne
                · exact okPair_of hkh hialo (by omega)
                    (fun _ hv => hval (by rw [hiaval] at hv; exact hv.symm)) hkne hiane
                · intro x hx
                  have hxne := hTinv.1 x (List.mem_of_getLast?_eq_some hx)
                  exact okPair_congr_left (hbL x hx) hiblo rfl hxne hcne hibne
                · intro z hz
                  exact hbRA z hz
          · rcases hPB : (key.product cur.key).before with _ | ⟨rb⟩ | ⟨rb⟩
            · simp only [hPB] at hrun
              exact hprev l2 hrun
            · simp only [hPB] at hrun
              exact hprev l2 hrun
            · exact absurd ⟨rb, hPB⟩ hBO
      · -- the after product holds no object part: nothing is removed
        have hst : (match (key.product cur.key).after with
            | some (ProductArg.Object item_after) =>
              ((T ++ cur :: D).set T.length ⟨item_after, cur.value⟩, some cur.value)
            | _ => (T ++ cur :: D, (none : Option V))) =
            (T ++ cur :: D, (none : Option V)) := by
          rcases hx : (key.product cur.key).after with _ | ⟨r⟩ | ⟨r⟩
          · rfl
          · rfl
          · exact absurd ⟨r, hx⟩ hO
        simp only [hst, Option.isSome_none, Bool.false_eq_true, if_false] at hrun
        have hChi : ∀ kh, key.hi = some kh → ∃ chi, cur.key.hi = some chi ∧ chi ≤ kh := by
          intro kh hkh2
          by_contra hc
          push_neg at hc
          apply hO
          refine ⟨⟨flipEndToStart key.stop, cur.key.stop⟩, ?_⟩
          rw [product_after_eqn]
          rcases hchi : cur.key.hi with _ | chi
          · rw [if_neg (by rw [hkh2]; simp [hiLtOpt]),
              if_pos (by rw [hkh2]; rfl)]
          · have hlt : kh < chi := hc chi hchi
            rw [if_neg (by rw [hkh2]; simp only [hiLtOpt, decide_eq_true_eq]; omega),
              if_pos (by rw [hkh2]; simp only [hiLtOpt, decide_eq_true_eq]; omega)]
        have hkloSomeN : ∀ x, T.getLast? = some x → x.key.connected_to key = false →
            ∃ xh klo, x.key.hi = some xh ∧ key.lo = some klo ∧ xh + 1 < klo := by
          intro x hx hconn
          apply notConn_left hconn
          intro xlo kh2 hxlo hkh2
          obtain ⟨chi, hchi, hle⟩ := hChi kh2 hkh2
          have hxc := hbL x hx
          have hxne := hTinv.1 x (List.mem_of_getLast?_eq_some hx)
          rw [okPair_iff hxne hcne] at hxc
          obtain ⟨xh, clo, hxh, hclo, hlt, _⟩ := hxc
          have h1 := (is_empty_false_iff _).mp hxne xlo xh hxlo hxh
          have h2 := (is_empty_false_iff _).mp hcne clo chi hclo hchi
          omega
        have hinvE : rmInv (T ++ D) := by
          have h := rmInv_rebuild (m := ([] : RML V)) hTinv hDinv
            (by intro it hit; cases hit) List.chain'_nil
            (by intro x hx y hy; cases hy) (by intro x hx y hy; cases hx)
            (by
              intro _ x hx y hy
              exact okPair_through (hbL x hx) (hbR y hy)
                (hTinv.1 x (List.mem_of_getLast?_eq_some hx)) hcne
                (hDinv.1 y (List.mem_of_mem_head? hy)))
          simpa using h
        have hsetTerm : ∀ l3, Option.map (fun r : RML V × Nat × Option Nat × V => r.1)
            (set_item (T ++ cur :: D) T.length
              (nextItemAddress (T ++ cur :: D) T.length) key value) = some l3 →
            (∀ x, T.getLast? = some x → x.key.connected_to key = false) → rmInv l3 := by
          rcases hDc : D with _ | ⟨y, D2⟩
          · intro l3 h3 hLnc
            rw [nextItemAddress_append_nil, set_item_none_eqn] at h3
            simp only [Option.map] at h3
            cases h3
            apply rmInv_rebuild_one hTinv (by rw [hDc] at hDinv; exact hDinv) hkne
            · intro x hx
              obtain ⟨xh, klo, hxh, hklo, hlt⟩ := hkloSomeN x hx (hLnc x hx)
              have hxne := hTinv.1 x (List.mem_of_getLast?_eq_some hx)
              exact okPair_of hxh hklo (by omega)
                (fun ha => absurd ha (by omega)) hxne hkne
            · intro z hz
              cases hz
          · intro l3 h3 hLnc
            rw [nextItemAddress_append_cons, set_item_some_eqn] at h3
            rw [hDc] at hDinv hbR
            obtain ⟨hyp, hD2inv, hyz⟩ :=
              rmInv_append_parts (show rmInv ([y] ++ D2) from hDinv)
            have hyne : y.key.is_empty = false := hyp.1 y (by simp)
            obtain ⟨kh, ylo, hkh, hylo, hky⟩ := hRS y (by
              rw [hDc, getElem?_append_cons_succ])
            split_ifs at h3 with hg
            · rw [Bool.and_eq_true] at hg
              have hyval : y.value = value := of_decide_eq_true hg.2
              simp only [Option.map] at h3
              cases h3
              have hc1 : loLtOpt key.lo y.key.lo = true := by
                rw [hylo]
                rcases hklo2 : key.lo with _ | klo
                · rfl
                · have := (is_empty_false_iff key).mp hkne klo kh hklo2 hkh
                  simp only [loLtOpt, decide_eq_true_eq]
                  omega
              have hc2 : hiLtOpt y.key.hi key.hi = false := by
                rw [hkh]
                rcases hyhi : y.key.hi with _ | yhi
                · rfl
                · have := (is_empty_false_iff _).mp hyne ylo yhi hylo hyhi
                  simp only [hiLtOpt, decide_eq_false_iff_not, decide_eq_true_eq]
                  omega
              have hmlo : (y.key.add key).lo = key.lo := by
                rw [add_lo, if_pos hc1]
              have hmhi : (y.key.add key).hi = y.key.hi := by
                rw [add_hi, if_neg (by rw [hc2]; simp)]
              have hmne : (y.key.add key).is_empty = false := by
                rw [is_empty_false_iff]
                intro a b ha hb
                rw [hmlo] at ha
                rw [hmhi] at hb
                have h1 := (is_empty_false_iff key).mp hkne a kh ha hkh
                have h2 := (is_empty_false_iff _).mp hyne ylo b hylo hb
                omega
              apply rmInv_rebuild_one hTinv hD2inv hmne
              · intro x hx
                obtain ⟨xh, klo, hxh, hklo, hlt⟩ := hkloSomeN x hx (hLnc x hx)
                have hxne := hTinv.1 x (List.mem_of_getLast?_eq_some hx)
                exact okPair_of hxh (hmlo.trans hklo) (by omega)
                  (fun ha => absurd ha (by omega)) hxne hmne
              · intro z hz
                have hzne := hD2inv.1 z (List.mem_of_mem_head? hz)
                exact okPair_congr_right (hyz y rfl z hz) hmhi rfl hyne hzne hmne
            · rw [set_append_cons] at h3
              simp only [Option.map] at h3
              cases h3
              apply rmInv_rebuild_one hTinv hDinv hkne
              · intro x hx
                obtain ⟨xh, klo, hxh, hklo, hlt⟩ := hkloSomeN x hx (hLnc x hx)
                have hxne := hTinv.1 x (List.mem_of_getLast?_eq_some hx)
                exact okPair_of hxh hklo (by omega)
                  (fun ha => absurd ha (by omega)) hxne hkne
              · intro z hz
                simp only [List.head?_cons, Option.some.injEq] at hz
                subst hz
                refine okPair_of hkh hylo (by omega) ?_ hkne hyne
                intro hadj hveq
                apply hg
                rw [Bool.and_eq_true]
                constructor
                · rw [connected_to_true_iff]
                  constructor
                  · intro lb ha2 hlb hha2
                    rw [hylo] at hlb
                    cases hlb
                    rw [hkh] at hha2
                    injection hha2 with hk
                    omega
                  · intro la hb hla hhb
                    have h1 := (is_empty_false_iff key).mp hkne la kh hla hkh
                    have h2 := (is_empty_false_iff _).mp hyne ylo hb hylo hhb
                    omega
                · exact decide_eq_true hveq.symm
        have hprevN : ∀ l3, (match prevItemAddress T.length with
            | some prev_addr =>
              match (T ++ cur :: D)[prev_addr]? with
              | none => none
              | some prev_item =>
                if prev_item.key.connected_to key = true then do
                  let __discr ← remove_item (T ++ cur :: D) T.length
                  rangeInsertLoop fuel __discr.1 key value __discr.2.1 __discr.2.2
                else
                  Option.map (fun r : RML V × Nat × Option Nat × V => r.1)
                    (set_item (T ++ cur :: D) T.length
                      (nextItemAddress (T ++ cur :: D) T.length) key value)
            | none =>
              Option.map (fun r : RML V × Nat × Option Nat × V => r.1)
                (set_item (T ++ cur :: D) T.length
                  (nextItemAddress (T ++ cur :: D) T.length) key value)) = some l3 →
            rmInv l3 := by
          intro l3 h3
          rcases hpa : prevItemAddress T.length with _ | prev
          · simp only [hpa] at h3
            apply hsetTerm l3 h3
            intro x hx
            have hT0 : T.length = 0 := by
              unfold prevItemAddress at hpa
              split_ifs at hpa with h0
              exact h0
            rw [List.length_eq_zero.mp hT0] at hx
            cases hx
          · simp only [hpa] at h3
            obtain ⟨hpe, hT0⟩ : prev = T.length - 1 ∧ T.length ≠ 0 := by
              unfold prevItemAddress at hpa
              split_ifs at hpa with h0
              exact ⟨(Option.some.inj hpa).symm, h0⟩
            subst hpe
            have hprevget : (T ++ cur :: D)[T.length - 1]? = T.getLast? := by
              rw [List.getElem?_append_left (by omega), List.getLast?_eq_getElem?]
            rw [hprevget] at h3
            split at h3
            · exact absurd h3 (by simp)
            · rename_i prev_item hpg
              split_ifs at h3 with hconn
              · have hTne : T ≠ [] := by
                  intro h
                  apply hT0
                  rw [h]
                  rfl
                rw [remove_item_eqn T D cur hTne] at h3
                simp only [Option.bind_eq_bind, Option.some_bind] at h3
                apply ih (T ++ D) (T.length - 1)
                  (normalizeAddr (T ++ D) T.length) hinvE ?_ ?_ ?_ l3 h3
                · unfold normalizeAddr nextItemAddress
                  have hTl : T.length - 1 + 1 = T.length := by omega
                  rw [hTl]
                · intro y hy
                  have hTl : T.length - 1 + 1 = T.length := by omega
                  rw [hTl, getElem?_append_length] at hy
                  apply hRS y
                  rw [getElem?_append_cons_length]
                  exact hy
                · intro c2 clo kh2 hc2 hclo hkh2
                  have hc2get : (T ++ D)[T.length - 1]? = T.getLast? := by
                    rw [List.getElem?_append_left (by omega), List.getLast?_eq_getElem?]
                  rw [hc2get, hpg] at hc2
                  injection hc2 with hc2e
                  subst hc2e
                  exact ((connected_to_true_iff _ _).mp hconn).2 clo kh2 hclo hkh2
              · apply hsetTerm l3 h3
                intro x hx
                rw [hpg] at hx
                injection hx with hxe
                subst hxe
                exact Bool.eq_false_iff.mpr hconn
        by_cases hBO : ∃ ib2, (key.product cur.key).before = some (ProductArg.Object ib2)
        · obtain ⟨ib2, hPB⟩ := hBO
          simp only [hPB, getElem?_append_cons] at hrun
          rw [product_before_eqn] at hPB
          split_ifs at hPB with hB1 hB2
          · exact absurd hPB (by simp)
          · injection hPB with hPB2
            injection hPB2 with hPB3
            subst hPB3
            obtain ⟨⟨klo, hklo⟩, hloAll⟩ := (loLtOpt_true_iff _ _).mp hB2
            have hibhi : (⟨cur.key.start, flipStartToEnd key.start⟩ : AnyRange Int).hi =
                some (klo - 1) := by
              rw [hi_flip_start, hklo]
              rfl
            have hiblo : (⟨cur.key.start, flipStartToEnd key.start⟩ : AnyRange Int).lo =
                cur.key.lo := rfl
            have hibne : (⟨cur.key.start, flipStartToEnd key.start⟩ :
                AnyRange Int).is_empty = false := by
              rw [is_empty_false_iff]
              intro a b ha hb
              rw [hiblo] at ha
              rw [hibhi] at hb
              cases hb
              have := hloAll a klo ha hklo
              omega
            have hnklo : (⟨cur.key.start, key.stop⟩ : AnyRange Int).lo = cur.key.lo :=
              lo_mk_of_start _ _ cur.key rfl
            have hnkhi : (⟨cur.key.start, key.stop⟩ : AnyRange Int).hi = key.hi :=
              hi_mk_of_stop _ _ key rfl
            have hnk : key.add ⟨cur.key.start, flipStartToEnd key.start⟩ =
                ⟨cur.key.start, key.stop⟩ := by
              have hc2 : hiLtOpt key.hi
                  (⟨cur.key.start, flipStartToEnd key.start⟩ : AnyRange Int).hi = false := by
                rw [hibhi]
                rcases hkh2 : key.hi with _ | kh2
                · rfl
                · have := (is_empty_false_iff key).mp hkne klo kh2 hklo hkh2
                  simp only [hiLtOpt, decide_eq_false_iff_not, decide_eq_true_eq]
                  omega
              unfold AnyRange.add
              rw [if_pos (show loLtOpt
                  (⟨cur.key.start, flipStartToEnd key.start⟩ : AnyRange Int).lo key.lo =
                  true from hB2),
                if_neg (by rw [hc2]; simp)]
            have hnkne : (⟨cur.key.start, key.stop⟩ : AnyRange Int).is_empty = false := by
              rw [is_empty_false_iff]
              intro a b ha hb
              rw [hnklo] at ha
              rw [hnkhi] at hb
              have h1 := hloAll a klo ha hklo
              have h2 := (is_empty_false_iff key).mp hkne klo b hklo hb
              omega
            split_ifs at hrun with hval
            · -- the current value is kept: set_item_key with the widened key
              rw [hnk] at hrun
              rcases hDc2 : D with _ | ⟨y, D2⟩
              · rw [hDc2] at hrun
                rw [nextItemAddress_append_nil, set_item_key_none_eqn] at hrun
                simp only [Option.map] at hrun
                cases hrun
                apply rmInv_rebuild_one hTinv (by rw [hDc2] at hDinv; exact hDinv) hnkne
                · intro x hx
                  have hxne := hTinv.1 x (List.mem_of_getLast?_eq_some hx)
                  exact okPair_congr_left (hbL x hx) hnklo rfl hxne hcne hnkne
                · intro z hz
                  cases hz
              · rw [hDc2] at hrun
                rw [nextItemAddress_append_cons, set_item_key_some_eqn] at hrun
                rw [hDc2] at hDinv hbR
                obtain ⟨hyp, hD2inv, hyz⟩ :=
                  rmInv_append_parts (show rmInv ([y] ++ D2) from hDinv)
                have hyne : y.key.is_empty = false := hyp.1 y (by simp)
                obtain ⟨kh, ylo, hkh, hylo, hky⟩ := hRS y (by
                  rw [hDc2, getElem?_append_cons_succ])
                split_ifs at hrun with hg
                · rw [Bool.and_eq_true] at hg
                  have hyval : y.value = cur.value := of_decide_eq_true hg.2
                  simp only [Option.map] at hrun
                  cases hrun
                  have hc1 : loLtOpt (⟨cur.key.start, key.stop⟩ : AnyRange Int).lo
                      y.key.lo = true := by
                    rw [hnklo, hylo]
                    rcases hclo : cur.key.lo with _ | clo
                    · rfl
                    · have hcy := hbR y rfl
                      rw [okPair_iff hcne hyne] at hcy
                      obtain ⟨chy, ylo2, hchy, hylo2, hlt2, _⟩ := hcy
                      rw [hylo] at hylo2
                      injection hylo2 with hye
                      subst hye
                      have := (is_empty_false_iff _).mp hcne clo chy hclo hchy
                      simp only [loLtOpt, decide_eq_true_eq]
                      omega
                  have hch2 : hiLtOpt y.key.hi
                      (⟨cur.key.start, key.stop⟩ : AnyRange Int).hi = false := by
                    rw [hnkhi, hkh]
                    rcases hyhi : y.key.hi with _ | yhi
                    · rfl
                    · have := (is_empty_false_iff _).mp hyne ylo yhi hylo hyhi
                      simp only [hiLtOpt, decide_eq_false_iff_not, decide_eq_true_eq]
                      omega
                  have hmlo : (y.key.add ⟨cur.key.start, key.stop⟩).lo = cur.key.lo := by
                    rw [add_lo, if_pos hc1, hnklo]
                  have hmhi : (y.key.add ⟨cur.key.start, key.stop⟩).hi = y.key.hi := by
                    rw [add_hi, if_neg (by rw [hch2]; simp)]
                  have hmne : (y.key.add ⟨cur.key.start, key.stop⟩).is_empty = false := by
                    rw [is_empty_false_iff]
                    intro a b ha hb
                    rw [hmlo] at ha
                    rw [hmhi] at hb
                    have h1 := hloAll a klo ha hklo
                    have h2 := (is_empty_false_iff key).mp hkne klo kh hklo hkh
                    have h3 := (is_empty_false_iff _).mp hyne ylo b hylo hb
                    omega
                  apply rmInv_rebuild_one hTinv hD2inv hmne
                  · intro x hx
                    have hxne := hTinv.1 x (List.mem_of_getLast?_eq_some hx)
                    exact okPair_congr_left (hbL x hx) hmlo hyval hxne hcne hmne
                  · intro z hz
                    have hzne := hD2inv.1 z (List.mem_of_mem_head? hz)
                    exact okPair_congr_right (hyz y rfl z hz) hmhi rfl hyne hzne hmne
                · rw [set_append_cons] at hrun
                  simp only [Option.map] at hrun
                  cases hrun
                  apply rmInv_rebuild_one hTinv (show rmInv (y :: D2) from hDinv) hnkne
                  · intro x hx
                    have hxne := hTinv.1 x (List.mem_of_getLast?_eq_some hx)
                    exact okPair_congr_left (hbL x hx) hnklo rfl hxne hcne hnkne
                  · intro z hz
                    simp only [List.head?_cons, Option.some.injEq] at hz
                    subst hz
                    refine okPair_of (show (⟨cur.key.start, key.stop⟩ :
                      AnyRange Int).hi = some kh from hnkhi.trans hkh) hylo (by omega)
                      ?_ hnkne hyne
                    intro hadj hveq
                    apply hg
                    rw [Bool.and_eq_true]
                    constructor
                    · rw [connected_to_true_iff]
                      constructor
                      · intro lb ha2 hlb hha2
                        rw [hylo] at hlb
                        cases hlb
                        rw [hnkhi.trans hkh] at hha2
                        injection hha2 with hk
                        omega
                      · intro la hb hla hhb
                        rw [hnklo] at hla
                        have h1 := hloAll la klo hla hklo
                        have h2 := (is_empty_false_iff key).mp hkne klo kh hklo hkh
                        have h3 := (is_empty_false_iff _).mp hyne ylo hb hylo hhb
                        omega
                    · exact decide_eq_true hveq.symm
            · -- the value changes: set the new binding, then re-insert the before part
              rcases hDc2 : D with _ | ⟨y, D2⟩
              · rw [hDc2] at hrun
                rw [nextItemAddress_append_nil, set_item_none_eqn] at hrun
                simp only [Option.bind_eq_bind, Option.some_bind] at hrun
                rw [show T ++ (⟨key, value⟩ : Item (AnyRange Int) V) :: [] =
                  T ++ (⟨key, value⟩ : Item (AnyRange Int) V) :: ([] : RML V) from rfl,
                  insert_item_eqn] at hrun
                have hg2 : ((⟨cur.key.start, flipStartToEnd key.start⟩ :
                    AnyRange Int).connected_to key &&
                    decide (value = cur.value)) = false := by
                  have hd : decide (value = cur.value) = false :=
                    decide_eq_false (fun h => hval h.symm)
                  rw [hd, Bool.and_false]
                rw [if_neg (by rw [hg2]; simp)] at hrun
                simp only [Option.bind_eq_bind, Option.some_bind] at hrun
                cases hrun
                apply rmInv_rebuild_two hTinv (by rw [hDc2] at hDinv; exact hDinv)
                  hibne hkne
                · exact okPair_of hibhi hklo (by omega) (fun _ => hval) hibne hkne
                · intro x hx
                  have hxne := hTinv.1 x (List.mem_of_getLast?_eq_some hx)
                  exact okPair_congr_left (hbL x hx) hiblo rfl hxne hcne hibne
                · intro z hz
                  cases hz
              · rw [hDc2] at hrun
                rw [nextItemAddress_append_cons, set_item_some_eqn] at hrun
                rw [hDc2] at hDinv hbR
                obtain ⟨hyp, hD2inv, hyz⟩ :=
                  rmInv_append_parts (show rmInv ([y] ++ D2) from hDinv)
                have hyne : y.key.is_empty = false := hyp.1 y (by simp)
                obtain ⟨kh, ylo, hkh, hylo, hky⟩ := hRS y (by
                  rw [hDc2, getElem?_append_cons_succ])
                split_ifs at hrun with hg
                · rw [Bool.and_eq_true] at hg
                  have hyval : y.value = value := of_decide_eq_true hg.2
                  simp only [Option.bind_eq_bind, Option.some_bind] at hrun
                  rw [insert_item_eqn] at hrun
                  have hg2 : ((⟨cur.key.start, flipStartToEnd key.start⟩ :
                      AnyRange Int).connected_to (y.key.add key) &&
                      decide (y.value = cur.value)) = false := by
                    have hd : decide (y.value = cur.value) = false :=
                      decide_eq_false (fun h => hval ((hyval.symm.trans h).symm))
                    rw [hd, Bool.and_false]
                  rw [if_neg (by rw [hg2]; simp)] at hrun
                  simp only [Option.bind_eq_bind, Option.some_bind] at hrun
                  cases hrun
                  have hc1 : loLtOpt key.lo y.key.lo = true := by
                    rw [hylo]
                    rcases hklo2 : key.lo with _ | klo2
                    · rfl
                    · rw [hklo] at hklo2
                      injection hklo2 with hke
                      subst hke
                      have := (is_empty_false_iff key).mp hkne klo kh hklo hkh
                      simp only [loLtOpt, decide_eq_true_eq]
                      omega
                  have hch2 : hiLtOpt y.key.hi key.hi = false := by
                    rw [hkh]
                    rcases hyhi : y.key.hi with _ | yhi
                    · rfl
                    · have := (is_empty_false_iff _).mp hyne ylo yhi hylo hyhi
                      simp only [hiLtOpt, decide_eq_false_iff_not, decide_eq_true_eq]
                      omega
                  have hmlo : (y.key.add key).lo = key.lo := by
                    rw [add_lo, if_pos hc1]
                  have hmhi : (y.key.add key).hi = y.key.hi := by
                    rw [add_hi, if_neg (by rw [hch2]; simp)]
                  have hmne : (y.key.add key).is_empty = false := by
                    rw [is_empty_false_iff]
                    intro a b ha hb
                    rw [hmlo] at ha
                    rw [hmhi] at hb
                    have h1 := (is_empty_false_iff key).mp hkne a kh ha hkh
                    have h2 := (is_empty_false_iff _).mp hyne ylo b hylo hb
                    omega
                  apply rmInv_rebuild_two hTinv hD2inv hibne hmne
                  · refine okPair_of hibhi (hmlo.trans hklo) (by omega) ?_ hibne hmne
                    intro _ hveq
                    exact hval (hveq.trans hyval)
                  · intro x hx
                    have hxne := hTinv.1 x (List.mem_of_getLast?_eq_some hx)
                    exact okPair_congr_left (hbL x hx) hiblo rfl hxne hcne hibne
                  · intro z hz
                    have hzne := hD2inv.1 z (List.mem_of_mem_head? hz)
                    exact okPair_congr_right (hyz y rfl z hz) hmhi rfl hyne hzne hmne
                · rw [set_append_cons] at hrun
                  simp only [Option.bind_eq_bind, Option.some_bind] at hrun
                  rw [insert_item_eqn] at hrun
                  have hg2 : ((⟨cur.key.start, flipStartToEnd key.start⟩ :
                      AnyRange Int).connected_to key &&
                      decide (value = cur.value)) = false := by
                    have hd : decide (value = cur.value) = false :=
                      decide_eq_false (fun h => hval h.symm)
                    rw [hd, Bool.and_false]
                  rw [if_neg (by rw [hg2]; simp)] at hrun
                  simp only [Option.bind_eq_bind, Option.some_bind] at hrun
                  cases hrun
                  apply rmInv_rebuild_three hTinv hD2inv hibne hkne hyne
                  · exact okPair_of hibhi hklo (by omega) (fun _ => hval) hibne hkne
                  · refine okPair_of hkh hylo (by omega) ?_ hkne hyne
                    intro hadj hveq
                    apply hg
                    rw [Bool.and_eq_true]
                    constructor
                    · rw [connected_to_true_iff]
                      constructor
                      · intro lb ha2 hlb hha2
                        rw [hylo] at hlb
                        cases hlb
                        rw [hkh] at hha2
                        injection hha2 with hk
                        omega
                      · intro la hb hla hhb
                        have h1 := (is_empty_false_iff key).mp hkne la kh hla hkh
                        have h2 := (is_empty_false_iff _).mp hyne ylo hb hylo hhb
                        omega
                    · exact decide_eq_true hveq.symm
                  · intro x hx
                    have hxne := hTinv.1 x (List.mem_of_getLast?_eq_some hx)
                    exact okPair_congr_left (hbL x hx) hiblo rfl hxne hcne hibne
                  · intro z hz
                    exact hyz y rfl z hz
        · rcases hPB : (key.product cur.key).before with _ | ⟨rb⟩ | ⟨rb⟩
          · simp only [hPB] at hrun
            exact hprevN l2 hrun
          · simp only [hPB] at hrun
            exact hprevN l2 hrun
          · exact absurd ⟨rb, hPB⟩ hBO

theorem rmInv_split_at [DecidableEq V] {T D : RML V} {cur : Item (AnyRange Int) V}
    (hinv : rmInv (T ++ cur :: D)) :
    rmInv (T ++ [cur]) ∧ rmInv D ∧ ∀ y, D.head? = some y → rmOkPair cur y := by
  have hassoc : T ++ cur :: D = (T ++ [cur]) ++ D := by simp
  rw [hassoc] at hinv
  obtain ⟨hA, hD, hbd⟩ := rmInv_append_parts hinv
  refine ⟨hA, hD, ?_⟩
  intro y hy
  exact hbd cur (by simp) y hy

theorem merge_forward_eqn [DecidableEq V] (T2 D2 : RML V) (p q : Item (AnyRange Int) V) :
    merge_forward (T2 ++ p :: q :: D2) T2.length (some (T2.length + 1)) =
      (if p.key.connected_to q.key && decide (p.value = q.value) then
        some (T2 ++ ⟨q.key.add p.key, q.value⟩ :: D2)
      else some (T2 ++ p :: q :: D2)) := by
  simp only [merge_forward, getElem?_append_cons, getElem?_append_cons_succ]
  split_ifs with h
  · rw [show (T2 ++ p :: q :: D2).eraseIdx T2.length = T2 ++ q :: D2 from
      eraseIdx_append_cons T2 (q :: D2) p,
      show normalizeAddr (T2 ++ q :: D2) T2.length = some T2.length from by
        unfold normalizeAddr
        rw [if_pos (by simp)]]
    simp only [getElem?_append_cons, set_append_cons]
  · rfl

theorem merge_forward_pair_inv [DecidableEq V] {T2 D2 : RML V}
    {p q : Item (AnyRange Int) V}
    (hTp : rmInv (T2 ++ [p])) (hqD : rmInv (q :: D2))
    (hsep : ∃ ph qlo, p.key.hi = some ph ∧ q.key.lo = some qlo ∧ ph < qlo) :
    ∀ l3, merge_forward (T2 ++ p :: q :: D2) T2.length (some (T2.length + 1)) = some l3 →
      rmInv l3 := by
  intro l3 h3
  rw [merge_forward_eqn] at h3
  obtain ⟨hT2, hpOne, hbT⟩ := rmInv_append_parts hTp
  have hpne : p.key.is_empty = false := hpOne.1 p (by simp)
  obtain ⟨hqOne, hD2, hbQ⟩ := rmInv_append_parts (show rmInv ([q] ++ D2) from hqD)
  have hqne : q.key.is_empty = false := hqOne.1 q (by simp)
  obtain ⟨ph, qlo, hph, hqlo, hpq⟩ := hsep
  split_ifs at h3 with hg
  · rw [Bool.and_eq_true] at hg
    have hval : p.value = q.value := of_decide_eq_true hg.2
    cases h3
    have hc1 : loLtOpt p.key.lo q.key.lo = true := by
      rw [hqlo]
      rcases hplo : p.key.lo with _ | plo
      · rfl
      · have := (is_empty_false_iff _).mp hpne plo ph hplo hph
        simp only [loLtOpt, decide_eq_true_eq]
        omega
    have hc2 : hiLtOpt q.key.hi p.key.hi = false := by
      rw [hph]
      rcases hqhi : q.key.hi with _ | qhi
      · rfl
      · have := (is_empty_false_iff _).mp hqne qlo qhi hqlo hqhi
        simp only [hiLtOpt, decide_eq_false_iff_not, decide_eq_true_eq]
        omega
    have hmlo : (q.key.add p.key).lo = p.key.lo := by
      rw [add_lo, if_pos hc1]
    have hmhi : (q.key.add p.key).hi = q.key.hi := by
      rw [add_hi, if_neg (by rw [hc2]; simp)]
    have hmne : (q.key.add p.key).is_empty = false := by
      rw [is_empty_false_iff]
      intro a b ha hb
      rw [hmlo] at ha
      rw [hmhi] at hb
      have h1 := (is_empty_false_iff _).mp hpne a ph ha hph
      have h2 := (is_empty_false_iff _).mp hqne qlo b hqlo hb
      omega
    apply rmInv_rebuild_one hT2 hD2 hmne
    · intro x hx
      have hxp := hbT x hx p (by simp)
      have hxne := hT2.1 x (List.mem_of_getLast?_eq_some hx)
      exact okPair_congr_left hxp hmlo hval.symm hxne hpne hmne
    · intro z hz
      have hqz := hbQ q (by simp) z hz
      have hzne := hD2.1 z (List.mem_of_mem_head? hz)
      exact okPair_congr_right hqz hmhi rfl hqne hzne hmne
  · cases h3
    have hpq2 : rmOkPair p q := by
      refine okPair_of hph hqlo hpq ?_ hpne hqne
      intro hadj hveq
      apply hg
      rw [Bool.and_eq_true]
      refine ⟨?_, decide_eq_true hveq⟩
      rw [connected_to_true_iff]
      constructor
      · intro lb ha2 hlb hha2
        rw [hqlo] at hlb
        cases hlb
        rw [hph] at hha2
        injection hha2 with hk
        omega
      · intro la hb hla hhb
        have h1 := (is_empty_false_iff _).mp hpne la ph hla hph
        have h2 := (is_empty_false_iff _).mp hqne qlo hb hqlo hhb
        omega
    apply rmInv_rebuild_two hT2 hD2 hpne hqne hpq2
    · intro x hx
      exact hbT x hx p (by simp)
    · intro z hz
      exact hbQ q (by simp) z hz

theorem matches_true_curOK2 {key o : AnyRange Int}
    (hone : o.is_empty = false) (hkne : key.is_empty = false)
    (hm : ((AnyRange.range_partial_cmp key o).getD
      (RangeOrdering.After false)).matches true = true) :
    ∀ klo chi, key.lo = some klo → o.hi = some chi → klo ≤ chi + 1 := by
  intro klo chi hklo hchi
  by_contra hc
  push_neg at hc
  have hafter : AnyRange.range_partial_cmp key o = some (RangeOrdering.After false) := by
    unfold AnyRange.range_partial_cmp
    have hbefore : (match key.hi, o.lo with
        | some qh, some ol => if qh < ol then some (decide (ol ≤ qh + 1)) else none
        | _, _ => (none : Option Bool)) = none := by
      rcases hkh : key.hi with _ | kh
      · rcases o.lo with _ | ol <;> rfl
      · rcases holo : o.lo with _ | ol
        · rfl
        · show (if kh < ol then some (decide (ol ≤ kh + 1)) else none) = none
          rw [if_neg]
          have h1 := (is_empty_false_iff key).mp hkne klo kh hklo hkh
          have h2 := (is_empty_false_iff o).mp hone ol chi holo hchi
          omega
    rw [hbefore]
    have hafterB : (match o.hi, key.lo with
        | some oh, some ql => if oh < ql then some (decide (ql ≤ oh + 1)) else none
        | _, _ => (none : Option Bool)) = some false := by
      rw [hchi, hklo]
      show (if chi < klo then some (decide (klo ≤ chi + 1)) else none) = some false
      rw [if_pos (by omega)]
      simp only [Option.some.injEq, decide_eq_false_iff_not]
      omega
    rw [hafterB]
  rw [hafter] at hm
  simp [RangeOrdering.matches] at hm

theorem address_of_found_matches [DecidableEq V] {l : RML V} {key : AnyRange Int} {a : Nat}
    (hfound : address_of (fun ok => AnyRange.range_partial_cmp key ok) true l =
      SearchResult.found a) :
    ∃ cur, l[a]? = some cur ∧
      ((AnyRange.range_partial_cmp key cur.key).getD
        (RangeOrdering.After false)).matches true = true := by
  unfold address_of at hfound
  split at hfound
  · rename_i i hbs
    split at hfound
    · cases hfound
    · rename_i it hget
      split at hfound
      · cases hfound
        rename_i hmatch
        exact ⟨it, hget, hmatch⟩
      · cases hfound
  · cases hfound

theorem inter_mk_lo (s o : AnyRange Int) :
    (⟨if loLtOpt s.lo o.lo then o.start else s.start,
      if hiLtOpt o.hi s.hi then o.stop else s.stop⟩ : AnyRange Int).lo =
      if loLtOpt s.lo o.lo then o.lo else s.lo := by
  by_cases h : loLtOpt s.lo o.lo = true
  · rw [if_pos h, if_pos h]
    exact lo_mk_of_start _ _ o rfl
  · rw [if_neg h, if_neg h]
    exact lo_mk_of_start _ _ s rfl

theorem inter_mk_hi (s o : AnyRange Int) :
    (⟨if loLtOpt s.lo o.lo then o.start else s.start,
      if hiLtOpt o.hi s.hi then o.stop else s.stop⟩ : AnyRange Int).hi =
      if hiLtOpt o.hi s.hi then o.hi else s.hi := by
  by_cases h : hiLtOpt o.hi s.hi = true
  · rw [if_pos h, if_pos h]
    exact hi_mk_of_stop _ _ o rfl
  · rw [if_neg h, if_neg h]
    exact hi_mk_of_stop _ _ s rfl

theorem updBeforeStep [DecidableEq V] (f : Option V → Option V) (fuel : Nat)
    (key : AnyRange Int) (T D : RML V) (cur : Item (AnyRange Int) V)
    (IH : ∀ (key2 : AnyRange Int) (T2 D2 : RML V) (cur2 : Item (AnyRange Int) V)
      (next2 : Option Nat),
      key2.is_empty = false →
      rmInv (T2 ++ [cur2]) →
      rmInv D2 →
      (∀ y, D2.head? = some y → ∃ ch ylo, cur2.key.hi = some ch ∧
        y.key.lo = some ylo ∧ ch < ylo ∧
        (ylo = ch + 1 → cur2.value = y.value →
          ∃ kh, key2.hi = some kh ∧ ch ≤ kh)) →
      next2 = nextItemAddress (T2 ++ cur2 :: D2) T2.length →
      (∀ y, D2.head? = some y → ∃ kh ylo, key2.hi = some kh ∧
        y.key.lo = some ylo ∧ kh < ylo) →
      (∀ clo kh, cur2.key.lo = some clo → key2.hi = some kh → clo ≤ kh + 1) →
      (∀ klo chi, key2.lo = some klo → cur2.key.hi = some chi → klo ≤ chi + 1) →
      ∀ l4, rangeUpdateLoop f fuel (T2 ++ cur2 :: D2) key2 T2.length next2 = some l4 →
        rmInv l4)
    (hkne : key.is_empty = false)
    (hA : rmInv (T ++ [cur]))
    (hCur : ∀ clo kh, cur.key.lo = some clo → key.hi = some kh → clo ≤ kh + 1)
    (a : Item (AnyRange Int) V) (D1 : RML V) (next1 : Option Nat) (rem1 : Option V)
    (hM1a : rmInv D1)
    (hM1n : a.key.is_empty = false)
    (hM1c : ∀ y, D1.head? = some y → ∃ ch ylo, a.key.hi = some ch ∧
      y.key.lo = some ylo ∧ ch < ylo ∧
      (rem1.isSome = true → ylo = ch + 1 → a.value ≠ y.value))
    (hM1b : ∀ x, T.getLast? = some x → ∃ xh alo, x.key.hi = some xh ∧
      a.key.lo = some alo ∧ xh < alo)
    (hM2 : next1 = nextItemAddress (T ++ a :: D1) T.length)
    (hM3 : rem1 = none → a = cur ∧ D1 = D)
    (hM4 : ∀ v, rem1 = some v → v = cur.value)
    (hM5 : rem1.isSome = true →
      ((∃ clo2, cur.key.lo = some clo2) ∨ (∃ klo2, key.lo = some klo2)) →
      ∃ alo, a.key.lo = some alo ∧
      (∀ clo2, cur.key.lo = some clo2 → clo2 ≤ alo) ∧
      (∀ klo2, key.lo = some klo2 → klo2 ≤ alo))
    (hD2 : rmInv D)
    (hsepCD : ∀ y, D.head? = some y → ∃ chy ylo, cur.key.hi = some chy ∧
      y.key.lo = some ylo ∧ chy < ylo)
    (hRS : ∀ y, D.head? = some y → ∃ kh ylo, key.hi = some kh ∧
      y.key.lo = some ylo ∧ kh < ylo) :
    ∀ l3, (match (key.product cur.key).before with
      | some (ProductArg.Subject key_before) =>
        (match prevItemAddress T.length with
         | some prev =>
           (match (T ++ a :: D1)[prev]? with
            | none => none
            | some prev_item =>
              if prev_item.key.connected_to key_before = true then
                match rem1 with
                | none => do
                  let d ← remove_item (T ++ a :: D1) T.length
                  rangeUpdateLoop f fuel d.1 key_before d.2.1 d.2.2
                | some _ =>
                  rangeUpdateLoop f fuel (T ++ a :: D1) key_before prev
                    (some T.length)
              else
                match f none with
                | some value =>
                  if rem1.isSome = true then
                    Option.map (fun r : RML V × Nat × Option Nat => r.1)
                      (insert_item (T ++ a :: D1) T.length key_before value)
                  else
                    Option.map (fun r : RML V × Nat × Option Nat × V => r.1)
                      (set_item (T ++ a :: D1) T.length next1 key_before value)
                | none =>
                  if rem1.isNone = true then
                    if T.length < (T ++ a :: D1).length then
                      some ((T ++ a :: D1).eraseIdx T.length)
                    else some (T ++ a :: D1)
                  else some (T ++ a :: D1))
         | none =>
           match f none with
           | some value =>
             if rem1.isSome = true then
               Option.map (fun r : RML V × Nat × Option Nat => r.1)
                 (insert_item (T ++ a :: D1) T.length key_before value)
             else
               Option.map (fun r : RML V × Nat × Option Nat × V => r.1)
                 (set_item (T ++ a :: D1) T.length next1 key_before value)
           | none =>
             if rem1.isNone = true then
               if T.length < (T ++ a :: D1).length then
                 some ((T ++ a :: D1).eraseIdx T.length)
               else some (T ++ a :: D1)
             else some (T ++ a :: D1))
      | some (ProductArg.Object item_before) =>
        (match rem1 with
         | some value =>
           Option.map (fun r : RML V × Nat × Option Nat => r.1)
             (insert_item (T ++ a :: D1) T.length item_before value)
         | none =>
           Option.map (fun r : RML V × Nat × Option Nat => r.1)
             (set_item_key (T ++ a :: D1) T.length next1 item_before))
      | none =>
        match prevItemAddress T.length with
        | some prev_addr =>
          (match rem1 with
           | none => do
             let d ← remove_item (T ++ a :: D1) T.length
             merge_forward d.1 d.2.1 d.2.2
           | some _ => merge_forward (T ++ a :: D1) prev_addr (some T.length))
        | none =>
          if rem1.isNone = true then
            if T.length < (T ++ a :: D1).length then
              some ((T ++ a :: D1).eraseIdx T.length)
            else none
          else some (T ++ a :: D1)) = some l3 → rmInv l3 := by
  obtain ⟨hTinv, hcurOne, hbT⟩ := rmInv_append_parts hA
  have hcne : cur.key.is_empty = false := hcurOne.1 cur (by simp)
  have hbLx : ∀ x, T.getLast? = some x → rmOkPair x cur := fun x hx => hbT x hx cur (by simp)
  have hinvTD : rmInv (T ++ D) := by
    have h := rmInv_rebuild (m := ([] : RML V)) hTinv hD2
      (by intro it hit; cases hit) List.chain'_nil
      (by intro x hx y hy; cases hy) (by intro x hx y hy; cases hx)
      (by
        intro _ x hx y hy
        have hxc := hbLx x hx
        have hxne := hTinv.1 x (List.mem_of_getLast?_eq_some hx)
        rw [okPair_iff hxne hcne] at hxc
        obtain ⟨xh, clo, hxh, hclo, hlt, _⟩ := hxc
        obtain ⟨chy, ylo, hchy, hylo, hcy⟩ := hsepCD y hy
        have hyne := hD2.1 y (List.mem_of_mem_head? hy)
        have hcc := (is_empty_false_iff _).mp hcne clo chy hclo hchy
        exact okPair_of hxh hylo (by omega) (fun hadj => absurd hadj (by omega))
          hxne hyne)
    simpa using h
  have hinvAD1 : rem1.isSome = true → rmInv (a :: D1) := by
    intro hrs
    have h := rmInv_rebuild_one (T := ([] : RML V))
      ⟨(by intro it hit; cases hit), List.chain'_nil⟩ hM1a hM1n
      (by intro x hx; cases hx)
      (by
        intro y hy
        obtain ⟨ch, ylo, hch, hylo, hlt, hnorm⟩ := hM1c y hy
        have hyne := hM1a.1 y (List.mem_of_mem_head? hy)
        exact okPair_of hch hylo hlt (fun hadj => hnorm hrs hadj) hM1n hyne)
    simpa using h
  intro l3 h3
  rcases hPB : (key.product cur.key).before with _ | ⟨kbr⟩ | ⟨ibr⟩
  · -- before = none: merge with the previous item when possible
    simp only [hPB] at h3
    rcases hpa : prevItemAddress T.length with _ | prev
    · simp only [hpa] at h3
      have hT0 : T.length = 0 := by
        unfold prevItemAddress at hpa
        split_ifs at hpa with h0
        exact h0
      have hTnil : T = [] := List.length_eq_zero.mp hT0
      rcases hrem : rem1 with _ | v
      · subst hrem
        obtain ⟨ha, hd⟩ := hM3 rfl
        subst ha
        subst hd
        simp only [Option.isNone_none, eq_self_iff_true, if_true] at h3
        rw [if_pos (by simp)] at h3
        rw [show (T ++ a :: D1).eraseIdx T.length = T ++ D1 from
          eraseIdx_append_cons T D1 a] at h3
        cases h3
        exact hinvTD
      · subst hrem
        simp only [Option.isNone_some, Bool.false_eq_true, if_false] at h3
        cases h3
        have h := hinvAD1 rfl
        rw [hTnil]
        simpa using h
    · simp only [hpa] at h3
      obtain ⟨hpe, hT0⟩ : prev = T.length - 1 ∧ T.length ≠ 0 := by
        unfold prevItemAddress at hpa
        split_ifs at hpa with h0
        exact ⟨(Option.some.inj hpa).symm, h0⟩
      subst hpe
      have hTne : T ≠ [] := by
        intro h
        apply hT0
        rw [h]
        rfl
      obtain ⟨T2, p, hT2⟩ : ∃ T2 p, T = T2 ++ [p] :=
        ⟨T.dropLast, T.getLast hTne, (List.dropLast_append_getLast hTne).symm⟩
      have hplast : T.getLast? = some p := by
        rw [hT2]
        exact List.getLast?_concat _
      rcases hrem : rem1 with _ | v
      · subst hrem
        obtain ⟨ha, hd⟩ := hM3 rfl
        subst ha
        subst hd
        rw [remove_item_eqn T D1 a hTne] at h3
        simp only [Option.bind_eq_bind, Option.some_bind] at h3
        rcases hDc : D1 with _ | ⟨y, D2⟩
        · rw [hDc] at h3
          rw [show normalizeAddr (T ++ ([] : RML V)) T.length = none from by
            unfold normalizeAddr
            rw [if_neg (by simp)]] at h3
          cases h3
          simpa using hTinv
        · rw [hDc] at h3 hD2 hsepCD
          rw [show normalizeAddr (T ++ y :: D2) T.length = some T.length from by
            unfold normalizeAddr
            rw [if_pos (by simp)]] at h3
          rw [hT2] at h3
          rw [show ((T2 ++ [p]) ++ y :: D2) = T2 ++ p :: y :: D2 from by simp,
            show (T2 ++ [p]).length - 1 = T2.length from by simp,
            show (T2 ++ [p]).length = T2.length + 1 from by simp] at h3
          apply merge_forward_pair_inv ?_ ?_ ?_ l3 h3
          · rw [← hT2]
            exact hTinv
          · exact hD2
          · have hxc := hbLx p hplast
            have hpne := hTinv.1 p (List.mem_of_getLast?_eq_some hplast)
            rw [okPair_iff hpne hcne] at hxc
            obtain ⟨ph, clo, hph, hclo, hlt, _⟩ := hxc
            obtain ⟨chy, ylo, hchy, hylo, hcy⟩ := hsepCD y rfl
            have hcc := (is_empty_false_iff _).mp hcne clo chy hclo hchy
            exact ⟨ph, ylo, hph, hylo, by omega⟩
      · subst hrem
        rw [hT2] at h3
        rw [show ((T2 ++ [p]) ++ a :: D1) = T2 ++ p :: a :: D1 from by simp,
          show (T2 ++ [p]).length - 1 = T2.length from by simp,
          show (T2 ++ [p]).length = T2.length + 1 from by simp] at h3
        apply merge_forward_pair_inv ?_ ?_ ?_ l3 h3
        · rw [← hT2]
          exact hTinv
        · exact hinvAD1 rfl
        · obtain ⟨xh, alo, hxh, halo, hlt⟩ := hM1b p hplast
          exact ⟨xh, alo, hxh, halo, hlt⟩
  · -- before = Subject: the key keeps a part below the current item
    simp only [hPB] at h3
    rw [product_before_eqn] at hPB
    split_ifs at hPB with hB1 hB2
    rotate_left
    · exact ProductArg.noConfusion (Option.some.inj hPB)
    injection hPB with hPB2
    injection hPB2 with hPB3
    subst hPB3
    obtain ⟨⟨clo, hclo⟩, himp⟩ := (loLtOpt_true_iff _ _).mp hB1
    set kb : AnyRange Int := ⟨key.start, flipStartToEnd cur.key.start⟩ with hkbDef
    have hkblo : kb.lo = key.lo := by
      rw [hkbDef]
      exact lo_mk_of_start _ _ key rfl
    have hkbhi : kb.hi = some (clo - 1) := by
      rw [hkbDef, hi_flip_start, hclo]
      rfl
    have hkbne : kb.is_empty = false := by
      rw [is_empty_false_iff]
      intro p q hp hq
      rw [hkblo] at hp
      rw [hkbhi] at hq
      have h1 := himp p clo hp hclo
      cases hq
      omega
    have hblock : (∀ x, T.getLast? = some x → ∃ xh klo2, x.key.hi = some xh ∧
        key.lo = some klo2 ∧ xh + 1 < klo2) →
        ∀ l3b, (match f none with
          | some value =>
            if rem1.isSome = true then
              Option.map (fun r : RML V × Nat × Option Nat => r.1)
                (insert_item (T ++ a :: D1) T.length kb value)
            else
              Option.map (fun r : RML V × Nat × Option Nat × V => r.1)
                (set_item (T ++ a :: D1) T.length next1 kb value)
          | none =>
            if rem1.isNone = true then
              if T.length < (T ++ a :: D1).length then
                some ((T ++ a :: D1).eraseIdx T.length)
              else some (T ++ a :: D1)
            else some (T ++ a :: D1)) = some l3b → rmInv l3b := by
      intro hLP l3b h3b
      rcases hf : f none with _ | value
      · simp only [hf] at h3b
        rcases hrem : rem1 with _ | v
        · subst hrem
          obtain ⟨ha, hd⟩ := hM3 rfl
          subst ha
          subst hd
          simp only [Option.isNone_none, eq_self_iff_true, if_true] at h3b
          rw [if_pos (by simp)] at h3b
          rw [show (T ++ a :: D1).eraseIdx T.length = T ++ D1 from
            eraseIdx_append_cons T D1 a] at h3b
          cases h3b
          exact hinvTD
        · subst hrem
          simp only [Option.isNone_some, Bool.false_eq_true, if_false] at h3b
          cases h3b
          obtain ⟨alo, halo, hcle, hkle⟩ := hM5 rfl (Or.inl ⟨clo, hclo⟩)
          refine rmInv_rebuild_one hTinv hM1a hM1n ?_ ?_
          · intro x hx
            obtain ⟨xh, klo2, hxh, hklo2, hstrict⟩ := hLP x hx
            have hxne := hTinv.1 x (List.mem_of_getLast?_eq_some hx)
            have hka := hkle klo2 hklo2
            exact okPair_of hxh halo (by omega)
              (fun hadj => absurd hadj (by omega)) hxne hM1n
          · intro y hy
            obtain ⟨ch, ylo, hch, hylo, hlt, hnorm⟩ := hM1c y hy
            have hyne := hM1a.1 y (List.mem_of_mem_head? hy)
            exact okPair_of hch hylo hlt (fun hadj => hnorm rfl hadj) hM1n hyne
      · simp only [hf] at h3b
        rcases hrem : rem1 with _ | v
        · -- overwrite the current item with the lower key piece
          subst hrem
          obtain ⟨ha, hd⟩ := hM3 rfl
          subst ha
          subst hd
          simp only [Option.isSome_none, Bool.false_eq_true, if_false] at h3b
          rcases hDc : D1 with _ | ⟨y, D2⟩
          · have hnext : next1 = none := by
              rw [hM2, hDc]
              exact nextItemAddress_append_nil T a
            rw [hDc, hnext, set_item_none_eqn T ([] : RML V) a kb value] at h3b
            simp only [Option.map] at h3b
            cases h3b
            refine rmInv_rebuild_one hTinv
              ⟨(by intro it hit; cases hit), List.chain'_nil⟩ hkbne ?_
              (by intro y hy; cases hy)
            intro x hx
            obtain ⟨xh, klo2, hxh, hklo2, hstrict⟩ := hLP x hx
            have hxne := hTinv.1 x (List.mem_of_getLast?_eq_some hx)
            exact okPair_of hxh (show kb.lo = some klo2 from hkblo.trans hklo2)
              (by omega) (fun hadj => absurd hadj (by omega)) hxne hkbne
          · have hnext : next1 = some (T.length + 1) := by
              rw [hM2, hDc]
              exact nextItemAddress_append_cons T D2 a y
            rw [hDc, hnext, set_item_some_eqn T D2 a y kb value] at h3b
            obtain ⟨ch, ylo, hch, hylo, hlty, hnorm⟩ := hM1c y (by rw [hDc]; rfl)
            have hcc2 := (is_empty_false_iff _).mp hM1n clo ch hclo hch
            split_ifs at h3b with hg
            · exfalso
              rw [Bool.and_eq_true] at hg
              have hc := (connected_to_true_iff _ _).mp hg.1
              have h1 := hc.1 ylo (clo - 1) hylo hkbhi
              omega
            · simp only [Option.map] at h3b
              cases h3b
              rw [set_append_cons]
              have hyD : rmInv (y :: D2) := by
                rw [← hDc]
                exact hM1a
              obtain ⟨_, hD2inv, hyD2⟩ := rmInv_split_at (T := ([] : RML V)) hyD
              have hyne := hM1a.1 y (by rw [hDc]; exact List.mem_cons_self y D2)
              refine rmInv_rebuild_two hTinv hD2inv hkbne hyne ?_ ?_ hyD2
              · exact okPair_of (a := ⟨kb, value⟩) hkbhi hylo (by omega)
                  (fun hadj => absurd hadj (by omega)) hkbne hyne
              · intro x hx
                obtain ⟨xh, klo2, hxh, hklo2, hstrict⟩ := hLP x hx
                have hxne := hTinv.1 x (List.mem_of_getLast?_eq_some hx)
                exact okPair_of hxh (show kb.lo = some klo2 from hkblo.trans hklo2)
                  (by omega) (fun hadj => absurd hadj (by omega)) hxne hkbne
        · -- insert the lower key piece before the current item
          subst hrem
          simp only [Option.isSome_some, eq_self_iff_true, if_true] at h3b
          obtain ⟨alo, halo, hcle, hkle⟩ := hM5 rfl (Or.inl ⟨clo, hclo⟩)
          have hca := hcle clo hclo
          rw [insert_item_eqn T D1 a kb value] at h3b
          split_ifs at h3b with hg
          · rw [Bool.and_eq_true, decide_eq_true_eq] at hg
            have hmloeq : (a.key.add kb).lo = key.lo := by
              rw [add_lo]
              split_ifs with hsp
              · exact hkblo
              · rw [Bool.not_eq_true] at hsp
                rw [hkblo] at hsp
                obtain ⟨hnn, hle⟩ := (loLtOpt_false_iff _ _).mp hsp
                rcases hkl : key.lo with _ | klo
                · rw [hnn hkl] at halo
                  cases halo
                · have h1 := hle klo alo hkl halo
                  have h2 := hkle klo hkl
                  rw [halo]
                  congr 1
                  omega
            have hmhieq : (a.key.add kb).hi = a.key.hi := by
              rw [add_hi]
              have hlf : hiLtOpt a.key.hi kb.hi = false := by
                rw [hiLtOpt_false_iff]
                refine ⟨?_, ?_⟩
                · intro h
                  rw [hkbhi] at h
                  cases h
                · intro ah b hah hb
                  rw [hkbhi] at hb
                  cases hb
                  have h1 := (is_empty_false_iff _).mp hM1n alo ah halo hah
                  omega
              simp [hlf]
            have hmne : (a.key.add kb).is_empty = false := by
              rw [is_empty_false_iff]
              intro p q hp hq
              rw [hmloeq] at hp
              rw [hmhieq] at hq
              have h1 := hkle p hp
              have h2 := (is_empty_false_iff _).mp hM1n alo q halo hq
              omega
            simp only [Option.map] at h3b
            cases h3b
            refine rmInv_rebuild_one hTinv hM1a hmne ?_ ?_
            · intro x hx
              obtain ⟨xh, klo2, hxh, hklo2, hstrict⟩ := hLP x hx
              have hxne := hTinv.1 x (List.mem_of_getLast?_eq_some hx)
              exact okPair_of hxh (show (a.key.add kb).lo = some klo2 from
                hmloeq.trans hklo2) (by omega)
                (fun hadj => absurd hadj (by omega)) hxne hmne
            · intro y hy
              obtain ⟨ch, ylo, hch, hylo, hlt2, hnorm⟩ := hM1c y hy
              have hyne := hM1a.1 y (List.mem_of_mem_head? hy)
              exact okPair_of (show (a.key.add kb).hi = some ch from
                hmhieq.trans hch) hylo hlt2 (fun hadj => hnorm rfl hadj) hmne hyne
          · simp only [Option.map] at h3b
            cases h3b
            refine rmInv_rebuild_two hTinv hM1a hkbne hM1n ?_ ?_ ?_
            · refine okPair_of (a := ⟨kb, value⟩) hkbhi halo (by omega) ?_
                hkbne hM1n
              intro hadj hveq
              apply hg
              rw [Bool.and_eq_true, decide_eq_true_eq]
              refine ⟨(connected_to_true_iff _ _).mpr ⟨?_, ?_⟩, hveq.symm⟩
              · intro lb ha2 hlb hha2
                rw [halo] at hlb
                cases hlb
                rw [hkbhi] at hha2
                cases hha2
                omega
              · intro la hb hla hhb
                rw [hkblo] at hla
                have h1 := hkle la hla
                have h2 := (is_empty_false_iff _).mp hM1n alo hb halo hhb
                omega
            · intro x hx
              obtain ⟨xh, klo2, hxh, hklo2, hstrict⟩ := hLP x hx
              have hxne := hTinv.1 x (List.mem_of_getLast?_eq_some hx)
              exact okPair_of hxh (show kb.lo = some klo2 from hkblo.trans hklo2)
                (by omega) (fun hadj => absurd hadj (by omega)) hxne hkbne
            · intro y hy
              obtain ⟨ch, ylo, hch, hylo, hlt2, hnorm⟩ := hM1c y hy
              have hyne := hM1a.1 y (List.mem_of_mem_head? hy)
              exact okPair_of hch hylo hlt2 (fun hadj => hnorm rfl hadj) hM1n hyne
    rcases hpa : prevItemAddress T.length with _ | prev
    · simp only [hpa] at h3
      have hT0 : T.length = 0 := by
        unfold prevItemAddress at hpa
        split_ifs at hpa with h0
        exact h0
      have hTnil : T = [] := List.length_eq_zero.mp hT0
      refine hblock ?_ l3 h3
      intro x hx
      rw [hTnil] at hx
      cases hx
    · simp only [hpa] at h3
      obtain ⟨hpe, hT0⟩ : prev = T.length - 1 ∧ T.length ≠ 0 := by
        unfold prevItemAddress at hpa
        split_ifs at hpa with h0
        exact ⟨(Option.some.inj hpa).symm, h0⟩
      subst hpe
      have hTne : T ≠ [] := by
        intro h
        apply hT0
        rw [h]
        rfl
      rcases hpi : (T ++ a :: D1)[T.length - 1]? with _ | prev_item
      · simp only [hpi] at h3
        exact Option.noConfusion h3
      · simp only [hpi] at h3
        have hplast : T.getLast? = some prev_item := by
          rw [List.getLast?_eq_getElem?]
          exact (List.getElem?_append_left
            (show T.length - 1 < T.length from by omega)).symm.trans hpi
        have hpne := hTinv.1 prev_item (List.mem_of_getLast?_eq_some hplast)
        have hpc := hbLx prev_item hplast
        rw [okPair_iff hpne hcne] at hpc
        obtain ⟨ph, clo2, hph, hclo2, hpl, hpadj⟩ := hpc
        rw [hclo] at hclo2
        have hce := Option.some.inj hclo2
        by_cases hconn : prev_item.key.connected_to kb = true
        · -- the previous item reaches the lower key piece: recurse on it
          rw [if_pos hconn] at h3
          have hcc := (connected_to_true_iff _ _).mp hconn
          rcases hrem : rem1 with _ | v
          · subst hrem
            obtain ⟨ha, hd⟩ := hM3 rfl
            subst ha
            subst hd
            have h3x : (do
                let d ← remove_item (T ++ a :: D1) T.length
                rangeUpdateLoop f fuel d.1 kb d.2.1 d.2.2) = some l3 := h3
            rw [remove_item_eqn T D1 a hTne] at h3x
            simp only [Option.bind_eq_bind, Option.some_bind] at h3x
            obtain ⟨T2, hT2⟩ : ∃ T2, T = T2 ++ [prev_item] := by
              refine ⟨T.dropLast, ?_⟩
              have h1 := List.getLast?_eq_getLast T hTne
              rw [hplast] at h1
              have h2 := (Option.some.inj h1).symm
              conv_lhs => rw [← List.dropLast_append_getLast hTne]
              rw [h2]
            subst hT2
            rw [show (T2 ++ [prev_item]) ++ D1 = T2 ++ prev_item :: D1 from by simp,
              show (T2 ++ [prev_item]).length - 1 = T2.length from by simp,
              show (T2 ++ [prev_item]).length = T2.length + 1 from by simp] at h3x
            refine IH kb T2 D1 prev_item
              (normalizeAddr (T2 ++ prev_item :: D1) (T2.length + 1))
              hkbne hTinv hM1a ?_ ?_ ?_ ?_ ?_ l3 h3x
            · intro y hy
              obtain ⟨chy, ylo, hchy, hylo, hcy⟩ := hsepCD y hy
              have hcc2 := (is_empty_false_iff _).mp hcne clo chy hclo hchy
              refine ⟨ph, ylo, hph, hylo, by omega, ?_⟩
              intro hadj _
              exfalso
              omega
            · show normalizeAddr (T2 ++ prev_item :: D1) (T2.length + 1) =
                nextItemAddress (T2 ++ prev_item :: D1) T2.length
              unfold normalizeAddr nextItemAddress
              rfl
            · intro y hy
              obtain ⟨chy, ylo, hchy, hylo, hcy⟩ := hsepCD y hy
              have hcc2 := (is_empty_false_iff _).mp hcne clo chy hclo hchy
              exact ⟨clo - 1, ylo, hkbhi, hylo, by omega⟩
            · intro clo3 kh hclo3 hkh
              rw [hkbhi] at hkh
              cases hkh
              have h1 := (is_empty_false_iff _).mp hpne clo3 ph hclo3 hph
              omega
            · intro klo2 chi hklo2 hchi
              exact hcc.1 klo2 chi hklo2 hchi
          · subst hrem
            have h3x : rangeUpdateLoop f fuel (T ++ a :: D1) kb (T.length - 1)
                (some T.length) = some l3 := h3
            obtain ⟨T2, hT2⟩ : ∃ T2, T = T2 ++ [prev_item] := by
              refine ⟨T.dropLast, ?_⟩
              have h1 := List.getLast?_eq_getLast T hTne
              rw [hplast] at h1
              have h2 := (Option.some.inj h1).symm
              conv_lhs => rw [← List.dropLast_append_getLast hTne]
              rw [h2]
            subst hT2
            rw [show (T2 ++ [prev_item]) ++ a :: D1 = T2 ++ prev_item :: a :: D1
                from by simp,
              show (T2 ++ [prev_item]).length - 1 = T2.length from by simp,
              show (T2 ++ [prev_item]).length = T2.length + 1 from by simp] at h3x
            obtain ⟨xh, alo, hxh, halo, hxa⟩ := hM1b prev_item hplast
            have hxe := Option.some.inj (hxh.symm.trans hph)
            obtain ⟨alo2, halo2, hcle, hkle⟩ := hM5 rfl (Or.inl ⟨clo, hclo⟩)
            have hae := Option.some.inj (halo2.symm.trans halo)
            have hca := hcle clo hclo
            refine IH kb T2 (a :: D1) prev_item (some (T2.length + 1))
              hkbne hTinv (hinvAD1 rfl) ?_ ?_ ?_ ?_ ?_ l3 h3x
            · intro y hy
              simp only [List.head?_cons, Option.some.injEq] at hy
              subst hy
              refine ⟨ph, alo, hph, halo, by omega, ?_⟩
              intro hadj hveq
              exact ⟨clo - 1, hkbhi, by omega⟩
            · exact (nextItemAddress_append_cons T2 D1 prev_item a).symm
            · intro y hy
              simp only [List.head?_cons, Option.some.injEq] at hy
              subst hy
              exact ⟨clo - 1, alo, hkbhi, halo, by omega⟩
            · intro clo3 kh hclo3 hkh
              rw [hkbhi] at hkh
              cases hkh
              have h1 := (is_empty_false_iff _).mp hpne clo3 ph hclo3 hph
              omega
            · intro klo2 chi hklo2 hchi
              exact hcc.1 klo2 chi hklo2 hchi
        · -- not connected: hand over to the terminal write
          rw [if_neg hconn] at h3
          refine hblock ?_ l3 h3
          intro x hx
          have hxp := Option.some.inj (hplast.symm.trans hx)
          subst hxp
          rw [Bool.not_eq_true] at hconn
          have hbound : ∀ xlo kh, prev_item.key.lo = some xlo →
              kb.hi = some kh → xlo ≤ kh + 1 := by
            intro xlo kh hxlo hkh
            rw [hkbhi] at hkh
            cases hkh
            have h1 := (is_empty_false_iff _).mp hpne xlo ph hxlo hph
            omega
          obtain ⟨xh, klo2, hxh, hkblo2, hstrict⟩ := notConn_left hconn hbound
          rw [hkblo] at hkblo2
          exact ⟨xh, klo2, hxh, hkblo2, hstrict⟩
  · -- before = Object: the current item keeps a part below the key
    simp only [hPB] at h3
    rw [product_before_eqn] at hPB
    split_ifs at hPB with hB1 hB2
    · exact ProductArg.noConfusion (Option.some.inj hPB)
    injection hPB with hPB2
    injection hPB2 with hPB3
    subst hPB3
    obtain ⟨⟨klo, hklo⟩, himp⟩ := (loLtOpt_true_iff _ _).mp hB2
    set ib : AnyRange Int := ⟨cur.key.start, flipStartToEnd key.start⟩ with hibDef
    have hiblo : ib.lo = cur.key.lo := by
      rw [hibDef]
      exact lo_mk_of_start _ _ cur.key rfl
    have hibhi : ib.hi = some (klo - 1) := by
      rw [hibDef, hi_flip_start, hklo]
      rfl
    have hibne : ib.is_empty = false := by
      rw [is_empty_false_iff]
      intro p q hp hq
      rw [hiblo] at hp
      rw [hibhi] at hq
      have h1 := himp p klo hp hklo
      cases hq
      omega
    rcases hrem : rem1 with _ | v
    · -- nothing was carved off yet: the item shrinks in place
      subst hrem
      obtain ⟨ha, hd⟩ := hM3 rfl
      subst ha
      subst hd
      have h3x : Option.map (fun r : RML V × Nat × Option Nat => r.1)
          (set_item_key (T ++ a :: D1) T.length next1 ib) = some l3 := h3
      rcases hDc : D1 with _ | ⟨y, D2⟩
      · have hnext : next1 = none := by
          rw [hM2, hDc]
          exact nextItemAddress_append_nil T a
        rw [hDc, hnext, set_item_key_none_eqn T ([] : RML V) a ib] at h3x
        simp only [Option.map] at h3x
        cases h3x
        refine rmInv_rebuild_one hTinv ⟨(by intro it hit; cases hit), List.chain'_nil⟩
          hibne ?_ (by intro y hy; cases hy)
        intro x hx
        have hxc := hbLx x hx
        have hxne := hTinv.1 x (List.mem_of_getLast?_eq_some hx)
        rw [okPair_iff hxne hcne] at hxc
        obtain ⟨xh, clo2, hxh, hclo2, hlt, hadjv⟩ := hxc
        exact okPair_of hxh (show ib.lo = some clo2 from hiblo.trans hclo2) hlt
          hadjv hxne hibne
      · have hnext : next1 = some (T.length + 1) := by
          rw [hM2, hDc]
          exact nextItemAddress_append_cons T D2 a y
        rw [hDc, hnext, set_item_key_some_eqn T D2 a y ib] at h3x
        obtain ⟨kh, ylo, hkh, hylo, hky⟩ := hRS y (by rw [hDc]; rfl)
        have hkk := (is_empty_false_iff _).mp hkne klo kh hklo hkh
        split_ifs at h3x with hg
        · exfalso
          rw [Bool.and_eq_true] at hg
          have hc := (connected_to_true_iff _ _).mp hg.1
          have h1 := hc.1 ylo (klo - 1) hylo hibhi
          omega
        · simp only [Option.map] at h3x
          cases h3x
          rw [set_append_cons]
          have hyD : rmInv (y :: D2) := by
            rw [← hDc]
            exact hM1a
          obtain ⟨_, hD2inv, hyD2⟩ := rmInv_split_at (T := ([] : RML V)) hyD
          have hyne := hM1a.1 y (by rw [hDc]; exact List.mem_cons_self y D2)
          refine rmInv_rebuild_two hTinv hD2inv hibne hyne ?_ ?_ hyD2
          · exact okPair_of (a := ⟨ib, a.value⟩) hibhi hylo (by omega)
              (fun hadj => absurd hadj (by omega)) hibne hyne
          · intro x hx
            have hxc := hbLx x hx
            have hxne := hTinv.1 x (List.mem_of_getLast?_eq_some hx)
            rw [okPair_iff hxne hcne] at hxc
            obtain ⟨xh, clo2, hxh, hclo2, hlt, hadjv⟩ := hxc
            exact okPair_of hxh (show ib.lo = some clo2 from hiblo.trans hclo2) hlt
              hadjv hxne hibne
    · -- a part was already removed: insert the kept lower piece
      subst hrem
      have h3x : Option.map (fun r : RML V × Nat × Option Nat => r.1)
          (insert_item (T ++ a :: D1) T.length ib v) = some l3 := h3
      obtain ⟨alo, halo, hcle, hkle⟩ := hM5 rfl (Or.inr ⟨klo, hklo⟩)
      have hka : klo ≤ alo := hkle klo hklo
      have hvc : v = cur.value := hM4 v rfl
      rw [insert_item_eqn T D1 a ib v] at h3x
      split_ifs at h3x with hg
      · -- the kept piece merges back into the current item
        rw [Bool.and_eq_true, decide_eq_true_eq] at hg
        have hmloeq : (a.key.add ib).lo = cur.key.lo := by
          rw [add_lo]
          split_ifs with hsp
          · exact hiblo
          · rw [Bool.not_eq_true] at hsp
            rw [hiblo] at hsp
            obtain ⟨hnn, hle⟩ := (loLtOpt_false_iff _ _).mp hsp
            rcases hcl : cur.key.lo with _ | clo
            · rw [hnn hcl] at halo
              cases halo
            · have h1 := hle clo alo hcl halo
              have h2 := hcle clo hcl
              rw [halo]
              congr 1
              omega
        have hmhieq : (a.key.add ib).hi = a.key.hi := by
          rw [add_hi]
          have hlf : hiLtOpt a.key.hi ib.hi = false := by
            rw [hiLtOpt_false_iff]
            refine ⟨?_, ?_⟩
            · intro h
              rw [hibhi] at h
              cases h
            · intro ah b hah hb
              rw [hibhi] at hb
              cases hb
              have h1 := (is_empty_false_iff _).mp hM1n alo ah halo hah
              have h2 := hkle klo hklo
              omega
          simp [hlf]
        have hmne : (a.key.add ib).is_empty = false := by
          rw [is_empty_false_iff]
          intro p q hp hq
          rw [hmloeq] at hp
          rw [hmhieq] at hq
          have h1 := hcle p hp
          have h2 := (is_empty_false_iff _).mp hM1n alo q halo hq
          omega
        simp only [Option.map] at h3x
        cases h3x
        refine rmInv_rebuild_one hTinv hM1a hmne ?_ ?_
        · intro x hx
          have hxc := hbLx x hx
          have hxne := hTinv.1 x (List.mem_of_getLast?_eq_some hx)
          rw [okPair_iff hxne hcne] at hxc
          obtain ⟨xh, clo2, hxh, hclo2, hlt, hadjv⟩ := hxc
          refine okPair_of hxh (show (a.key.add ib).lo = some clo2 from
            hmloeq.trans hclo2) hlt ?_ hxne hmne
          intro hadj
          have hv2 : (⟨a.key.add ib, a.value⟩ : Item (AnyRange Int) V).value =
              cur.value := by
            show a.value = cur.value
            rw [hg.2, hvc]
          rw [hv2]
          exact hadjv hadj
        · intro y hy
          obtain ⟨ch, ylo, hch, hylo, hlt, hnorm⟩ := hM1c y hy
          have hyne := hM1a.1 y (List.mem_of_mem_head? hy)
          exact okPair_of (show (a.key.add ib).hi = some ch from hmhieq.trans hch)
            hylo hlt (fun hadj => hnorm rfl hadj) hmne hyne
      · -- the kept piece stands on its own next to the current item
        simp only [Option.map] at h3x
        cases h3x
        refine rmInv_rebuild_two hTinv hM1a hibne hM1n ?_ ?_ ?_
        · refine okPair_of (a := ⟨ib, v⟩) hibhi halo (by omega) ?_ hibne hM1n
          intro hadj hveq
          apply hg
          rw [Bool.and_eq_true, decide_eq_true_eq]
          refine ⟨(connected_to_true_iff _ _).mpr ⟨?_, ?_⟩, hveq.symm⟩
          · intro lb ha2 hlb hha2
            rw [halo] at hlb
            cases hlb
            rw [hibhi] at hha2
            cases hha2
            omega
          · intro la hb hla hhb
            rw [hiblo] at hla
            have h1 := hcle la hla
            have h2 := (is_empty_false_iff _).mp hM1n alo hb halo hhb
            omega
        · intro x hx
          have hxc := hbLx x hx
          have hxne := hTinv.1 x (List.mem_of_getLast?_eq_some hx)
          rw [okPair_iff hxne hcne] at hxc
          obtain ⟨xh, clo2, hxh, hclo2, hlt, hadjv⟩ := hxc
          refine okPair_of hxh (show ib.lo = some clo2 from hiblo.trans hclo2) hlt
            ?_ hxne hibne
          intro hadj
          have hv2 : (⟨ib, v⟩ : Item (AnyRange Int) V).value = cur.value := hvc
          rw [hv2]
          exact hadjv hadj
        · intro y hy
          obtain ⟨ch, ylo, hch, hylo, hlt, hnorm⟩ := hM1c y hy
          have hyne := hM1a.1 y (List.mem_of_mem_head? hy)
          exact okPair_of hch hylo hlt (fun hadj => hnorm rfl hadj) hM1n hyne

theorem updInterStepN [DecidableEq V] (f : Option V → Option V) (fuel : Nat)
    (key : AnyRange Int) (T D : RML V) (cur : Item (AnyRange Int) V)
    (IH : ∀ (key2 : AnyRange Int) (T2 D2 : RML V) (cur2 : Item (AnyRange Int) V)
      (next2 : Option Nat),
      key2.is_empty = false →
      rmInv (T2 ++ [cur2]) →
      rmInv D2 →
      (∀ y, D2.head? = some y → ∃ ch ylo, cur2.key.hi = some ch ∧
        y.key.lo = some ylo ∧ ch < ylo ∧
        (ylo = ch + 1 → cur2.value = y.value →
          ∃ kh, key2.hi = some kh ∧ ch ≤ kh)) →
      next2 = nextItemAddress (T2 ++ cur2 :: D2) T2.length →
      (∀ y, D2.head? = some y → ∃ kh ylo, key2.hi = some kh ∧
        y.key.lo = some ylo ∧ kh < ylo) →
      (∀ clo kh, cur2.key.lo = some clo → key2.hi = some kh → clo ≤ kh + 1) →
      (∀ klo chi, key2.lo = some klo → cur2.key.hi = some chi → klo ≤ chi + 1) →
      ∀ l4, rangeUpdateLoop f fuel (T2 ++ cur2 :: D2) key2 T2.length next2 = some l4 →
        rmInv l4)
    (hkne : key.is_empty = false)
    (hA : rmInv (T ++ [cur]))
    (hD2 : rmInv D)
    (hBnd : ∀ y, D.head? = some y → ∃ ch ylo, cur.key.hi = some ch ∧
      y.key.lo = some ylo ∧ ch < ylo ∧
      (ylo = ch + 1 → cur.value = y.value →
        ∃ kh, key.hi = some kh ∧ ch ≤ kh))
    (next1 : Option Nat)
    (hnext : next1 = nextItemAddress (T ++ cur :: D) T.length)
    (hRS : ∀ y, D.head? = some y → ∃ kh ylo, key.hi = some kh ∧
      y.key.lo = some ylo ∧ kh < ylo)
    (hCur : ∀ clo kh, cur.key.lo = some clo → key.hi = some kh → clo ≤ kh + 1)
    (hCur2 : ∀ klo chi, key.lo = some klo → cur.key.hi = some chi → klo ≤ chi + 1) :
    ∀ l3, (match
        (match (key.product cur.key).intersection with
         | some intersection =>
           (match Option.map (fun it : Item (AnyRange Int) V => f (some it.value))
               (T ++ cur :: D)[T.length]? with
            | none => none
            | some new_value =>
              match new_value with
              | some new_value =>
                if (none : Option V).isSome = true then do
                  let r ← insert_item (T ++ cur :: D) T.length intersection new_value
                  some (r.1, r.2.1, r.2.2, (none : Option V))
                else do
                  let r ← set_item (T ++ cur :: D) T.length next1 intersection
                    new_value
                  some (r.1, r.2.1, r.2.2.1, some r.2.2.2)
              | none => some (T ++ cur :: D, T.length, next1, (none : Option V)))
         | none => some (T ++ cur :: D, T.length, next1, (none : Option V))) with
      | none => none
      | some (l, addr, next_addr2, removed_item_value) =>
        match (key.product cur.key).before with
        | some (ProductArg.Subject key_before) =>
          (match prevItemAddress addr with
           | some prev =>
             (match l[prev]? with
              | none => none
              | some prev_item =>
                if prev_item.key.connected_to key_before = true then
                  match removed_item_value with
                  | none => do
                    let d ← remove_item l addr
                    rangeUpdateLoop f fuel d.1 key_before d.2.1 d.2.2
                  | some _ =>
                    rangeUpdateLoop f fuel l key_before prev (some addr)
                else
                  match f none with
                  | some value =>
                    if removed_item_value.isSome = true then
                      Option.map (fun r : RML V × Nat × Option Nat => r.1)
                        (insert_item l addr key_before value)
                    else
                      Option.map (fun r : RML V × Nat × Option Nat × V => r.1)
                        (set_item l addr next_addr2 key_before value)
                  | none =>
                    if removed_item_value.isNone = true then
                      if addr < l.length then some (l.eraseIdx addr)
                      else some l
                    else some l)
           | none =>
             match f none with
             | some value =>
               if removed_item_value.isSome = true then
                 Option.map (fun r : RML V × Nat × Option Nat => r.1)
                   (insert_item l addr key_before value)
               else
                 Option.map (fun r : RML V × Nat × Option Nat × V => r.1)
                   (set_item l addr next_addr2 key_before value)
             | none =>
               if removed_item_value.isNone = true then
                 if addr < l.length then some (l.eraseIdx addr)
                 else some l
               else some l)
        | some (ProductArg.Object item_before) =>
          (match removed_item_value with
           | some value =>
             Option.map (fun r : RML V × Nat × Option Nat => r.1)
               (insert_item l addr item_before value)
           | none =>
             Option.map (fun r : RML V × Nat × Option Nat => r.1)
               (set_item_key l addr next_addr2 item_before))
        | none =>
          match prevItemAddress addr with
          | some prev_addr =>
            (match removed_item_value with
             | none => do
               let d ← remove_item l addr
               merge_forward d.1 d.2.1 d.2.2
             | some _ => merge_forward l prev_addr (some addr))
          | none =>
            if removed_item_value.isNone = true then
              if addr < l.length then some (l.eraseIdx addr)
              else none
            else some l) = some l3 → rmInv l3 := by
  obtain ⟨hTinv, hcurOne, hbT⟩ := rmInv_append_parts hA
  have hcne : cur.key.is_empty = false := hcurOne.1 cur (by simp)
  have hbLx : ∀ x, T.getLast? = some x → rmOkPair x cur :=
    fun x hx => hbT x hx cur (by simp)
  have hM1bC : ∀ x, T.getLast? = some x → ∃ xh alo, x.key.hi = some xh ∧
      cur.key.lo = some alo ∧ xh < alo := by
    intro x hx
    have hxc := hbLx x hx
    have hxne := hTinv.1 x (List.mem_of_getLast?_eq_some hx)
    rw [okPair_iff hxne hcne] at hxc
    obtain ⟨xh, clo, hxh, hclo, hlt, _⟩ := hxc
    exact ⟨xh, clo, hxh, hclo, hlt⟩
  have hsepC : ∀ y, D.head? = some y → ∃ chy ylo, cur.key.hi = some chy ∧
      y.key.lo = some ylo ∧ chy < ylo := by
    intro y hy
    obtain ⟨ch, ylo, hch, hylo, hlt, _⟩ := hBnd y hy
    exact ⟨ch, ylo, hch, hylo, hlt⟩
  have hM1cN : ∀ y, D.head? = some y → ∃ ch ylo, cur.key.hi = some ch ∧
      y.key.lo = some ylo ∧ ch < ylo ∧
      ((none : Option V).isSome = true → ylo = ch + 1 → cur.value ≠ y.value) := by
    intro y hy
    obtain ⟨ch, ylo, hch, hylo, hlt, _⟩ := hBnd y hy
    exact ⟨ch, ylo, hch, hylo, hlt, fun hs => absurd hs (by simp)⟩
  intro l3 h3
  rcases hPI : (key.product cur.key).intersection with _ | inter
  · simp only [hPI] at h3
    exact updBeforeStep f fuel key T D cur IH hkne hA hCur cur D next1 none
      hD2 hcne hM1cN hM1bC hnext (fun _ => ⟨rfl, rfl⟩)
      (fun v h => Option.noConfusion h) (fun h => absurd h (by simp))
      hD2 hsepC hRS l3 h3
  · simp only [hPI] at h3
    have hPI2 := hPI
    rw [product_inter_eqn] at hPI
    by_cases hie : (⟨if loLtOpt key.lo cur.key.lo then cur.key.start else key.start,
        if hiLtOpt cur.key.hi key.hi then cur.key.stop
        else key.stop⟩ : AnyRange Int).is_empty = true
    · rw [if_pos hie] at hPI
      exact Option.noConfusion hPI
    rw [if_neg hie] at hPI
    rw [Bool.not_eq_true] at hie
    have hIkey := Option.some.inj hPI
    subst hIkey
    set I : AnyRange Int := ⟨if loLtOpt key.lo cur.key.lo then cur.key.start
        else key.start,
      if hiLtOpt cur.key.hi key.hi then cur.key.stop else key.stop⟩ with hIDef
    have hIlo : I.lo = if loLtOpt key.lo cur.key.lo then cur.key.lo else key.lo := by
      rw [hIDef]
      exact inter_mk_lo key cur.key
    have hIhi : I.hi = if hiLtOpt cur.key.hi key.hi then cur.key.hi else key.hi := by
      rw [hIDef]
      exact inter_mk_hi key cur.key
    have hbInter : ∀ x, T.getLast? = some x → ∃ xh ilo, x.key.hi = some xh ∧
        I.lo = some ilo ∧ xh < ilo := by
      intro x hx
      have hxc := hbLx x hx
      have hxne := hTinv.1 x (List.mem_of_getLast?_eq_some hx)
      rw [okPair_iff hxne hcne] at hxc
      obtain ⟨xh, clo, hxh, hclo, hlt, _⟩ := hxc
      rw [hIlo]
      split_ifs with hsp
      · exact ⟨xh, clo, hxh, hclo, hlt⟩
      · rw [Bool.not_eq_true] at hsp
        obtain ⟨hnn, hle⟩ := (loLtOpt_false_iff _ _).mp hsp
        rcases hkl : key.lo with _ | klo
        · rw [hnn hkl] at hclo
          cases hclo
        · refine ⟨xh, klo, hxh, rfl, ?_⟩
          have := hle klo clo hkl hclo
          omega
    have hM5inter : ((∃ clo2, cur.key.lo = some clo2) ∨
        (∃ klo2, key.lo = some klo2)) →
        ∃ alo, I.lo = some alo ∧ (∀ clo2, cur.key.lo = some clo2 → clo2 ≤ alo) ∧
          (∀ klo2, key.lo = some klo2 → klo2 ≤ alo) := by
      intro hdisj
      rw [hIlo]
      split_ifs with hsp
      · obtain ⟨⟨b, hb⟩, himp2⟩ := (loLtOpt_true_iff _ _).mp hsp
        refine ⟨b, hb, ?_, ?_⟩
        · intro clo2 hclo2
          rw [hb] at hclo2
          cases hclo2
          omega
        · intro klo2 hklo2
          have := himp2 klo2 b hklo2 hb
          omega
      · rw [Bool.not_eq_true] at hsp
        obtain ⟨hnn, hle⟩ := (loLtOpt_false_iff _ _).mp hsp
        rcases hkl : key.lo with _ | klo
        · rcases hdisj with ⟨clo2, hclo2⟩ | ⟨klo2, hklo2⟩
          · rw [hnn hkl] at hclo2
            cases hclo2
          · rw [hkl] at hklo2
            cases hklo2
        · refine ⟨klo, rfl, ?_, ?_⟩
          · intro clo2 hclo2
            exact hle klo clo2 hkl hclo2
          · intro klo2 hklo2
            cases hklo2
            omega
    simp only [getElem?_append_cons, Option.map] at h3
    rcases hnv : f (some cur.value) with _ | nv
    · simp only [hnv] at h3
      exact updBeforeStep f fuel key T D cur IH hkne hA hCur cur D next1 none
        hD2 hcne hM1cN hM1bC hnext (fun _ => ⟨rfl, rfl⟩)
        (fun v h => Option.noConfusion h) (fun h => absurd h (by simp))
        hD2 hsepC hRS l3 h3
    · simp only [hnv] at h3
      simp only [Option.isSome_none, Bool.false_eq_true, if_false] at h3
      rcases hDc : D with _ | ⟨y, D2x⟩
      · have hnextN : next1 = none := by
          rw [hnext, hDc]
          exact nextItemAddress_append_nil T cur
        rw [hDc, hnextN, set_item_none_eqn T ([] : RML V) cur I nv] at h3
        simp only [Option.bind_eq_bind, Option.some_bind] at h3
        exact updBeforeStep f fuel key T D cur IH hkne hA hCur
          ⟨I, nv⟩ ([] : RML V) none (some cur.value)
          ⟨(by intro it hit; cases hit), List.chain'_nil⟩
          hie
          (by intro y hy; cases hy)
          (by
            intro x hx
            obtain ⟨xh, ilo, hxh, hilo, hord⟩ := hbInter x hx
            exact ⟨xh, ilo, hxh, hilo, hord⟩)
          (nextItemAddress_append_nil T ⟨I, nv⟩).symm
          (fun h => Option.noConfusion h)
          (fun v2 h => (Option.some.inj h).symm)
          (fun _ hdisj => hM5inter hdisj)
          hD2 hsepC hRS l3 h3
      · have hnextS2 : next1 = some (T.length + 1) := by
          rw [hnext, hDc]
          exact nextItemAddress_append_cons T D2x cur y
        rw [hDc, hnextS2, set_item_some_eqn T D2x cur y I nv] at h3
        obtain ⟨ch, ylo, hch, hylo, hlty, _⟩ := hBnd y (by rw [hDc]; rfl)
        have hyD : rmInv (y :: D2x) := by
          rw [← hDc]
          exact hD2
        have hyne : y.key.is_empty = false := hyD.1 y (List.mem_cons_self y D2x)
        obtain ⟨ih2, hIh2, hih2⟩ : ∃ ih2, I.hi = some ih2 ∧ ih2 ≤ ch := by
          rw [hIhi]
          split_ifs with hsp
          · exact ⟨ch, hch, le_refl ch⟩
          · rw [Bool.not_eq_true] at hsp
            obtain ⟨hnn, hle⟩ := (hiLtOpt_false_iff _ _).mp hsp
            rcases hkh : key.hi with _ | kh2
            · rw [hnn hkh] at hch
              cases hch
            · exact ⟨kh2, rfl, hle ch kh2 hch hkh⟩
        have hIfacts := (is_empty_false_iff I).mp hie
        split_ifs at h3 with hg
        · simp only [Option.bind_eq_bind, Option.some_bind] at h3
          have hmlo : (y.key.add I).lo = I.lo := by
            rw [add_lo]
            rw [if_pos ?_]
            rw [loLtOpt_true_iff]
            refine ⟨⟨ylo, hylo⟩, ?_⟩
            intro p q hp hq
            rw [hylo] at hq
            cases hq
            have := hIfacts p ih2 hp hIh2
            omega
          have hmhi : (y.key.add I).hi = y.key.hi := by
            rw [add_hi]
            rw [if_neg ?_]
            rw [Bool.not_eq_true, hiLtOpt_false_iff]
            refine ⟨?_, ?_⟩
            · intro h
              rw [hIh2] at h
              cases h
            · intro p q hp hq
              rw [hIh2] at hq
              cases hq
              have := (is_empty_false_iff _).mp hyne ylo p hylo hp
              omega
          have hmne : (y.key.add I).is_empty = false := by
            rw [is_empty_false_iff]
            intro p q hp hq
            rw [hmlo] at hp
            rw [hmhi] at hq
            have h1 := hIfacts p ih2 hp hIh2
            have h2 := (is_empty_false_iff _).mp hyne ylo q hylo hq
            omega
          obtain ⟨_, hD2xinv, hyD2pairs⟩ := rmInv_split_at (T := ([] : RML V)) hyD
          exact updBeforeStep f fuel key T D cur IH hkne hA hCur
            ⟨y.key.add I, y.value⟩ D2x
            (nextItemAddress (T ++ ⟨y.key.add I, y.value⟩ :: D2x) T.length)
            (some cur.value)
            hD2xinv
            hmne
            (by
              intro z hz
              have hp := hyD2pairs z hz
              have hzne := hD2xinv.1 z (List.mem_of_mem_head? hz)
              rw [okPair_iff hyne hzne] at hp
              obtain ⟨yh2, zlo, hyh2, hzlo, hlt2, hadj2⟩ := hp
              exact ⟨yh2, zlo, hmhi.trans hyh2, hzlo, hlt2,
                fun _ hadjeq => hadj2 hadjeq⟩)
            (by
              intro x hx
              obtain ⟨xh, ilo, hxh, hilo, hord⟩ := hbInter x hx
              exact ⟨xh, ilo, hxh, hmlo.trans hilo, hord⟩)
            rfl
            (fun h => Option.noConfusion h)
            (fun v2 h => (Option.some.inj h).symm)
            (by
              intro _ hdisj
              obtain ⟨alo, hIloA, hc1, hc2⟩ := hM5inter hdisj
              exact ⟨alo, hmlo.trans hIloA, hc1, hc2⟩)
            hD2 hsepC hRS l3 h3
        · rw [set_append_cons] at h3
          simp only [Option.bind_eq_bind, Option.some_bind] at h3
          exact updBeforeStep f fuel key T D cur IH hkne hA hCur
            ⟨I, nv⟩ (y :: D2x) (some (T.length + 1)) (some cur.value)
            hyD
            hie
            (by
              intro z hz
              simp only [List.head?_cons, Option.some.injEq] at hz
              subst hz
              refine ⟨ih2, ylo, hIh2, hylo, by omega, ?_⟩
              intro _ hadj hveq
              apply hg
              rw [Bool.and_eq_true, decide_eq_true_eq]
              refine ⟨(connected_to_true_iff _ _).mpr ⟨?_, ?_⟩, hveq.symm⟩
              · intro lb ha2 hlb2 hha2
                rw [hylo] at hlb2
                cases hlb2
                rw [hIh2] at hha2
                cases hha2
                omega
              · intro la hb hla hhb
                have h1 := hIfacts la ih2 hla hIh2
                have h2 := (is_empty_false_iff _).mp hyne ylo hb hylo hhb
                omega)
            (by
              intro x hx
              obtain ⟨xh, ilo, hxh, hilo, hord⟩ := hbInter x hx
              exact ⟨xh, ilo, hxh, hilo, hord⟩)
            (nextItemAddress_append_cons T D2x ⟨I, nv⟩ y).symm
            (fun h => Option.noConfusion h)
            (fun v2 h => (Option.some.inj h).symm)
            (fun _ hdisj => hM5inter hdisj)
            hD2 hsepC hRS l3 h3

theorem updInterStepS [DecidableEq V] (f : Option V → Option V) (fuel : Nat)
    (key : AnyRange Int) (T D : RML V) (cur : Item (AnyRange Int) V)
    (IH : ∀ (key2 : AnyRange Int) (T2 D2 : RML V) (cur2 : Item (AnyRange Int) V)
      (next2 : Option Nat),
      key2.is_empty = false →
      rmInv (T2 ++ [cur2]) →
      rmInv D2 →
      (∀ y, D2.head? = some y → ∃ ch ylo, cur2.key.hi = some ch ∧
        y.key.lo = some ylo ∧ ch < ylo ∧
        (ylo = ch + 1 → cur2.value = y.value →
          ∃ kh, key2.hi = some kh ∧ ch ≤ kh)) →
      next2 = nextItemAddress (T2 ++ cur2 :: D2) T2.length →
      (∀ y, D2.head? = some y → ∃ kh ylo, key2.hi = some kh ∧
        y.key.lo = some ylo ∧ kh < ylo) →
      (∀ clo kh, cur2.key.lo = some clo → key2.hi = some kh → clo ≤ kh + 1) →
      (∀ klo chi, key2.lo = some klo → cur2.key.hi = some chi → klo ≤ chi + 1) →
      ∀ l4, rangeUpdateLoop f fuel (T2 ++ cur2 :: D2) key2 T2.length next2 = some l4 →
        rmInv l4)
    (hkne : key.is_empty = false)
    (hA : rmInv (T ++ [cur]))
    (hCur : ∀ clo kh, cur.key.lo = some clo → key.hi = some kh → clo ≤ kh + 1)
    (a : Item (AnyRange Int) V) (D1 : RML V) (next1 : Option Nat)
    (hM1a : rmInv D1)
    (hM1n : a.key.is_empty = false)
    (hM1c : ∀ y, D1.head? = some y → ∃ ch ylo, a.key.hi = some ch ∧
      y.key.lo = some ylo ∧ ch < ylo ∧
      (ylo = ch + 1 → a.value ≠ y.value))
    (hM1b : ∀ x, T.getLast? = some x → ∃ xh alo, x.key.hi = some xh ∧
      a.key.lo = some alo ∧ xh < alo)
    (hM2 : next1 = nextItemAddress (T ++ a :: D1) T.length)
    (hM5 : ((∃ clo2, cur.key.lo = some clo2) ∨ (∃ klo2, key.lo = some klo2)) →
      ∃ alo, a.key.lo = some alo ∧
      (∀ clo2, cur.key.lo = some clo2 → clo2 ≤ alo) ∧
      (∀ klo2, key.lo = some klo2 → klo2 ≤ alo))
    (hM6 : ∀ q, (key.product cur.key).intersection = some q →
      ∃ alo qh, a.key.lo = some alo ∧ q.hi = some qh ∧ qh < alo)
    (hD2 : rmInv D)
    (hsepCD : ∀ y, D.head? = some y → ∃ chy ylo, cur.key.hi = some chy ∧
      y.key.lo = some ylo ∧ chy < ylo)
    (hRS : ∀ y, D.head? = some y → ∃ kh ylo, key.hi = some kh ∧
      y.key.lo = some ylo ∧ kh < ylo) :
    ∀ l3, (match
        (match (key.product cur.key).intersection with
         | some intersection =>
           (match f (some cur.value) with
            | some new_value =>
              if (some cur.value).isSome = true then do
                let r ← insert_item (T ++ a :: D1) T.length intersection new_value
                some (r.1, r.2.1, r.2.2, some cur.value)
              else do
                let r ← set_item (T ++ a :: D1) T.length next1 intersection new_value
                some (r.1, r.2.1, r.2.2.1, some r.2.2.2)
            | none => some (T ++ a :: D1, T.length, next1, some cur.value))
         | none => some (T ++ a :: D1, T.length, next1, some cur.value)) with
      | none => none
      | some (l, addr, next_addr2, removed_item_value) =>
        match (key.product cur.key).before with
        | some (ProductArg.Subject key_before) =>
          (match prevItemAddress addr with
           | some prev =>
             (match l[prev]? with
              | none => none
              | some prev_item =>
                if prev_item.key.connected_to key_before = true then
                  match removed_item_value with
                  | none => do
                    let d ← remove_item l addr
                    rangeUpdateLoop f fuel d.1 key_before d.2.1 d.2.2
                  | some _ =>
                    rangeUpdateLoop f fuel l key_before prev (some addr)
                else
                  match f none with
                  | some value =>
                    if removed_item_value.isSome = true then
                      Option.map (fun r : RML V × Nat × Option Nat => r.1)
                        (insert_item l addr key_before value)
                    else
                      Option.map (fun r : RML V × Nat × Option Nat × V => r.1)
                        (set_item l addr next_addr2 key_before value)
                  | none =>
                    if removed_item_value.isNone = true then
                      if addr < l.length then some (l.eraseIdx addr)
                      else some l
                    else some l)
           | none =>
             match f none with
             | some value =>
               if removed_item_value.isSome = true then
                 Option.map (fun r : RML V × Nat × Option Nat => r.1)
                   (insert_item l addr key_before value)
               else
                 Option.map (fun r : RML V × Nat × Option Nat × V => r.1)
                   (set_item l addr next_addr2 key_before value)
             | none =>
               if removed_item_value.isNone = true then
                 if addr < l.length then some (l.eraseIdx addr)
                 else some l
               else some l)
        | some (ProductArg.Object item_before) =>
          (match removed_item_value with
           | some value =>
             Option.map (fun r : RML V × Nat × Option Nat => r.1)
               (insert_item l addr item_before value)
           | none =>
             Option.map (fun r : RML V × Nat × Option Nat => r.1)
               (set_item_key l addr next_addr2 item_before))
        | none =>
          match prevItemAddress addr with
          | some prev_addr =>
            (match removed_item_value with
             | none => do
               let d ← remove_item l addr
               merge_forward d.1 d.2.1 d.2.2
             | some _ => merge_forward l prev_addr (some addr))
          | none =>
            if removed_item_value.isNone = true then
              if addr < l.length then some (l.eraseIdx addr)
              else none
            else some l) = some l3 → rmInv l3 := by
  obtain ⟨hTinv, hcurOne, hbT⟩ := rmInv_append_parts hA
  have hcne : cur.key.is_empty = false := hcurOne.1 cur (by simp)
  have hbLx : ∀ x, T.getLast? = some x → rmOkPair x cur :=
    fun x hx => hbT x hx cur (by simp)
  have hM1cP : ∀ y, D1.head? = some y → ∃ ch ylo, a.key.hi = some ch ∧
      y.key.lo = some ylo ∧ ch < ylo ∧
      ((some cur.value).isSome = true → ylo = ch + 1 → a.value ≠ y.value) := by
    intro y hy
    obtain ⟨ch, ylo, hch, hylo, hlt, hnorm⟩ := hM1c y hy
    exact ⟨ch, ylo, hch, hylo, hlt, fun _ hadj => hnorm hadj⟩
  intro l3 h3
  rcases hPI : (key.product cur.key).intersection with _ | inter
  · simp only [hPI] at h3
    exact updBeforeStep f fuel key T D cur IH hkne hA hCur a D1 next1
      (some cur.value) hM1a hM1n hM1cP hM1b hM2
      (fun h => Option.noConfusion h)
      (fun v2 h => (Option.some.inj h).symm)
      (fun _ hdisj => hM5 hdisj)
      hD2 hsepCD hRS l3 h3
  · simp only [hPI] at h3
    have hPI2 := hPI
    rw [product_inter_eqn] at hPI
    by_cases hie : (⟨if loLtOpt key.lo cur.key.lo then cur.key.start else key.start,
        if hiLtOpt cur.key.hi key.hi then cur.key.stop
        else key.stop⟩ : AnyRange Int).is_empty = true
    · rw [if_pos hie] at hPI
      exact Option.noConfusion hPI
    rw [if_neg hie] at hPI
    rw [Bool.not_eq_true] at hie
    have hIkey := Option.some.inj hPI
    subst hIkey
    set I : AnyRange Int := ⟨if loLtOpt key.lo cur.key.lo then cur.key.start
        else key.start,
      if hiLtOpt cur.key.hi key.hi then cur.key.stop else key.stop⟩ with hIDef
    have hIlo : I.lo = if loLtOpt key.lo cur.key.lo then cur.key.lo else key.lo := by
      rw [hIDef]
      exact inter_mk_lo key cur.key
    have hbInter : ∀ x, T.getLast? = some x → ∃ xh ilo, x.key.hi = some xh ∧
        I.lo = some ilo ∧ xh < ilo := by
      intro x hx
      have hxc := hbLx x hx
      have hxne := hTinv.1 x (List.mem_of_getLast?_eq_some hx)
      rw [okPair_iff hxne hcne] at hxc
      obtain ⟨xh, clo, hxh, hclo, hlt, _⟩ := hxc
      rw [hIlo]
      split_ifs with hsp
      · exact ⟨xh, clo, hxh, hclo, hlt⟩
      · rw [Bool.not_eq_true] at hsp
        obtain ⟨hnn, hle⟩ := (loLtOpt_false_iff _ _).mp hsp
        rcases hkl : key.lo with _ | klo
        · rw [hnn hkl] at hclo
          cases hclo
        · refine ⟨xh, klo, hxh, rfl, ?_⟩
          have := hle klo clo hkl hclo
          omega
    have hM5inter : ((∃ clo2, cur.key.lo = some clo2) ∨
        (∃ klo2, key.lo = some klo2)) →
        ∃ alo, I.lo = some alo ∧ (∀ clo2, cur.key.lo = some clo2 → clo2 ≤ alo) ∧
          (∀ klo2, key.lo = some klo2 → klo2 ≤ alo) := by
      intro hdisj
      rw [hIlo]
      split_ifs with hsp
      · obtain ⟨⟨b, hb⟩, himp2⟩ := (loLtOpt_true_iff _ _).mp hsp
        refine ⟨b, hb, ?_, ?_⟩
        · intro clo2 hclo2
          rw [hb] at hclo2
          cases hclo2
          omega
        · intro klo2 hklo2
          have := himp2 klo2 b hklo2 hb
          omega
      · rw [Bool.not_eq_true] at hsp
        obtain ⟨hnn, hle⟩ := (loLtOpt_false_iff _ _).mp hsp
        rcases hkl : key.lo with _ | klo
        · rcases hdisj with ⟨clo2, hclo2⟩ | ⟨klo2, hklo2⟩
          · rw [hnn hkl] at hclo2
            cases hclo2
          · rw [hkl] at hklo2
            cases hklo2
        · refine ⟨klo, rfl, ?_, ?_⟩
          · intro clo2 hclo2
            exact hle klo clo2 hkl hclo2
          · intro klo2 hklo2
            cases hklo2
            omega
    rcases hnv : f (some cur.value) with _ | nv
    · simp only [hnv] at h3
      exact updBeforeStep f fuel key T D cur IH hkne hA hCur a D1 next1
        (some cur.value) hM1a hM1n hM1cP hM1b hM2
        (fun h => Option.noConfusion h)
        (fun v2 h => (Option.some.inj h).symm)
        (fun _ hdisj => hM5 hdisj)
        hD2 hsepCD hRS l3 h3
    · simp only [hnv] at h3
      simp only [Option.isSome_some, eq_self_iff_true, if_true] at h3
      obtain ⟨alo, qh, halo, hqh, hql⟩ := hM6 I hPI2
      have hIfacts := (is_empty_false_iff I).mp hie
      rw [insert_item_eqn T D1 a I nv] at h3
      split_ifs at h3 with hg
      · simp only [Option.bind_eq_bind, Option.some_bind] at h3
        have hmlo : (a.key.add I).lo = I.lo := by
          rw [add_lo]
          rw [if_pos ?_]
          rw [loLtOpt_true_iff]
          refine ⟨⟨alo, halo⟩, ?_⟩
          intro p q hp hq
          rw [halo] at hq
          cases hq
          have := hIfacts p qh hp hqh
          omega
        have hmhi : (a.key.add I).hi = a.key.hi := by
          rw [add_hi]
          rw [if_neg ?_]
          rw [Bool.not_eq_true, hiLtOpt_false_iff]
          refine ⟨?_, ?_⟩
          · intro h
            rw [hqh] at h
            cases h
          · intro p q hp hq
            rw [hqh] at hq
            cases hq
            have := (is_empty_false_iff _).mp hM1n alo p halo hp
            omega
        have hmne : (a.key.add I).is_empty = false := by
          rw [is_empty_false_iff]
          intro p q hp hq
          rw [hmlo] at hp
          rw [hmhi] at hq
          have h1 := hIfacts p qh hp hqh
          have h2 := (is_empty_false_iff _).mp hM1n alo q halo hq
          omega
        exact updBeforeStep f fuel key T D cur IH hkne hA hCur
          ⟨a.key.add I, a.value⟩ D1
          (nextItemAddress (T ++ ⟨a.key.add I, a.value⟩ :: D1) T.length)
          (some cur.value)
          hM1a
          hmne
          (by
            intro z hz
            obtain ⟨ch, zlo, hch, hzlo, hlt2, hnorm⟩ := hM1c z hz
            exact ⟨ch, zlo, hmhi.trans hch, hzlo, hlt2,
              fun _ hadj => hnorm hadj⟩)
          (by
            intro x hx
            obtain ⟨xh, ilo, hxh, hilo, hord⟩ := hbInter x hx
            exact ⟨xh, ilo, hxh, hmlo.trans hilo, hord⟩)
          rfl
          (fun h => Option.noConfusion h)
          (fun v2 h => (Option.some.inj h).symm)
          (by
            intro _ hdisj
            obtain ⟨alo2, hIloA, hc1, hc2⟩ := hM5inter hdisj
            exact ⟨alo2, hmlo.trans hIloA, hc1, hc2⟩)
          hD2 hsepCD hRS l3 h3
      · simp only [Option.bind_eq_bind, Option.some_bind] at h3
        have hAD1 : rmInv (a :: D1) := by
          have h := rmInv_rebuild_one (T := ([] : RML V))
            ⟨(by intro it hit; cases hit), List.chain'_nil⟩ hM1a hM1n
            (by intro x hx; cases hx)
            (by
              intro z hz
              obtain ⟨ch, zlo, hch, hzlo, hlt2, hnorm⟩ := hM1c z hz
              have hzne := hM1a.1 z (List.mem_of_mem_head? hz)
              exact okPair_of hch hzlo hlt2 (fun hadj => hnorm hadj)
                hM1n hzne)
          simpa using h
        exact updBeforeStep f fuel key T D cur IH hkne hA hCur
          ⟨I, nv⟩ (a :: D1)
          (nextItemAddress (T ++ ⟨I, nv⟩ :: a :: D1) T.length)
          (some cur.value)
          hAD1
          hie
          (by
            intro z hz
            simp only [List.head?_cons, Option.some.injEq] at hz
            subst hz
            refine ⟨qh, alo, hqh, halo, hql, ?_⟩
            intro _ hadj hveq
            apply hg
            rw [Bool.and_eq_true, decide_eq_true_eq]
            refine ⟨(connected_to_true_iff _ _).mpr ⟨?_, ?_⟩, hveq.symm⟩
            · intro lb ha2 hlb2 hha2
              rw [halo] at hlb2
              cases hlb2
              rw [hqh] at hha2
              cases hha2
              omega
            · intro la hb hla hhb
              have h1 := hIfacts la qh hla hqh
              have h2 := (is_empty_false_iff _).mp hM1n alo hb halo hhb
              omega)
          (by
            intro x hx
            obtain ⟨xh, ilo, hxh, hilo, hord⟩ := hbInter x hx
            exact ⟨xh, ilo, hxh, hilo, hord⟩)
          rfl
          (fun h => Option.noConfusion h)
          (fun v2 h => (Option.some.inj h).symm)
          (fun _ hdisj => hM5inter hdisj)
          hD2 hsepCD hRS l3 h3

theorem rangeUpdateLoop_inv [DecidableEq V] (f : Option V → Option V) :
    ∀ (fuel : Nat) (key : AnyRange Int) (T D : RML V) (cur : Item (AnyRange Int) V)
      (next_addr : Option Nat),
      key.is_empty = false →
      rmInv (T ++ [cur]) →
      rmInv D →
      (∀ y, D.head? = some y → ∃ ch ylo, cur.key.hi = some ch ∧
        y.key.lo = some ylo ∧ ch < ylo ∧
        (ylo = ch + 1 → cur.value = y.value →
          ∃ kh, key.hi = some kh ∧ ch ≤ kh)) →
      next_addr = nextItemAddress (T ++ cur :: D) T.length →
      (∀ y, D.head? = some y → ∃ kh ylo, key.hi = some kh ∧
        y.key.lo = some ylo ∧ kh < ylo) →
      (∀ clo kh, cur.key.lo = some clo → key.hi = some kh → clo ≤ kh + 1) →
      (∀ klo chi, key.lo = some klo → cur.key.hi = some chi → klo ≤ chi + 1) →
      ∀ l2, rangeUpdateLoop f fuel (T ++ cur :: D) key T.length next_addr = some l2 →
        rmInv l2 := by
  intro fuel
  induction fuel with
  | zero =>
    intro key T D cur next_addr _ _ _ _ _ _ _ _ l2 h
    exact absurd h (by simp [rangeUpdateLoop])
  | succ fuel ih =>
    intro key T D cur next_addr hkne hA hD2 hBnd hnext hRS hCur hCur2 l2 hrun
    obtain ⟨hTinv, hcurOne, hbT⟩ := rmInv_append_parts hA
    have hcne : cur.key.is_empty = false := hcurOne.1 cur (by simp)
    have hbLx : ∀ x, T.getLast? = some x → rmOkPair x cur :=
      fun x hx => hbT x hx cur (by simp)
    have hM1bC : ∀ x, T.getLast? = some x → ∃ xh alo, x.key.hi = some xh ∧
        cur.key.lo = some alo ∧ xh < alo := by
      intro x hx
      have hxc := hbLx x hx
      have hxne := hTinv.1 x (List.mem_of_getLast?_eq_some hx)
      rw [okPair_iff hxne hcne] at hxc
      obtain ⟨xh, clo, hxh, hclo, hlt, _⟩ := hxc
      exact ⟨xh, clo, hxh, hclo, hlt⟩
    have hsepC : ∀ y, D.head? = some y → ∃ chy ylo, cur.key.hi = some chy ∧
        y.key.lo = some ylo ∧ chy < ylo := by
      intro y hy
      obtain ⟨ch, ylo, hch, hylo, hlt, _⟩ := hBnd y hy
      exact ⟨ch, ylo, hch, hylo, hlt⟩
    have hM1cN : ∀ y, D.head? = some y → ∃ ch ylo, cur.key.hi = some ch ∧
        y.key.lo = some ylo ∧ ch < ylo ∧
        ((none : Option V).isSome = true → ylo = ch + 1 → cur.value ≠ y.value) := by
      intro y hy
      obtain ⟨ch, ylo, hch, hylo, hlt, _⟩ := hBnd y hy
      exact ⟨ch, ylo, hch, hylo, hlt, fun hs => absurd hs (by simp)⟩
    simp only [rangeUpdateLoop, getElem?_append_cons] at hrun
    rcases hPA : (key.product cur.key).after with _ | ⟨kar⟩ | ⟨iar⟩
    · -- nothing of the key lies above the item
      simp only [hPA] at hrun
      exact updInterStepN f fuel key T D cur ih hkne hA hD2 hBnd next_addr hnext
        hRS hCur hCur2 l2 hrun
    · -- the key sticks out above the item
      simp only [hPA] at hrun
      rw [product_after_eqn] at hPA
      split_ifs at hPA with hA2 hA3
      rotate_left
      · exact ProductArg.noConfusion (Option.some.inj hPA)
      injection hPA with hPA2
      injection hPA2 with hPA3
      subst hPA3
      obtain ⟨⟨ch, hch⟩, hhiAll⟩ := (hiLtOpt_true_iff _ _).mp hA2
      set ka : AnyRange Int := ⟨flipEndToStart cur.key.stop, key.stop⟩ with hkaDef
      have hkalo : ka.lo = some (ch + 1) := by
        rw [hkaDef, lo_flip_end, hch]
        rfl
      have hkahi : ka.hi = key.hi := by
        rw [hkaDef]
        exact hi_mk_of_stop _ _ key rfl
      have hkane : ka.is_empty = false := by
        rw [is_empty_false_iff]
        intro p q hp hq
        rw [hkalo] at hp
        cases hp
        rw [hkahi] at hq
        have := hhiAll ch q hch hq
        omega
      have hM6S : ∀ q2, (key.product cur.key).intersection = some q2 →
          ∃ qh, q2.hi = some qh ∧ qh ≤ ch := by
        intro q2 hq
        rw [product_inter_eqn] at hq
        by_cases hie2 : (⟨if loLtOpt key.lo cur.key.lo then cur.key.start
            else key.start,
          if hiLtOpt cur.key.hi key.hi then cur.key.stop
            else key.stop⟩ : AnyRange Int).is_empty = true
        · rw [if_pos hie2] at hq
          exact Option.noConfusion hq
        · rw [if_neg hie2] at hq
          have hqe := Option.some.inj hq
          subst hqe
          rw [inter_mk_hi, if_pos hA2]
          exact ⟨ch, hch, le_refl ch⟩
      have hccle : ∀ clo, cur.key.lo = some clo → clo ≤ ch :=
        fun clo hclo => (is_empty_false_iff _).mp hcne clo ch hclo hch
      have hM5S : ((∃ clo2, cur.key.lo = some clo2) ∨
          (∃ klo2, key.lo = some klo2)) →
          ∃ alo, ka.lo = some alo ∧ (∀ clo2, cur.key.lo = some clo2 → clo2 ≤ alo) ∧
            (∀ klo2, key.lo = some klo2 → klo2 ≤ alo) := by
        intro _
        refine ⟨ch + 1, hkalo, ?_, ?_⟩
        · intro clo2 hclo2
          have := hccle clo2 hclo2
          omega
        · intro klo2 hklo2
          exact hCur2 klo2 ch hklo2 hch
      rcases hf : f none with _ | value
      · nth_rewrite 1 [hf] at hrun
        exact updInterStepN f fuel key T D cur ih hkne hA hD2 hBnd next_addr hnext
          hRS hCur hCur2 l2 hrun
      · nth_rewrite 1 [hf] at hrun
        simp only [] at hrun
        rcases hDc : D with _ | ⟨y, D2x⟩
        · have hnextN : next_addr = none := by
            rw [hnext, hDc]
            exact nextItemAddress_append_nil T cur
          rw [hDc] at hrun
          rw [hnextN] at hrun
          rw [set_item_none_eqn T ([] : RML V) cur ka value] at hrun
          simp only [Option.bind_eq_bind, Option.some_bind] at hrun
          exact updInterStepS f fuel key T D cur ih hkne hA hCur
            ⟨ka, value⟩ ([] : RML V) none
            ⟨(by intro it hit; cases hit), List.chain'_nil⟩
            hkane
            (by intro y2 hy2; cases hy2)
            (by
              intro x hx
              obtain ⟨xh, clo, hxh, hclo, hlt⟩ := hM1bC x hx
              have := hccle clo hclo
              exact ⟨xh, ch + 1, hxh, hkalo, by omega⟩)
            (nextItemAddress_append_nil T ⟨ka, value⟩).symm
            (fun hdisj => hM5S hdisj)
            (fun q2 hq => by
              obtain ⟨qh, hqh, hq2⟩ := hM6S q2 hq
              exact ⟨ch + 1, qh, hkalo, hqh, by omega⟩)
            hD2 hsepC hRS l2 hrun
        · have hnextS : next_addr = some (T.length + 1) := by
            rw [hnext, hDc]
            exact nextItemAddress_append_cons T D2x cur y
          rw [hDc] at hrun
          rw [hnextS] at hrun
          rw [set_item_some_eqn T D2x cur y ka value] at hrun
          obtain ⟨ch2, ylo, hch2, hylo, hlty, hcondy⟩ := hBnd y (by rw [hDc]; rfl)
          have hch2e := Option.some.inj (hch2.symm.trans hch)
          obtain ⟨kh3, ylo3, hkh3, hylo3, hlt3⟩ := hRS y (by rw [hDc]; rfl)
          have hyloe := Option.some.inj (hylo3.symm.trans hylo)
          have hD2x : rmInv (y :: D2x) := by
            rw [← hDc]
            exact hD2
          have hyne : y.key.is_empty = false := hD2x.1 y (List.mem_cons_self y D2x)
          by_cases hg : (ka.connected_to y.key && decide (y.value = value)) = true
          · rw [if_pos hg] at hrun
            simp only [Option.bind_eq_bind, Option.some_bind] at hrun
            obtain ⟨_, hD2xinv, hyD2pairs⟩ := rmInv_split_at (T := ([] : RML V)) hD2x
            have hmlo : (y.key.add ka).lo = some (ch + 1) := by
              rw [add_lo]
              split_ifs with hsp
              · exact hkalo
              · rw [Bool.not_eq_true] at hsp
                obtain ⟨hnn, hle⟩ := (loLtOpt_false_iff _ _).mp hsp
                have := hle (ch + 1) ylo hkalo hylo
                rw [hylo]
                congr 1
                omega
            have hmhiD : (y.key.add ka).hi = ka.hi ∨ (y.key.add ka).hi = y.key.hi := by
              rw [add_hi]
              split_ifs
              · exact Or.inl rfl
              · exact Or.inr rfl
            have hmne : (y.key.add ka).is_empty = false := by
              rw [is_empty_false_iff]
              intro p q hp hq
              rw [hmlo] at hp
              cases hp
              rcases hmhiD with hmh | hmh
              · rw [hmh, hkahi] at hq
                have := hhiAll ch q hch hq
                omega
              · rw [hmh] at hq
                have := (is_empty_false_iff _).mp hyne ylo q hylo hq
                omega
            exact updInterStepS f fuel key T D cur ih hkne hA hCur
              ⟨y.key.add ka, y.value⟩ D2x
              (nextItemAddress (T ++ ⟨y.key.add ka, y.value⟩ :: D2x) T.length)
              hD2xinv
              hmne
              (by
                intro z hz
                have hp := hyD2pairs z hz
                have hzne := hD2xinv.1 z (List.mem_of_mem_head? hz)
                rw [okPair_iff hyne hzne] at hp
                obtain ⟨yh, zlo, hyh, hzlo, hyz, hyzadj⟩ := hp
                rcases hmhiD with hmh | hmh
                · refine ⟨kh3, zlo, ?_, hzlo, ?_, ?_⟩
                  · rw [hmh, hkahi]
                    exact hkh3
                  · have hyy := (is_empty_false_iff _).mp hyne ylo yh hylo hyh
                    omega
                  · intro hadj _
                    exfalso
                    have hyy := (is_empty_false_iff _).mp hyne ylo yh hylo hyh
                    omega
                · exact ⟨yh, zlo, hmh.trans hyh, hzlo, hyz,
                    fun hadj => hyzadj hadj⟩)
              (by
                intro x hx
                obtain ⟨xh, clo, hxh, hclo, hlt⟩ := hM1bC x hx
                have := hccle clo hclo
                exact ⟨xh, ch + 1, hxh, hmlo, by omega⟩)
              rfl
              (by
                intro hdisj
                obtain ⟨alo, hkaloA, hc1, hc2⟩ := hM5S hdisj
                rw [hkalo] at hkaloA
                cases hkaloA
                exact ⟨ch + 1, hmlo, hc1, hc2⟩)
              (fun q2 hq => by
                obtain ⟨qh, hqh, hq2⟩ := hM6S q2 hq
                exact ⟨ch + 1, qh, hmlo, hqh, by omega⟩)
              hD2 hsepC hRS l2 hrun
          · rw [if_neg hg] at hrun
            rw [set_append_cons] at hrun
            simp only [Option.bind_eq_bind, Option.some_bind] at hrun
            exact updInterStepS f fuel key T D cur ih hkne hA hCur
              ⟨ka, value⟩ (y :: D2x) (some (T.length + 1))
              hD2x
              hkane
              (by
                intro z hz
                simp only [List.head?_cons, Option.some.injEq] at hz
                subst hz
                refine ⟨kh3, ylo, ?_, hylo, ?_, ?_⟩
                · rw [hkahi]
                  exact hkh3
                · omega
                · intro hadj hveq
                  apply hg
                  rw [Bool.and_eq_true, decide_eq_true_eq]
                  refine ⟨(connected_to_true_iff _ _).mpr ⟨?_, ?_⟩, hveq.symm⟩
                  · intro lb ha2 hlb2 hha2
                    rw [hylo] at hlb2
                    cases hlb2
                    rw [hkahi, hkh3] at hha2
                    cases hha2
                    omega
                  · intro la hb hla hhb
                    rw [hkalo] at hla
                    cases hla
                    have := (is_empty_false_iff _).mp hyne ylo hb hylo hhb
                    omega)
              (by
                intro x hx
                obtain ⟨xh, clo, hxh, hclo, hlt⟩ := hM1bC x hx
                have := hccle clo hclo
                exact ⟨xh, ch + 1, hxh, hkalo, by omega⟩)
              (nextItemAddress_append_cons T D2x ⟨ka, value⟩ y).symm
              (fun hdisj => hM5S hdisj)
              (fun q2 hq => by
                obtain ⟨qh, hqh, hq2⟩ := hM6S q2 hq
                exact ⟨ch + 1, qh, hkalo, hqh, by omega⟩)
              hD2 hsepC hRS l2 hrun
    · -- the item sticks out above the key: truncate it down to the key top
      simp only [hPA] at hrun
      rw [set_append_cons] at hrun
      rw [product_after_eqn] at hPA
      split_ifs at hPA with hA2 hA3
      · exact ProductArg.noConfusion (Option.some.inj hPA)
      injection hPA with hPA2
      injection hPA2 with hPA3
      subst hPA3
      obtain ⟨⟨kh, hkh⟩, hhiAll2⟩ := (hiLtOpt_true_iff _ _).mp hA3
      set ia : AnyRange Int := ⟨flipEndToStart key.stop, cur.key.stop⟩ with hiaDef
      have hialo : ia.lo = some (kh + 1) := by
        rw [hiaDef, lo_flip_end, hkh]
        rfl
      have hiahi : ia.hi = cur.key.hi := by
        rw [hiaDef]
        exact hi_mk_of_stop _ _ cur.key rfl
      have hiane : ia.is_empty = false := by
        rw [is_empty_false_iff]
        intro p q hp hq
        rw [hialo] at hp
        cases hp
        rw [hiahi] at hq
        have := hhiAll2 kh q hkh hq
        omega
      have hkne2 := (is_empty_false_iff key).mp hkne
      exact updInterStepS f fuel key T D cur ih hkne hA hCur
        ⟨ia, cur.value⟩ D next_addr
        hD2
        hiane
        (by
          intro z hz
          obtain ⟨ch2, ylo, hch2, hylo, hlt, hcond⟩ := hBnd z hz
          refine ⟨ch2, ylo, ?_, hylo, hlt, ?_⟩
          · rw [hiahi]
            exact hch2
          · intro hadj hveq
            obtain ⟨kh4, hkh4, hle4⟩ := hcond hadj hveq
            have h1 := hhiAll2 kh4 ch2 hkh4 hch2
            omega)
        (by
          intro x hx
          obtain ⟨xh, clo, hxh, hclo, hlt⟩ := hM1bC x hx
          have := hCur clo kh hclo hkh
          exact ⟨xh, kh + 1, hxh, hialo, by omega⟩)
        (by
          rw [hnext]
          unfold nextItemAddress
          simp)
        (by
          intro _
          refine ⟨kh + 1, hialo, ?_, ?_⟩
          · intro clo2 hclo2
            have := hCur clo2 kh hclo2 hkh
            omega
          · intro klo2 hklo2
            have := hkne2 klo2 kh hklo2 hkh
            omega)
        (by
          intro q2 hq
          rw [product_inter_eqn] at hq
          by_cases hie2 : (⟨if loLtOpt key.lo cur.key.lo then cur.key.start
              else key.start,
            if hiLtOpt cur.key.hi key.hi then cur.key.stop
              else key.stop⟩ : AnyRange Int).is_empty = true
          · rw [if_pos hie2] at hq
            exact Option.noConfusion hq
          · rw [if_neg hie2] at hq
            have hqe := Option.some.inj hq
            subst hqe
            rw [inter_mk_hi, if_neg hA2]
            exact ⟨kh + 1, kh, hialo, hkh, by omega⟩)
        hD2 hsepC hRS l2 hrun

theorem rangeUpdate_inv [DecidableEq V] {l : RML V} {key : AnyRange Int}
    {f : Option V → Option V} (hinv : rmInv l) :
    ∀ l2, rangeUpdate l key f = some l2 → rmInv l2 := by
  intro l2 hrun
  unfold rangeUpdate at hrun
  split_ifs at hrun with hke
  · cases hrun
    exact hinv
  · have hkne : key.is_empty = false := Bool.eq_false_iff.mpr hke
    split at hrun
    · rename_i addr hfound
      obtain ⟨⟨cur, hget, hcurOK⟩, hRS0⟩ := address_of_found_spec hinv hfound
      obtain ⟨cur2, hget2, hmatch⟩ := address_of_found_matches hfound
      rw [hget] at hget2
      have hce := Option.some.inj hget2
      subst hce
      have haddr : addr < l.length := (List.getElem?_eq_some_iff.mp hget).1
      have hcurg : l[addr] = cur := (List.getElem?_eq_some_iff.mp hget).2
      obtain ⟨T, D, hdec, hTlen⟩ : ∃ T D, l = T ++ cur :: D ∧ T.length = addr := by
        refine ⟨l.take addr, l.drop (addr + 1), ?_, by simp [List.length_take]; omega⟩
        have h := rmInv_decomp haddr
        rwa [hcurg] at h
      subst hdec
      subst hTlen
      obtain ⟨hTC, hDinv, hbd⟩ := rmInv_split_at hinv
      have hcne : cur.key.is_empty = false := hinv.1 cur (by simp)
      apply rangeUpdateLoop_inv f ((T ++ cur :: D).length + 1) key T D cur
        (nextItemAddress (T ++ cur :: D) T.length) hkne hTC hDinv ?_ rfl ?_ ?_ ?_
        l2 hrun
      · intro y hy
        have hp := hbd y hy
        have hyne := hDinv.1 y (List.mem_of_mem_head? hy)
        rw [okPair_iff hcne hyne] at hp
        obtain ⟨ch, ylo, hch, hylo, hlt, hadjv⟩ := hp
        exact ⟨ch, ylo, hch, hylo, hlt,
          fun hadj hveq => absurd hveq (hadjv hadj)⟩
      · intro y hy
        apply hRS0 y
        rw [getElem?_append_cons_length]
        exact hy
      · intro clo kh hclo hkh
        exact hcurOK clo kh hclo hkh
      · exact matches_true_curOK2 hcne hkne hmatch
    · rename_i addr hins
      rcases hfn : f none with _ | nv
      · rw [hfn] at hrun
        cases hrun
        exact hinv
      · rw [hfn] at hrun
        cases hrun
        obtain ⟨hle, hLs, hRs⟩ := address_of_insertAt_spec hinv hins
        apply rmInv_insertIdx hinv hle hkne
        · intro x hx
          obtain ⟨xh, klo, hxh, hklo, hlt⟩ := hLs x hx
          have hxne : x.key.is_empty = false :=
            hinv.1 x (List.mem_of_mem_take (List.mem_of_getLast?_eq_some hx))
          exact okPair_of hxh hklo (by omega) (fun ha => absurd ha (by omega))
            hxne hkne
        · intro y hy
          obtain ⟨kh, ylo, hkh, hylo, hlt⟩ := hRs y hy
          have hyne : y.key.is_empty = false := by
            apply hinv.1
            rcases List.getElem?_eq_some_iff.mp hy with ⟨h, he⟩
            exact he ▸ List.getElem_mem h
          exact okPair_of hkh hylo (by omega) (fun ha => absurd ha (by omega))
            hkne hyne

theorem rangeInsert_inv [DecidableEq V] {l : RML V} {key : AnyRange Int} {value : V}
    (hinv : rmInv l) : ∀ l2, rangeInsert l key value = some l2 → rmInv l2 := by
  intro l2 hrun
  unfold rangeInsert at hrun
  split_ifs at hrun with hke
  · cases hrun
    exact hinv
  · have hkne : key.is_empty = false := Bool.eq_false_iff.mpr hke
    split at hrun
    · rename_i addr hfound
      obtain ⟨⟨cur, hget, hcurOK⟩, hRS0⟩ := address_of_found_spec hinv hfound
      apply rangeInsertLoop_inv key value hkne (l.length + 1) l addr
        (nextItemAddress l addr) hinv rfl ?_ ?_ l2 hrun
      · intro y hy
        exact hRS0 y hy
      · intro c2 clo kh hc2 hclo hkh
        rw [hget] at hc2
        injection hc2 with he
        subst he
        exact hcurOK clo kh hclo hkh
    · rename_i addr hins
      cases hrun
      obtain ⟨hle, hLs, hRs⟩ := address_of_insertAt_spec hinv hins
      apply rmInv_insertIdx hinv hle hkne
      · intro x hx
        obtain ⟨xh, klo, hxh, hklo, hlt⟩ := hLs x hx
        have hxne : x.key.is_empty = false :=
          hinv.1 x (List.mem_of_mem_take (List.mem_of_getLast?_eq_some hx))
        exact okPair_of hxh hklo (by omega) (fun ha => absurd ha (by omega)) hxne hkne
      · intro y hy
        obtain ⟨kh, ylo, hkh, hylo, hlt⟩ := hRs y hy
        have hyne : y.key.is_empty = false := by
          apply hinv.1
          rcases List.getElem?_eq_some_iff.mp hy with ⟨h, he⟩
          exact he ▸ List.getElem_mem h
        exact okPair_of hkh hylo (by omega) (fun ha => absurd ha (by omega)) hkne hyne

theorem rangeRemove_inv [DecidableEq V] {l : RML V} {key : AnyRange Int}
    (hinv : rmInv l) : ∀ l2, rangeRemove l key = some l2 → rmInv l2 := by
  intro l2 hrun
  unfold rangeRemove at hrun
  split at hrun
  · exact rangeRemoveLoop_inv key _ _ _ hinv l2 hrun
  · cases hrun
    exact hinv

theorem applyRMOps_inv [DecidableEq V] :
    ∀ (ops : List (RMOp V)) (l : RML V), rmInv l →
      ∀ l2, applyRMOps l ops = some l2 → rmInv l2 := by
  intro ops
  induction ops with
  | nil =>
    intro l hinv l2 h
    cases h
    exact hinv
  | cons op ops ihops =>
    intro l hinv l2 h
    unfold applyRMOps at h
    rcases hop : applyRMOp l op with _ | l1
    · rw [hop] at h
      cases h
    · rw [hop] at h
      simp only [Option.some_bind] at h
      have hinv1 : rmInv l1 := by
        rcases op with ⟨k, v⟩ | ⟨k, f⟩ | ⟨k⟩
        · exact rangeInsert_inv hinv l1 hop
        · exact rangeUpdate_inv hinv l1 hop
        · exact rangeRemove_inv hinv l1 hop
      exact ihops l1 hinv1 l2 h

/-- **C2.** For every RangeMap state satisfying the stored-state invariant (in
particular every map reachable through the public write API, starting from the
empty map) and every finite sequence of insert, update and remove operations
that returns a state, the resulting stored state satisfies: no stored range key
is empty, and no two stored range-items that are order-adjacent in the item
sequence are simultaneously connected (domain-adjacent or overlapping) and
value-equal — every such pair has been coalesced into a single stored item. -/
theorem C2_rangemap_write_ops_normalized [DecidableEq V] (l0 : RML V)
    (ops : List (RMOp V)) (h0 : rmInv l0) :
    ∀ l2, applyRMOps l0 ops = some l2 →
      (∀ it ∈ l2, it.key.is_empty = false) ∧
      (∀ i a b, l2[i]? = some a → l2[i + 1]? = some b →
        ¬(a.key.connected_to b.key = true ∧ a.value = b.value)) := by
  intro l2 h
  have hinv := applyRMOps_inv ops l0 h0 l2 h
  refine ⟨hinv.1, ?_⟩
  intro i a b ha hb
  have hi1 : i + 1 < l2.length := (List.getElem?_eq_some_iff.mp hb).1
  have hcha : rmOkPair a b := by
    have hch := List.chain'_iff_get.mp hinv.2 i (by omega)
    have hae : l2[i] = a := (List.getElem?_eq_some_iff.mp ha).2
    have hbe : l2[i + 1] = b := (List.getElem?_eq_some_iff.mp hb).2
    simpa [List.get_eq_getElem, hae, hbe] using hch
  have hn := hcha.2
  rw [itemsNormalized_true_iff] at hn
  exact hn

/-- Concrete run for C2: two touching equal-valued inserts on the empty map
coalesce into a single stored item with the union range. -/
theorem C2_rangemap_write_ops_normalized_witness :
    rmInv ([] : RML Nat) ∧
    ((∀ it ∈ [(⟨⟨RBound.Included 1, RBound.Included 6⟩,
          7⟩ : Item (AnyRange Int) Nat)],
        it.key.is_empty = false) ∧
      (∀ i a b,
        [(⟨⟨RBound.Included 1, RBound.Included 6⟩,
            7⟩ : Item (AnyRange Int) Nat)][i]? = some a →
        [(⟨⟨RBound.Included 1, RBound.Included 6⟩,
            7⟩ : Item (AnyRange Int) Nat)][i + 1]? = some b →
        ¬(a.key.connected_to b.key = true ∧ a.value = b.value))) :=
  ⟨⟨fun it h => absurd h (List.not_mem_nil it), List.chain'_nil⟩,
   C2_rangemap_write_ops_normalized ([] : RML Nat)
     [RMOp.insertOp ⟨RBound.Included 1, RBound.Included 3⟩ 7,
      RMOp.insertOp ⟨RBound.Included 4, RBound.Included 6⟩ 7]
     ⟨fun it h => absurd h (List.not_mem_nil it), List.chain'_nil⟩
     [⟨⟨RBound.Included 1, RBound.Included 6⟩, 7⟩] rfl⟩

end Stone
